import Mathlib

/-!
# logseq-export: the page transformation pipeline

A shallow embedding of `transform.go` (and of the `page` record of `main.go`)
together with the parts of the Go standard library the file calls:
`strings.Replace`, `path.Split`, `path.Join`, `path.Clean`, `filepath.Join`
and the `regexp` matcher.

Go strings are modelled as lists of characters (`Str`).  All inputs are taken
to be valid UTF-8, so that a rune of the Go program is a `Char` here; every
pattern and every separator of the program is ASCII.
-/

namespace LogseqExport

/-- A Go string, as the list of its runes. -/
abbrev Str := List Char

/-! ## `strings` -/

/-- Go `strings.HasPrefix`. -/
def hasPrefix : Str → Str → Bool
  | _, [] => true
  | [], _ :: _ => false
  | c :: s, d :: p => c == d && hasPrefix s p

/-- Go `strings.Count`: the number of non-overlapping occurrences of `old` in
`s`; for an empty `old` it is the number of runes plus one.  The first argument
is the number of runes of the current occurrence still to be skipped. -/
def stringsCountFrom : Nat → Str → Str → Nat
  | _, [], _ => 0
  | k + 1, _ :: s, old => stringsCountFrom k s old
  | 0, c :: s, old =>
    if hasPrefix (c :: s) old then 1 + stringsCountFrom (old.length - 1) s old
    else stringsCountFrom 0 s old

/-- Go `strings.Count`. -/
def stringsCount (s old : Str) : Nat :=
  if old.isEmpty then s.length + 1 else stringsCountFrom 0 s old

/-- The loop of Go `strings.Replace` for a non-empty `old`: `n` replacements
are still to be made; each one copies the text up to the next occurrence of
`old`, writes `new` and goes on behind the occurrence.  The first argument is
the number of runes of the current occurrence still to be skipped. -/
def replaceLoop (old new : Str) : Nat → Nat → Str → Str
  | _, _, [] => []
  | k + 1, n, _ :: s => replaceLoop old new k n s
  | 0, 0, c :: s => c :: s
  | 0, n + 1, c :: s =>
    if hasPrefix (c :: s) old then new ++ replaceLoop old new (old.length - 1) n s
    else c :: replaceLoop old new 0 (n + 1) s

/-- The loop of Go `strings.Replace` for an empty `old`: `new` is written at
the start and after each rune, `n` times in all. -/
def replaceEmptyLoop (new : Str) : Nat → Str → Str
  | 0, s => s
  | _ + 1, [] => new
  | n + 1, c :: s =>
    new ++ (match n with
      | 0 => c :: s
      | m + 1 => c :: replaceEmptyLoop new (m + 1) s)

/-- Go `strings.Replace(s, old, new, n)`: the first `n` non-overlapping
occurrences of `old` are replaced by `new`, all of them when `n < 0`. -/
def stringsReplace (s old new : Str) (n : Int) : Str :=
  if old = new ∨ n = 0 then s
  else
    let m := stringsCount s old
    if m = 0 then s
    else
      let cnt := if n < 0 ∨ (m : Int) < n then m else n.toNat
      if old.isEmpty then replaceEmptyLoop new cnt s
      else replaceLoop old new 0 cnt s

/-- Go `strings.ReplaceAll(s, old, new)`, which is `Replace(s, old, new, -1)`. -/
def stringsReplaceAll (s old new : Str) : Str :=
  stringsReplace s old new (-1)

/-- Go `strings.Join`. -/
def stringsJoin : List Str → Str → Str
  | [], _ => []
  | [e], _ => e
  | e :: f :: es, sep => e ++ sep ++ stringsJoin (f :: es) sep

/-! ## `path` and `path/filepath` -/

/-- Split a string at every occurrence of the character `sep`; the result
always has at least one element. -/
def splitOnChar (sep : Char) : Str → List Str
  | [] => [[]]
  | c :: s =>
    if c = sep then [] :: splitOnChar sep s
    else
      match splitOnChar sep s with
      | [] => [[c]]
      | e :: es => (c :: e) :: es

/-- Go `path.Split`: the text up to and including the last slash, and the text
behind it. -/
def pathSplit (p : Str) : Str × Str :=
  match (splitOnChar '/' p).reverse with
  | [] => ([], [])
  | file :: _ => (p.take (p.length - file.length), file)

/-- The state of the output buffer of Go `path.Clean`: the text written so
far and `dotdot`, the index in it below which `..` must not backtrack. -/
structure CleanBuf where
  out : Str
  dotdot : Nat
deriving DecidableEq, Repr

/-- The backward scan of the `..` case of `path.Clean`: with `w` already
decremented once, decrement it while it is above `dotdot` and the byte at `w`
is not a slash. -/
def cleanBacktrack (out : Str) (dotdot : Nat) : Nat → Nat
  | 0 => 0
  | w + 1 =>
    if w + 1 > dotdot ∧ out.get? (w + 1) ≠ some '/' then cleanBacktrack out dotdot w
    else w + 1

/-- One round of the loop of Go `path.Clean`, on the path element `e` (a
maximal run of bytes other than the slash). -/
def cleanStep (rooted : Bool) (b : CleanBuf) (e : Str) : CleanBuf :=
  if e = [] then b
  else if e = ['.'] then b
  else if e = ['.', '.'] then
    if b.out.length > b.dotdot then
      { b with out := b.out.take (cleanBacktrack b.out b.dotdot (b.out.length - 1)) }
    else if !rooted then
      let o := (if b.out.length > 0 then b.out ++ ['/'] else b.out) ++ ['.', '.']
      { out := o, dotdot := o.length }
    else b
  else
    let o := if (rooted && b.out.length != 1) || (!rooted && b.out.length != 0)
      then b.out ++ ['/'] else b.out
    { b with out := o ++ e }

/-- Go `path.Clean`. -/
def pathClean (p : Str) : Str :=
  if p = [] then ['.']
  else
    let rooted := p.head? = some '/'
    let start : CleanBuf := if rooted then { out := ['/'], dotdot := 1 } else { out := [], dotdot := 0 }
    let b := (splitOnChar '/' p).foldl (cleanStep rooted) start
    if b.out = [] then ['.'] else b.out

/-- The buffer loop of Go `path.Join`: the non-empty elements, and every
element that follows one, separated by slashes. -/
def pathJoinBuf : Str → List Str → Str
  | buf, [] => buf
  | buf, e :: es =>
    if buf.length > 0 ∨ e ≠ [] then
      pathJoinBuf ((if buf.length > 0 then buf ++ ['/'] else buf) ++ e) es
    else pathJoinBuf buf es

/-- Go `path.Join`. -/
def pathJoin (elem : List Str) : Str :=
  if (elem.map List.length).sum = 0 then []
  else pathClean (pathJoinBuf [] elem)

/-- Go `filepath.Join` on a Unix target (`Separator` is the slash and
`filepath.Clean` is `path.Clean`): the elements from the first non-empty one
on are joined by the separator and cleaned. -/
def filepathJoin : List Str → Str
  | [] => []
  | e :: es =>
    if e ≠ [] then pathClean (stringsJoin (e :: es) ['/'])
    else filepathJoin es

/-! ## `regexp`

Go's `regexp` returns the leftmost match and, among the matches that start
there, the one a backtracking search finds first.  The matcher below is that
backtracking search, written in continuation-passing style. -/

/-- The abstract syntax of the patterns the program uses. -/
inductive Regex where
  /-- The empty pattern. -/
  | empty : Regex
  /-- One rune of a class: a literal, `.`, `\s`, `[- ]`. -/
  | cls : (Char → Bool) → Regex
  /-- Concatenation. -/
  | seq : Regex → Regex → Regex
  /-- Alternation; the left branch is preferred. -/
  | alt : Regex → Regex → Regex
  /-- Repetition, zero or more times; greedy when the flag is set, lazy otherwise. -/
  | star : Bool → Regex → Regex
  /-- The capturing group number 1. -/
  | group : Regex → Regex
  /-- The anchor `^` in multi-line mode. -/
  | bol : Regex
  /-- The anchor `$` in multi-line mode. -/
  | eol : Regex

namespace Regex

/-- A literal rune. -/
def lit (c : Char) : Regex := cls (fun d => d == c)

/-- The class `.`: every rune but the newline. -/
def dot : Regex := cls (fun d => d != '\n')

/-- The greedy `x?`. -/
def opt (r : Regex) : Regex := alt r empty

/-- The lazy `x+?`. -/
def plusLazy (r : Regex) : Regex := seq r (star false r)

/-- The greedy `x+`. -/
def plus (r : Regex) : Regex := seq r (star true r)

/-- A literal string. -/
def str : Str → Regex
  | [] => empty
  | [c] => lit c
  | c :: d :: s => seq (lit c) (str (d :: s))

end Regex

/-- The state of a match in progress: the rune before the current position
(none at the start of the text), the text not yet consumed, and the text of
capturing group 1 when it has taken part in the match. -/
structure MState where
  prev : Option Char
  rest : Str
  cap : Option Str

/-- The first of two alternatives that succeeds. -/
def orTry {α : Type} (a b : Option α) : Option α :=
  match a with
  | some x => some x
  | none => b

/-- The loop of a repetition.  `body` matches one iteration; an iteration that
consumes nothing is cut (no pattern of the program has one).  The numeric
argument bounds the number of iterations and is the length of the remaining
text. -/
def starLoop (body : MState → (MState → Option MState) → Option MState) (greedy : Bool) :
    Nat → MState → (MState → Option MState) → Option MState
  | 0, st, k => k st
  | n + 1, st, k =>
    let again := body st (fun st' =>
      if st'.rest.length < st.rest.length then starLoop body greedy n st' k else none)
    if greedy then orTry again (k st) else orTry (k st) again

/-- The backtracking matcher: `rmatch r st k` matches `r` at the state `st` and
hands the state behind the match to the continuation `k`; when `k` fails the
next way of matching `r` is tried, in the order of preference of the pattern. -/
def rmatch : Regex → MState → (MState → Option MState) → Option MState
  | .empty, st, k => k st
  | .cls p, st, k =>
    match st.rest with
    | [] => none
    | c :: t => if p c then k { prev := some c, rest := t, cap := st.cap } else none
  | .seq a b, st, k => rmatch a st (fun st' => rmatch b st' k)
  | .alt a b, st, k => orTry (rmatch a st k) (rmatch b st k)
  | .star g a, st, k => starLoop (rmatch a) g st.rest.length st k
  | .group a, st, k =>
    rmatch a st (fun st' =>
      k { st' with cap := some (st.rest.take (st.rest.length - st'.rest.length)) })
  | .bol, st, k => if st.prev = none ∨ st.prev = some '\n' then k st else none
  | .eol, st, k => if st.rest.head? = none ∨ st.rest.head? = some '\n' then k st else none

/-- A match: its text and the text of capturing group 1 (Go's `match[0]` and
`match[1]`; an absent group is the empty string). -/
structure Match where
  text : Str
  group1 : Str
deriving DecidableEq, Repr

/-- The match of `re` that starts at the current position, if there is one;
`before` is the rune in front of the position. -/
def matchAt (re : Regex) (before : Option Char) (s : Str) : Option Match :=
  match rmatch re { prev := before, rest := s, cap := none } some with
  | none => none
  | some st => some { text := s.take (s.length - st.rest.length), group1 := st.cap.getD [] }

/-- A piece of a text cut along the successive matches of a pattern: a rune
outside every match, or a match. -/
inductive Piece where
  | rune : Char → Piece
  | found : Match → Piece
deriving DecidableEq, Repr

/-- The successive non-overlapping matches of `re`, as Go's `FindAll...` and
`ReplaceAll...` find them: at each position outside a match the match starting
there is taken, if any; the search goes on behind it, or one rune further when
the match is empty; an empty match right behind a non-empty one is ignored.
`skip` is the number of runes of the current match still to be passed, `abut`
tells that a non-empty match ends at the current position. -/
def pieces (re : Regex) : Option Char → Nat → Bool → Str → List Piece
  | before, _, abut, [] =>
    match matchAt re before [] with
    | some m => if abut then [] else [.found m]
    | none => []
  | _, k + 1, _, c :: s => pieces re (some c) k (k == 0) s
  | before, 0, abut, c :: s =>
    match matchAt re before (c :: s) with
    | none => .rune c :: pieces re (some c) 0 false s
    | some m =>
      if m.text.length = 0 then
        if abut then .rune c :: pieces re (some c) 0 false s
        else .found m :: .rune c :: pieces re (some c) 0 false s
      else .found m :: pieces re (some c) (m.text.length - 1) (m.text.length == 1) s

/-- Go `(*Regexp).FindStringSubmatch`: the leftmost match in `s`. -/
def findStringSubmatch (re : Regex) (s : Str) : Option Match :=
  (pieces re none 0 false s).findSome? (fun p =>
    match p with
    | .found m => some m
    | .rune _ => none)

/-- Go `(*Regexp).FindAllStringSubmatch(s, -1)`: all successive matches. -/
def findAllStringSubmatch (re : Regex) (s : Str) : List Match :=
  (pieces re none 0 false s).filterMap (fun p =>
    match p with
    | .found m => some m
    | .rune _ => none)

/-- Go `(*Regexp).ReplaceAllStringFunc`, for a replacement function that may
fail (a run-time panic of the Go program is the result `none`). -/
def replaceAllStringFunc (re : Regex) (s : Str) (repl : Str → Option Str) : Option Str :=
  (pieces re none 0 false s).foldr (fun p acc =>
    match p with
    | .rune c => acc.map (c :: ·)
    | .found m =>
      match repl m.text, acc with
      | some r, some a => some (r ++ a)
      | _, _ => none) (some [])

/-! ## `main.go`: the page record -/

/-- The `page` record.  `attributes` is a Go map, modelled as an association
list read with `List.lookup`; `assets` is the field `extractAssets` assigns. -/
structure page where
  filename : Str
  attributes : List (Str × Str)
  text : Str
  assets : List Str
deriving DecidableEq, Repr

/-! ## `transform.go` -/

/-- Go's `m[key]` on a map of strings: the value, or the empty string when the
key is absent. -/
def mapGet (m : List (Str × Str)) (key : Str) : Str :=
  (m.lookup key).getD []

/-- The function `sanitizeName`. -/
def sanitizeName (orig : Str) : Str :=
  stringsReplaceAll orig [' '] ['-']

/-- The function `generateFileName`. -/
def generateFileName (originalName : Str) (attributes : List (Str × Str)) : Str :=
  if (attributes.lookup "slug".toList).isNone then sanitizeName originalName
  else
    let date : Str :=
      if (attributes.lookup "date".toList).isSome then mapGet attributes "date".toList ++ ['-']
      else []
    date ++ mapGet attributes "slug".toList ++ ".md".toList

/-- The function `addFileName`. -/
def addFileName (p : page) : page :=
  let filename := generateFileName p.filename p.attributes
  let split := pathSplit (mapGet p.attributes "folder".toList)
  let folder := filepathJoin [split.1, split.2]
  { p with filename := filepathJoin [folder, filename] }

/-- The pattern of `extractAssets`: `!\[.*?]\((\.\.?/.+?)\)`. -/
def assetRegexp : Regex :=
  .seq (.lit '!') (.seq (.lit '[') (.seq (.star false .dot) (.seq (.lit ']') (.seq (.lit '(')
    (.seq (.group (.seq (.lit '.') (.seq (.opt (.lit '.')) (.seq (.lit '/') (.plusLazy .dot)))))
      (.lit ')'))))))

/-- The replacement function of `extractAssets`: the match is matched again,
the base name of its group 1 is joined under the prefix path and put in place
of the first occurrence of group 1 in the match.  Indexing a failed match
panics. -/
def extractAssetsRepl (imagePrefixPath : Str) (s : Str) : Option Str :=
  match findStringSubmatch assetRegexp s with
  | none => none
  | some m =>
    let originalURL := m.group1
    let assetName := (pathSplit originalURL).2
    let newURL := pathJoin [imagePrefixPath, assetName]
    some (stringsReplace s originalURL newURL 1)

/-- The function `extractAssets`. -/
def extractAssets (imagePrefixPath : Str) (p : page) : Option page :=
  let links := findAllStringSubmatch assetRegexp p.text
  let assets := links.map (fun l => l.group1)
  match replaceAllStringFunc assetRegexp p.text (extractAssetsRepl imagePrefixPath) with
  | none => none
  | some textWithAssets => some { p with assets := assets, text := textWithAssets }

/-- The class `\s` of Go's `regexp`: `[\t\n\f\r ]`. -/
def isSpace (c : Char) : Bool :=
  c == '\t' || c == '\n' || c == '\x0c' || c == '\r' || c == ' '

/-- The text rebuilt from its pieces, each match replaced by `repl`. -/
def renderPieces (repl : Str) : List Piece → Str
  | [] => []
  | .rune c :: ps => c :: renderPieces repl ps
  | .found _ :: ps => repl ++ renderPieces repl ps

/-- Go `(*Regexp).ReplaceAllString` for a replacement text without `$`: each
match is replaced by `repl`. -/
def replaceAllString (re : Regex) (src repl : Str) : Str :=
  renderPieces repl (pieces re none 0 false src)

/-- The pattern of `removeEmptyBulletPoints`: `(?m:^\s*-\s*$)`. -/
def emptyBulletRegexp : Regex :=
  .seq .bol (.seq (.star true (.cls isSpace)) (.seq (.lit '-')
    (.seq (.star true (.cls isSpace)) .eol)))

/-- The function `removeEmptyBulletPoints`. -/
def removeEmptyBulletPoints (src : Str) : Str :=
  replaceAllString emptyBulletRegexp src []

/-- The pattern of `firstBulletPointsToParagraphs`: `(?m:^- )`. -/
def firstBulletRegexp : Regex :=
  .seq .bol (.seq (.lit '-') (.lit ' '))

/-- The function `firstBulletPointsToParagraphs`. -/
def firstBulletPointsToParagraphs (src : Str) : Str :=
  replaceAllString firstBulletRegexp src ['\n']

/-- The pattern of `secondToFirstBulletPoints`: `(?m:^\t-)`. -/
def secondBulletRegexp : Regex :=
  .seq .bol (.seq (.lit '\t') (.lit '-'))

/-- The function `secondToFirstBulletPoints`. -/
def secondToFirstBulletPoints (src : Str) : Str :=
  replaceAllString secondBulletRegexp src ['\n', '-']

/-- The pattern of `removeTabFromMultiLevelBulletPoints`: `(?m:^\t{2,}-)`. -/
def multiLevelRegexp : Regex :=
  .seq .bol (.seq (.lit '\t') (.seq (.lit '\t') (.seq (.star true (.lit '\t')) (.lit '-'))))

/-- Go's slice expression `s[1:]`, which panics on the empty string. -/
def dropFirst (s : Str) : Option Str :=
  match s with
  | [] => none
  | _ :: t => some t

/-- The function `removeTabFromMultiLevelBulletPoints`. -/
def removeTabFromMultiLevelBulletPoints (src : Str) : Option Str :=
  replaceAllStringFunc multiLevelRegexp src dropFirst

/-- The pattern `multilineBlocks`: `\n?(- .*\n(?:  .*\n?)+)`. -/
def multilineBlocks : Regex :=
  .seq (.opt (.lit '\n')) (.group (.seq (.lit '-') (.seq (.lit ' ') (.seq (.star true .dot)
    (.seq (.lit '\n')
      (.plus (.seq (.lit ' ') (.seq (.lit ' ') (.seq (.star true .dot) (.opt (.lit '\n')))))))))))

/-- The pattern of the inner replacement of `unindentMultilineStrings`:
`((?m:^[- ] ))`. -/
def leadingRegexp : Regex :=
  .group (.seq .bol (.seq (.cls (fun c => c == '-' || c == ' ')) (.lit ' ')))

/-- The replacement function of `unindentMultilineStrings`: the match is
matched again, the leading `- ` or two spaces of each line of its group 1 are
removed, the result is put in place of the first occurrence of group 1 in the
match and a newline is put in front.  Indexing a failed match panics. -/
def unindentRepl (s : Str) : Option Str :=
  match findStringSubmatch multilineBlocks s with
  | none => none
  | some m =>
    let onlyBlock := m.group1
    let replacement := replaceAllString leadingRegexp onlyBlock []
    let replacedString := stringsReplace s onlyBlock replacement 1
    some ('\n' :: replacedString)

/-- The function `unindentMultilineStrings`. -/
def unindentMultilineStrings (src : Str) : Option Str :=
  replaceAllStringFunc multilineBlocks src unindentRepl

/-- The function `onlyText`: a text transformer as a page transformer. -/
def onlyText (textTransformer : Str → Option Str) (p : page) : Option page :=
  match textTransformer p.text with
  | none => none
  | some t => some { p with text := t }

/-- The function `applyAll`: the transformers are applied in turn; a panic of
one of them is the result. -/
def applyAll (p : page) (transformers : List (page → Option page)) : Option page :=
  transformers.foldl (fun result t => result.bind t) (some p)

/-- The function `transformPage`. -/
def transformPage (p : page) (webAssetsPathPrefix : Str) : Option page :=
  applyAll p
    [fun q => some (addFileName q),
     onlyText (fun s => some (removeEmptyBulletPoints s)),
     onlyText unindentMultilineStrings,
     onlyText (fun s => some (firstBulletPointsToParagraphs s)),
     onlyText (fun s => some (secondToFirstBulletPoints s)),
     onlyText removeTabFromMultiLevelBulletPoints,
     extractAssets webAssetsPathPrefix]

/-! ## Notions used in the statements -/

/-- A path element that `path.Clean` copies as it is: non-empty, without a
slash, and neither `.` nor `..`. -/
def PlainElem (e : Str) : Prop := e ≠ [] ∧ '/' ∉ e ∧ e ≠ ['.'] ∧ e ≠ ['.', '.']

instance : DecidablePred PlainElem := fun e => by unfold PlainElem; infer_instance

/-- Appending a path element to a cleaned relative path. -/
def joinElem (acc e : Str) : Str :=
  if e = [] then acc else if acc = [] then e else acc ++ '/' :: e

/-- The rune-by-rune reading of `sanitizeName`: a space becomes a hyphen. -/
def dashForSpace (c : Char) : Char := if c = ' ' then '-' else c

/-- The base name the specification gives for a page with a slug:
`<date>-<slug>.md` with a date, `<slug>.md` without. -/
def slugBaseName (date : Option Str) (slug : Str) : Str :=
  match date with
  | some d => d ++ ['-'] ++ slug ++ ".md".toList
  | none => slug ++ ".md".toList

/-- The rune in front of the position reached after reading `a`. -/
def advance (before : Option Char) (a : Str) : Option Char :=
  a.foldl (fun _ c => some c) before

/-- The markdown image reference `![a](u)`. -/
def imageRef (a u : Str) : Str :=
  "![".toList ++ a ++ "](".toList ++ u ++ ")".toList

/-- A relative URL as `extractAssets` takes it: `./` or `../` followed by at
least one more character, with no closing parenthesis and no newline. -/
def RelativeURL (u : Str) : Prop :=
  ((hasPrefix u "./".toList = true ∧ 2 < u.length) ∨
    (hasPrefix u "../".toList = true ∧ 3 < u.length)) ∧ ')' ∉ u ∧ '\n' ∉ u

instance : DecidablePred RelativeURL := fun u => by unfold RelativeURL; infer_instance

/-- The base name of a URL in the words of the specification: the part behind
its last slash. -/
def afterLastSlash (u : Str) : Str :=
  (u.reverse.takeWhile (fun c => c != '/')).reverse

/-- The text made of the image references `![a](u)` of a list of pairs
`(a, u)`, one on each line. -/
def refLines (refs : List (Str × Str)) : Str :=
  stringsJoin (refs.map (fun x => imageRef x.1 x.2)) "\n".toList

/-- The pieces of `refLines refs`: each reference is a match whose group 1 is the
URL, each newline between two of them a rune outside the matches. -/
def refPieces : List (Str × Str) → List Piece
  | [] => []
  | [x] => [.found { text := imageRef x.1 x.2, group1 := x.2 }]
  | x :: y :: l =>
    .found { text := imageRef x.1 x.2, group1 := x.2 } :: .rune '\n' :: refPieces (y :: l)

/-- The buffer of `path.Clean` on a rooted path: it starts with the slash, and
`dotdot` stays at 1. -/
def RootedBuf (b : CleanBuf) : Prop := b.out.head? = some '/' ∧ b.dotdot = 1

/-- A text that holds neither `](./` nor `](../`. -/
def NoLink (s : Str) : Prop := ¬ "](./".toList <:+: s ∧ ¬ "](../".toList <:+: s

/-- A position at the beginning of a line: the start of the text or the
position behind a newline. -/
def IsBol (b : Option Char) : Prop := b = none ∨ b = some '\n'

instance : DecidablePred IsBol := fun b => by unfold IsBol; infer_instance

/-- The end of a line: the end of the text or a newline ahead. -/
def IsEol (t : Str) : Prop := t = [] ∨ ∃ t', t = '\n' :: t'

/-- A text that begins with an empty bullet as `emptyBulletRegexp` reads it:
whitespace, a dash, whitespace, and then the end of a line. -/
def BulletAt (s : Str) : Prop :=
  ∃ w1 w2 t, s = w1 ++ '-' :: (w2 ++ t) ∧ (∀ c ∈ w1, isSpace c = true) ∧
    (∀ c ∈ w2, isSpace c = true) ∧ IsEol t

/-- Whitespace up to the end of a line lies ahead. -/
def EolAhead (s : Str) : Prop :=
  ∃ w t, s = w ++ t ∧ (∀ c ∈ w, isSpace c = true) ∧ IsEol t

/-- No match of `re` starts at any position of `s`; `b` is the rune in front
of `s`. -/
def NoMatchFrom (re : Regex) : Option Char → Str → Prop
  | b, [] => matchAt re b [] = none
  | b, c :: s => matchAt re b (c :: s) = none ∧ NoMatchFrom re (some c) s

/-- A continuation that hands back a state whose remaining text is a suffix
of the remaining text it was given. -/
def SufK (k : MState → Option MState) : Prop :=
  ∀ st x, k st = some x → x.rest <:+ st.rest

/-- A pattern that matches at the beginning of a line only. -/
def Anchored (re : Regex) : Prop :=
  ∀ b s, ¬ IsBol b → matchAt re b s = none

/-- The text rebuilt from its pieces, each match replaced by what `repl` makes
of its text; a failure of `repl` is the result. -/
def renderFunc (repl : Str → Option Str) : List Piece → Option Str
  | [] => some []
  | .rune c :: ps => (renderFunc repl ps).map (c :: ·)
  | .found m :: ps =>
    match repl m.text, renderFunc repl ps with
    | some r, some a => some (r ++ a)
    | _, _ => none

/-- A pattern without the anchors `^` and `$`. -/
def AnchorFree : Regex → Prop
  | .empty => True
  | .cls _ => True
  | .seq a b => AnchorFree a ∧ AnchorFree b
  | .alt a b => AnchorFree a ∧ AnchorFree b
  | .star _ a => AnchorFree a
  | .group a => AnchorFree a
  | .bol => False
  | .eol => False

/-- Two states of the same match, one on a text and one on the text cut before
its last part `t`. -/
def CutRel (t : Str) (st st' : MState) : Prop :=
  st.rest = st'.rest ++ t ∧ st.cap = st'.cap

/-- The result on the cut text follows the result on the whole text: it fails
when that fails, and when that ends right before `t` it ends at the end of the
cut text with the same group. -/
def CutSim (t : Str) (o o' : Option MState) : Prop :=
  (o = none → o' = none) ∧
  (∀ x, o = some x → x.rest = t → ∃ x', o' = some x' ∧ x'.rest = [] ∧ x'.cap = x.cap)

/-- Continuations that follow each other on the whole text and on the cut
text. -/
def CutSimK (t : Str) (k k' : MState → Option MState) : Prop :=
  ∀ st st', CutRel t st st' → CutSim t (k st) (k' st')

/-- A body without bullet syntax: no line whose first rune that is no
whitespace is a dash. -/
def NoBulletSyntax (body : Str) : Prop :=
  ∀ l ∈ splitOnChar '\n' body, (l.dropWhile isSpace).head? ≠ some '-'

instance : DecidablePred NoBulletSyntax := fun body => by
  unfold NoBulletSyntax; infer_instance

/-- The continuation lines of a block, each indented by two spaces and ended
by a newline. -/
def blockLines : List Str → Str
  | [] => []
  | B :: Bs => ' ' :: ' ' :: (B ++ '\n' :: blockLines Bs)

/-- The block `- A`, newline, and the continuation lines `Bs`. -/
def blockText (A : Str) (Bs : List Str) : Str :=
  '-' :: ' ' :: (A ++ '\n' :: blockLines Bs)

/-- The lines `Bs` flush left, each ended by a newline. -/
def plainLines : List Str → Str
  | [] => []
  | B :: Bs => B ++ '\n' :: plainLines Bs

/-- The pattern of one continuation line of `multilineBlocks`: two spaces,
`.*` and `\n?`. -/
def continuationRegexp : Regex :=
  .seq (.lit ' ') (.seq (.lit ' ') (.seq (.star true .dot) (.opt (.lit '\n'))))

instance : DecidablePred NoLink := fun s => by unfold NoLink; infer_instance

/-- A line that is an empty bullet as `emptyBulletRegexp` reads it: whitespace
of the class `\s`, one dash, whitespace. -/
def emptyBulletLine (l : Str) : Bool :=
  match l.dropWhile isSpace with
  | '-' :: r => r.all isSpace
  | _ => false

/-- A line of whitespace only; the empty line is one. -/
def blankLine (l : Str) : Bool := l.all isSpace

/-- No empty bullet line stands directly before or behind a line of whitespace
only. -/
def noBlankBesideBullet : List Str → Bool
  | l :: l' :: rest =>
    !(emptyBulletLine l && blankLine l') && !(blankLine l && emptyBulletLine l') &&
      noBlankBesideBullet (l' :: rest)
  | _ => true

/-- An empty bullet line in the words of the specification: spaces and tabs,
a single dash, spaces and tabs. -/
def specEmptyBulletLine (l : Str) : Bool :=
  match l.dropWhile (fun c => c == ' ' || c == '\t') with
  | '-' :: r => r.all (fun c => c == ' ' || c == '\t')
  | _ => false

/-- The line-by-line reading of `removeEmptyBulletPoints`: the text is split at
newlines, every line that `isBullet` takes for an empty bullet becomes the
empty line, and the lines are joined with newlines again. -/
def removeEmptyBulletPointsPerLine (isBullet : Str → Bool) (text : Str) : Str :=
  stringsJoin ((splitOnChar '\n' text).map (fun l => if isBullet l then [] else l)) ['\n']

/-- The part of a text behind its last newline. -/
def lastLine (s : Str) : Str := (s.reverse.takeWhile (fun c => c != '\n')).reverse

/-- Whether some `](./` or `](../` of a text stands behind a `![` of its line.
The flag `bang` tells that a `![` stands on the line in front of the text. -/
def linkBehindBang : Bool → Str → Bool
  | _, [] => false
  | bang, c :: s =>
    (bang && (hasPrefix (c :: s) "](./".toList || hasPrefix (c :: s) "](../".toList)) ||
      linkBehindBang (if c = '\n' then false else bang || hasPrefix (c :: s) "![".toList) s

/-- The text made of pieces of prose, each followed by an image reference
`![a](u)`, and of a last piece of prose; an item is `(prose, a, u)`. -/
def proseRefs : List (Str × Str × Str) → Str → Str
  | [], tail => tail
  | x :: items, tail => x.1 ++ (imageRef x.2.1 x.2.2 ++ proseRefs items tail)

/-- The pieces of `proseRefs items tail`: the runes of the prose, and each
reference a match whose group 1 is the URL. -/
def prosePieces : List (Str × Str × Str) → Str → List Piece
  | [], tail => tail.map .rune
  | x :: items, tail =>
    x.1.map .rune ++
      .found { text := imageRef x.2.1 x.2.2, group1 := x.2.2 } :: prosePieces items tail

/-- The texts `proseRefs items tail` on which a second pass of `extractAssets`
finds nothing.  In the prose no `](./` and no `](../` stands behind a `![` or
behind an image reference of its line (`bang` tells that one stands on the
line in front of the text); a piece of prose that an image reference follows
has no `![` behind its last newline, so that the reference is where the match
begins; every alt text is without newline and without `./`; every URL is a
relative URL. -/
def ProseRefsOK : Bool → List (Str × Str × Str) → Str → Prop
  | bang, [], tail => linkBehindBang bang tail = false
  | bang, x :: items, tail =>
    linkBehindBang bang x.1 = false ∧ ¬ "![".toList <:+: lastLine x.1 ∧
      '\n' ∉ x.2.1 ∧ ¬ "./".toList <:+: x.2.1 ∧ RelativeURL x.2.2 ∧
      ProseRefsOK true items tail

instance decProseRefsOK : ∀ (bang : Bool) (items : List (Str × Str × Str)) (tail : Str),
    Decidable (ProseRefsOK bang items tail)
  | _, [], _ => by unfold ProseRefsOK; infer_instance
  | _, _ :: items, tail => by
    unfold ProseRefsOK
    have := decProseRefsOK true items tail
    infer_instance

/-- The part of `assetRegexp` behind the alt text: `]\((\.\.?/.+?)\)`. -/
def assetTail : Regex :=
  .seq (.lit ']') (.seq (.lit '(')
    (.seq (.group (.seq (.lit '.') (.seq (.opt (.lit '.')) (.seq (.lit '/') (.plusLazy .dot)))))
      (.lit ')')))

/-! ## Lemmas on `strings` -/

theorem replaceLoop_zero (old new : Str) : ∀ (s : Str) (k : Nat),
    replaceLoop old new k 0 s = s.drop k := by
  intro s
  induction s with
  | nil => intro k; cases k <;> simp [replaceLoop]
  | cons c s ih =>
    intro k
    cases k with
    | zero => simp [replaceLoop]
    | succ k => simp [replaceLoop, ih]


theorem replaceLoop_space : ∀ (s : Str) (n : Nat), stringsCountFrom 0 s [' '] ≤ n →
    replaceLoop [' '] ['-'] 0 n s = s.map dashForSpace := by
  intro s
  induction s with
  | nil => intro n _; cases n <;> simp [replaceLoop]
  | cons c s ih =>
    intro n hn
    by_cases hc : c = ' '
    · subst hc
      simp [stringsCountFrom, hasPrefix] at hn
      obtain ⟨m, rfl⟩ : ∃ m, n = m + 1 := ⟨n - 1, by omega⟩
      simp [replaceLoop, hasPrefix, dashForSpace, ih m (by omega)]
    · simp [stringsCountFrom, hasPrefix, hc] at hn
      cases n with
      | zero =>
        have := ih 0 (by omega)
        simp [replaceLoop_zero] at this
        simp [replaceLoop, dashForSpace, hc]
        exact this
      | succ m =>
        simp [replaceLoop, hasPrefix, hc, dashForSpace, ih (m + 1) hn]

theorem sanitizeName_eq_map (s : Str) : sanitizeName s = s.map dashForSpace := by
  unfold sanitizeName stringsReplaceAll stringsReplace
  have h1 : ¬ (([' '] : Str) = ['-'] ∨ (-1 : Int) = 0) := by decide
  simp only [h1, if_false]
  by_cases hm : stringsCount s [' '] = 0
  · simp only [hm, if_true]
    have h := replaceLoop_space s 0 (by simpa [stringsCount] using hm)
    rw [replaceLoop_zero] at h
    simpa using h
  · simp only [hm, if_false]
    have h2 : ((-1 : Int) < 0 ∨ ((stringsCount s [' '] : Nat) : Int) < -1) := Or.inl (by decide)
    simp only [h2, if_true]
    have h3 : (([' '] : Str).isEmpty) = false := rfl
    simp only [h3]
    exact replaceLoop_space s _ (by simp [stringsCount])

/-! ## Lemmas on `path` -/

theorem splitOnChar_ne_nil (sep : Char) (s : Str) : splitOnChar sep s ≠ [] := by
  cases s with
  | nil => simp [splitOnChar]
  | cons c s =>
    simp only [splitOnChar]
    split
    · simp
    · split <;> simp

theorem splitOnChar_append_sep (sep : Char) (b : Str) : ∀ a : Str,
    splitOnChar sep (a ++ sep :: b) = splitOnChar sep a ++ splitOnChar sep b := by
  intro a
  induction a with
  | nil => simp [splitOnChar]
  | cons c a ih =>
    by_cases hc : c = sep
    · simp [splitOnChar, hc, ih]
    · rw [List.cons_append]
      simp only [splitOnChar, hc, if_false]
      rw [ih]
      cases h : splitOnChar sep a with
      | nil => exact absurd h (splitOnChar_ne_nil sep a)
      | cons e es => simp

theorem splitOnChar_of_not_mem (sep : Char) : ∀ e : Str, sep ∉ e → splitOnChar sep e = [e] := by
  intro e
  induction e with
  | nil => intro _; simp [splitOnChar]
  | cons c e ih =>
    intro h
    simp only [List.mem_cons, not_or] at h
    have hc : ¬ c = sep := fun h' => h.1 h'.symm
    simp [splitOnChar, hc, ih h.2]

theorem stringsJoin_cons (e : Str) (es : List Str) (sep : Str) (h : es ≠ []) :
    stringsJoin (e :: es) sep = e ++ sep ++ stringsJoin es sep := by
  cases es with
  | nil => exact absurd rfl h
  | cons f es => simp [stringsJoin]

theorem splitOnChar_join : ∀ es : List Str, es ≠ [] → (∀ e ∈ es, '/' ∉ e) →
    splitOnChar '/' (stringsJoin es ['/']) = es := by
  intro es
  induction es with
  | nil => intro h; exact absurd rfl h
  | cons e es ih =>
    intro _ hall
    cases es with
    | nil => simpa [stringsJoin] using splitOnChar_of_not_mem '/' e (hall e (by simp))
    | cons f es =>
      rw [stringsJoin_cons e (f :: es) _ (by simp)]
      have h1 := splitOnChar_append_sep '/' (stringsJoin (f :: es) ['/']) e
      simp only [List.append_assoc, List.singleton_append]
      rw [h1, splitOnChar_of_not_mem '/' e (hall e (by simp)),
        ih (by simp) (fun x hx => hall x (List.mem_cons_of_mem _ hx))]
      simp

theorem take_length_sub (x y : Str) : (x ++ y).take ((x ++ y).length - y.length) = x := by
  simp

theorem pathSplit_of_not_mem (e : Str) (h : '/' ∉ e) : pathSplit e = ([], e) := by
  simp [pathSplit, splitOnChar_of_not_mem '/' e h]

theorem pathSplit_append (a b : Str) (h : '/' ∉ b) :
    pathSplit (a ++ '/' :: b) = (a ++ ['/'], b) := by
  unfold pathSplit
  rw [splitOnChar_append_sep, splitOnChar_of_not_mem '/' b h]
  simp only [List.reverse_append, List.reverse_cons, List.reverse_nil, List.nil_append,
    List.singleton_append]
  have : a ++ '/' :: b = (a ++ ['/']) ++ b := by simp
  rw [this, take_length_sub]

theorem cleanStep_nil (r : Bool) (b : CleanBuf) : cleanStep r b [] = b := by
  simp [cleanStep]

theorem cleanStep_plain (b : CleanBuf) (e : Str) (h : PlainElem e) :
    cleanStep false b e = { b with out := joinElem b.out e } := by
  obtain ⟨h1, _, h3, h4⟩ := h
  simp only [cleanStep, h1, h3, h4, if_false, joinElem]
  by_cases hb : b.out = []
  · simp [hb]
  · have : b.out.length ≠ 0 := by simpa using hb
    simp [hb, this]

theorem cleanFold : ∀ (es : List Str), (∀ e ∈ es, e = [] ∨ PlainElem e) → ∀ b : CleanBuf,
    es.foldl (cleanStep false) b = { b with out := es.foldl joinElem b.out } := by
  intro es
  induction es with
  | nil => intro _ b; simp
  | cons e es ih =>
    intro hall b
    simp only [List.foldl_cons]
    rcases hall e (by simp) with he | he
    · subst he
      rw [cleanStep_nil, ih (fun x hx => hall x (List.mem_cons_of_mem _ hx))]
      simp [joinElem]
    · rw [cleanStep_plain b e he, ih (fun x hx => hall x (List.mem_cons_of_mem _ hx))]

theorem foldl_joinElem_plain : ∀ (es : List Str), (∀ e ∈ es, PlainElem e) → ∀ acc : Str,
    acc ≠ [] → es.foldl joinElem acc = stringsJoin (acc :: es) ['/'] := by
  intro es
  induction es with
  | nil => intro _ acc _; simp [stringsJoin]
  | cons e es ih =>
    intro hall acc hacc
    have he := hall e (by simp)
    simp only [List.foldl_cons]
    have : joinElem acc e = acc ++ '/' :: e := by simp [joinElem, he.1, hacc]
    rw [this, ih (fun x hx => hall x (List.mem_cons_of_mem _ hx)) _ (by simp)]
    cases es with
    | nil => simp [stringsJoin]
    | cons f es =>
      rw [stringsJoin_cons _ (f :: es) _ (by simp), stringsJoin_cons acc (e :: f :: es) _ (by simp),
        stringsJoin_cons e (f :: es) _ (by simp)]
      simp

theorem stringsJoin_concat (sep x : Str) : ∀ es : List Str, es ≠ [] →
    stringsJoin (es ++ [x]) sep = stringsJoin es sep ++ sep ++ x := by
  intro es
  induction es with
  | nil => intro h; exact absurd rfl h
  | cons e es ih =>
    intro _
    cases es with
    | nil => simp [stringsJoin]
    | cons f es =>
      have h1 : (e :: f :: es) ++ [x] = e :: ((f :: es) ++ [x]) := rfl
      rw [h1, stringsJoin_cons e _ _ (by simp), ih (by simp),
        stringsJoin_cons e (f :: es) _ (by simp)]
      simp

theorem stringsJoin_ne_nil (sep : Str) (e : Str) (es : List Str) (h : e ≠ []) :
    stringsJoin (e :: es) sep ≠ [] := by
  cases es with
  | nil => simpa [stringsJoin] using h
  | cons f es => simp [stringsJoin, h]

theorem stringsJoin_head (sep : Str) (e : Str) (es : List Str) (h : e ≠ []) :
    (stringsJoin (e :: es) sep).head? = e.head? := by
  cases e with
  | nil => exact absurd rfl h
  | cons c e =>
    cases es with
    | nil => simp [stringsJoin]
    | cons f es => simp [stringsJoin]

theorem pathClean_elems (e : Str) (es : List Str) (he : PlainElem e)
    (hes : ∀ x ∈ es, x = [] ∨ PlainElem x) :
    pathClean (stringsJoin (e :: es) ['/']) = es.foldl joinElem e := by
  have hne : stringsJoin (e :: es) ['/'] ≠ [] := stringsJoin_ne_nil _ e es he.1
  have hhead : ¬ ((stringsJoin (e :: es) ['/']).head? = some '/') := by
    rw [stringsJoin_head _ e es he.1]
    intro h
    cases e with
    | nil => exact he.1 rfl
    | cons c e =>
      simp at h
      exact he.2.1 (by simp [h])
  have hsplit : splitOnChar '/' (stringsJoin (e :: es) ['/']) = e :: es := by
    apply splitOnChar_join _ (by simp)
    intro x hx
    rcases List.mem_cons.1 hx with rfl | hx
    · exact he.2.1
    · rcases hes x hx with rfl | hp
      · simp
      · exact hp.2.1
  have hfold := cleanFold (e :: es) (by
    intro x hx
    rcases List.mem_cons.1 hx with rfl | hx
    · exact Or.inr he
    · exact hes x hx) { out := [], dotdot := 0 }
  have hj : joinElem [] e = e := by simp [joinElem]
  have hout : es.foldl joinElem e ≠ [] := by
    have : ∀ (l : List Str) (a : Str), a ≠ [] → l.foldl joinElem a ≠ [] := by
      intro l
      induction l with
      | nil => intro a ha; simpa using ha
      | cons x l ih =>
        intro a ha
        simp only [List.foldl_cons]
        apply ih
        unfold joinElem
        split
        · exact ha
        · simp [ha]
    exact this es e he.1
  unfold pathClean
  simp only [hne, if_false, hhead, decide_False, Bool.false_eq_true, hsplit]
  rw [hfold]
  simp only [List.foldl_cons, hj, hout, if_false]

theorem pathClean_join_plain (es : List Str) (hne : es ≠ []) (hes : ∀ e ∈ es, PlainElem e) :
    pathClean (stringsJoin es ['/']) = stringsJoin es ['/'] := by
  cases es with
  | nil => exact absurd rfl hne
  | cons e es =>
    rw [pathClean_elems e es (hes e (by simp))
      (fun x hx => Or.inr (hes x (List.mem_cons_of_mem _ hx)))]
    exact foldl_joinElem_plain es (fun x hx => hes x (List.mem_cons_of_mem _ hx)) e
      (hes e (by simp)).1

theorem folderDir_nil : filepathJoin [(pathSplit []).1, (pathSplit []).2] = [] := by
  decide

theorem folderDir_join (es : List Str) (hne : es ≠ []) (hes : ∀ e ∈ es, PlainElem e) :
    filepathJoin [(pathSplit (stringsJoin es ['/'])).1, (pathSplit (stringsJoin es ['/'])).2]
      = stringsJoin es ['/'] := by
  rcases List.eq_nil_or_concat es with h | ⟨ini, last, rfl⟩
  · exact absurd h hne
  · rw [List.concat_eq_append] at hne hes ⊢
    have hlast : PlainElem last := hes last (by simp)
    have hini : ∀ e ∈ ini, PlainElem e := fun e he => hes e (by simp [he])
    cases ini with
    | nil =>
      simp only [List.nil_append, stringsJoin, pathSplit_of_not_mem last hlast.2.1, filepathJoin,
        ne_eq, not_true_eq_false, if_false, hlast.1, not_false_eq_true, if_true]
      simpa [stringsJoin] using pathClean_join_plain [last] (by simp) (by simpa using hlast)
    | cons e ini =>
      rw [stringsJoin_concat _ _ _ (by simp)]
      have h1 : stringsJoin (e :: ini) ['/'] ++ ['/'] ++ last
          = stringsJoin (e :: ini) ['/'] ++ '/' :: last := by simp
      rw [h1, pathSplit_append _ _ hlast.2.1]
      have h2 : stringsJoin (e :: ini) ['/'] ++ ['/'] ≠ [] := by simp
      simp only [filepathJoin, ne_eq, h2, not_false_eq_true, if_true]
      have h3 : stringsJoin [stringsJoin (e :: ini) ['/'] ++ ['/'], last] ['/']
          = stringsJoin (e :: (ini ++ [[], last])) ['/'] := by
        have : e :: (ini ++ [[], last]) = ((e :: ini) ++ [[]]) ++ [last] := by simp
        rw [this, stringsJoin_concat _ _ _ (by simp), stringsJoin_concat _ _ _ (by simp)]
        simp [stringsJoin]
      rw [h3, pathClean_elems e _ (hini e (by simp)) (by
        intro x hx
        rcases List.mem_append.1 hx with hx | hx
        · exact Or.inr (hini x (List.mem_cons_of_mem _ hx))
        · rcases List.mem_cons.1 hx with rfl | hx
          · exact Or.inl rfl
          · rw [List.mem_singleton] at hx
            subst hx
            exact Or.inr hlast)]
      rw [List.foldl_append, foldl_joinElem_plain ini
        (fun x hx => hini x (List.mem_cons_of_mem _ hx)) e (hini e (by simp)).1]
      have h4 : stringsJoin (e :: ini) ['/'] ≠ [] := stringsJoin_ne_nil _ _ _ (hini e (by simp)).1
      simp [joinElem, hlast.1, h4]

theorem filepathJoin_under (es : List Str) (g : Str) (hne : es ≠ [])
    (hes : ∀ e ∈ es, PlainElem e) (hg : PlainElem g) :
    filepathJoin [stringsJoin es ['/'], g] = stringsJoin es ['/'] ++ ['/'] ++ g := by
  cases es with
  | nil => exact absurd rfl hne
  | cons e es =>
    have h1 : stringsJoin (e :: es) ['/'] ≠ [] := stringsJoin_ne_nil _ _ _ (hes e (by simp)).1
    simp only [filepathJoin, ne_eq, h1, not_false_eq_true, if_true]
    have h2 : stringsJoin [stringsJoin (e :: es) ['/'], g] ['/']
        = stringsJoin ((e :: es) ++ [g]) ['/'] := by
      rw [stringsJoin_concat _ _ _ (by simp)]
      simp [stringsJoin]
    rw [h2, pathClean_join_plain _ (by simp) (by
      intro x hx
      rcases List.mem_append.1 hx with hx | hx
      · exact hes x hx
      · rw [List.mem_singleton] at hx
        subst hx
        exact hg), stringsJoin_concat _ _ _ (by simp)]

theorem filepathJoin_nil_left (g : Str) :
    filepathJoin [[], g] = if g = [] then [] else pathClean g := by
  by_cases h : g = []
  · subst h; decide
  · simp [filepathJoin, h, stringsJoin]

/-! ## The Filename Deriver -/

theorem generateFileName_of_slug (name : Str) (attributes : List (Str × Str)) (slug : Str)
    (hslug : attributes.lookup "slug".toList = some slug) :
    generateFileName name attributes
      = slugBaseName (attributes.lookup "date".toList) slug := by
  unfold generateFileName slugBaseName mapGet
  rw [hslug]
  cases hd : attributes.lookup "date".toList <;> simp

theorem generateFileName_eq_map (name : Str) (attributes : List (Str × Str))
    (hslug : attributes.lookup "slug".toList = none) :
    generateFileName name attributes = name.map dashForSpace := by
  unfold generateFileName
  rw [hslug]
  simp [sanitizeName_eq_map]

theorem plainElem_map_dash (name : Str) (h : PlainElem name) :
    PlainElem (name.map dashForSpace) := by
  obtain ⟨h1, h2, h3, h4⟩ := h
  have hd : ∀ c d : Char, dashForSpace c = d → d ≠ '-' → c = d := by
    intro c d hcd hne
    unfold dashForSpace at hcd
    split at hcd
    · exact absurd hcd.symm hne
    · exact hcd
  refine ⟨by simpa using h1, ?_, ?_, ?_⟩
  · intro hmem
    obtain ⟨c, hc, hcd⟩ := List.mem_map.1 hmem
    rw [hd c '/' hcd (by decide)] at hc
    exact h2 hc
  · intro hmap
    cases name with
    | nil => simp at hmap
    | cons c t =>
      cases t with
      | nil =>
        simp at hmap
        exact h3 (by rw [hd c '.' hmap (by decide)])
      | cons d t => simp at hmap
  · intro hmap
    cases name with
    | nil => simp at hmap
    | cons c t =>
      cases t with
      | nil => simp at hmap
      | cons d t =>
        cases t with
        | nil =>
          simp at hmap
          exact h4 (by rw [hd c '.' hmap.1 (by decide), hd d '.' hmap.2 (by decide)])
        | cons e t => simp at hmap

theorem plainElem_slugBaseName (date : Option Str) (slug : Str) (hs : '/' ∉ slug)
    (hd : ∀ d, date = some d → '/' ∉ d) : PlainElem (slugBaseName date slug) := by
  have hmd : '/' ∉ ".md".toList := by decide
  cases date with
  | none =>
    refine ⟨?_, ?_, ?_, ?_⟩
    · simp [slugBaseName]
    · simp only [slugBaseName, List.mem_append, not_or]; exact ⟨hs, hmd⟩
    · intro h; have := congrArg List.length h; simp [slugBaseName] at this
    · intro h; have := congrArg List.length h; simp [slugBaseName] at this
  | some d =>
    have hd' := hd d rfl
    refine ⟨?_, ?_, ?_, ?_⟩
    · simp [slugBaseName]
    · simp only [slugBaseName, List.mem_append, not_or]
      exact ⟨⟨⟨hd', by decide⟩, hs⟩, hmd⟩
    · intro h; have := congrArg List.length h; simp [slugBaseName] at this; omega
    · intro h; have := congrArg List.length h; simp [slugBaseName] at this; omega

theorem slugBaseName_ne_nil (date : Option Str) (slug : Str) : slugBaseName date slug ≠ [] := by
  cases date <;> simp [slugBaseName]

theorem mapGet_of_none (m : List (Str × Str)) (key : Str) (h : m.lookup key = none) :
    mapGet m key = [] := by
  simp [mapGet, h]

theorem mapGet_of_some (m : List (Str × Str)) (key v : Str) (h : m.lookup key = some v) :
    mapGet m key = v := by
  simp [mapGet, h]

theorem addFileName_no_folder (p : page)
    (hfolder : p.attributes.lookup "folder".toList = none) :
    (addFileName p).filename
      = if generateFileName p.filename p.attributes = [] then []
        else pathClean (generateFileName p.filename p.attributes) := by
  simp only [addFileName, mapGet_of_none _ _ hfolder, folderDir_nil, filepathJoin_nil_left]

theorem addFileName_folder (p : page) (segs : List Str) (hne : segs ≠ [])
    (hsegs : ∀ e ∈ segs, PlainElem e)
    (hfolder : p.attributes.lookup "folder".toList = some (stringsJoin segs ['/']))
    (hg : PlainElem (generateFileName p.filename p.attributes)) :
    (addFileName p).filename
      = stringsJoin segs ['/'] ++ ['/'] ++ generateFileName p.filename p.attributes := by
  simp only [addFileName, mapGet_of_some _ _ _ hfolder, folderDir_join segs hne hsegs,
    filepathJoin_under segs _ hne hsegs hg]

/-- C6: for every source name and every attribute map with a `slug` entry,
`generateFileName` ignores the source name and returns `date ++ "-" ++ slug ++ ".md"`
when a `date` entry is present and `slug ++ ".md"` otherwise. -/
theorem generateFileName_slug (sourceName : Str) (attributes : List (Str × Str)) (slug : Str)
    (hslug : attributes.lookup "slug".toList = some slug) :
    generateFileName sourceName attributes =
      match attributes.lookup "date".toList with
      | some date => date ++ "-".toList ++ slug ++ ".md".toList
      | none => slug ++ ".md".toList := by
  rw [generateFileName_of_slug sourceName attributes slug hslug]
  cases attributes.lookup "date".toList <;> rfl

theorem generateFileName_slug_witness :
    generateFileName "ignored.md".toList [("slug".toList, "hello".toList)] = "hello.md".toList ∧
    generateFileName "ignored.md".toList
      [("slug".toList, "hello".toList), ("date".toList, "2024-01-01".toList)]
      = "2024-01-01-hello.md".toList :=
  ⟨generateFileName_slug _ _ "hello".toList (by decide),
   generateFileName_slug _ _ "hello".toList (by decide)⟩

/-- C7: for every source name and every attribute map without a `slug` entry,
`generateFileName` returns the source name with every space replaced by a
hyphen and every other character unchanged; the result has the length of the
source name and holds no space. -/
theorem generateFileName_no_slug (sourceName : Str) (attributes : List (Str × Str))
    (hslug : attributes.lookup "slug".toList = none) :
    generateFileName sourceName attributes
        = sourceName.map (fun c => if c = ' ' then '-' else c) ∧
      (generateFileName sourceName attributes).length = sourceName.length ∧
      ' ' ∉ generateFileName sourceName attributes := by
  have h : generateFileName sourceName attributes = sourceName.map dashForSpace :=
    generateFileName_eq_map sourceName attributes hslug
  refine ⟨h, by simp [h], ?_⟩
  rw [h]
  intro hmem
  obtain ⟨c, _, hc⟩ := List.mem_map.1 hmem
  unfold dashForSpace at hc
  split at hc
  · exact absurd hc (by decide)
  · rename_i hne; exact hne hc

theorem generateFileName_no_slug_witness :
    generateFileName "My Page.md".toList [] = "My-Page.md".toList :=
  (generateFileName_no_slug "My Page.md".toList [] (by decide)).1.trans (by decide)

/-- C8, as it stands, fails: without a `slug` entry the `folder` attribute is
still consulted.  With attributes `{folder: "posts"}` and source name
`My Page.md` the filename is `posts/My-Page.md`, while with no attribute at
all it is `My-Page.md`. -/
theorem addFileName_no_slug_folder_counterexample :
    (addFileName { filename := "My Page.md".toList,
                   attributes := [("folder".toList, "posts".toList)],
                   text := [], assets := [] }).filename = "posts/My-Page.md".toList ∧
    (addFileName { filename := "My Page.md".toList, attributes := [],
                   text := [], assets := [] }).filename = "My-Page.md".toList := by
  decide

/-- C8, amended: for every page without a `slug` entry whose source name is a
file name (non-empty, without a slash, neither `.` nor `..`), `addFileName`
joins the source name with spaces replaced by hyphens under the directory of
the `folder` attribute: the filename is the sanitized source name alone when
`folder` is absent, and `s_1/…/s_k/` followed by the sanitized source name when
`folder` is `s_1/…/s_k` (each segment non-empty, without a slash, neither `.`
nor `..`). -/
theorem addFileName_no_slug (p : page)
    (hslug : p.attributes.lookup "slug".toList = none) (hname : PlainElem p.filename) :
    (p.attributes.lookup "folder".toList = none →
      (addFileName p).filename = p.filename.map (fun c => if c = ' ' then '-' else c)) ∧
    (∀ segs : List Str, segs ≠ [] → (∀ e ∈ segs, PlainElem e) →
      p.attributes.lookup "folder".toList = some (stringsJoin segs "/".toList) →
      (addFileName p).filename
        = stringsJoin segs "/".toList ++ "/".toList
            ++ p.filename.map (fun c => if c = ' ' then '-' else c)) := by
  have hg : generateFileName p.filename p.attributes = p.filename.map dashForSpace :=
    generateFileName_eq_map p.filename p.attributes hslug
  have hplain : PlainElem (p.filename.map dashForSpace) := plainElem_map_dash _ hname
  constructor
  · intro hfolder
    rw [addFileName_no_folder p hfolder, hg, if_neg hplain.1]
    simpa [stringsJoin] using pathClean_join_plain [p.filename.map dashForSpace] (by simp)
      (by simpa using hplain)
  · intro segs hne hsegs hfolder
    have := addFileName_folder p segs hne hsegs hfolder (by rw [hg]; exact hplain)
    rw [this, hg]
    rfl

theorem addFileName_no_slug_witness :
    (addFileName { filename := "My Page.md".toList,
                   attributes := [("folder".toList, "posts/tech".toList)],
                   text := [], assets := [] }).filename = "posts/tech/My-Page.md".toList :=
  ((addFileName_no_slug
      { filename := "My Page.md".toList,
        attributes := [("folder".toList, "posts/tech".toList)],
        text := [], assets := [] }
    (by decide) (by decide)).2 ["posts".toList, "tech".toList] (by decide) (by decide)
    (by decide)).trans (by decide)

/-- C9: for every page with a `slug` entry whose slug and date hold no slash
and whose `folder` entry is `s_1/…/s_k` (`k ≥ 1`, each segment non-empty,
without a slash, neither `.` nor `..`), `addFileName` sets the filename to the
segments joined by the separator, followed by the separator and the base name
`<date->slug.md`.  The separator is the slash of a Unix target. -/
theorem addFileName_slug_folder (p : page) (slug : Str) (segs : List Str)
    (hslug : p.attributes.lookup "slug".toList = some slug) (hs : '/' ∉ slug)
    (hd : ∀ date, p.attributes.lookup "date".toList = some date → '/' ∉ date)
    (hne : segs ≠ []) (hsegs : ∀ e ∈ segs, PlainElem e)
    (hfolder : p.attributes.lookup "folder".toList = some (stringsJoin segs "/".toList)) :
    (addFileName p).filename
      = stringsJoin segs "/".toList ++ "/".toList ++
          (match p.attributes.lookup "date".toList with
            | some date => date ++ "-".toList ++ slug ++ ".md".toList
            | none => slug ++ ".md".toList) := by
  have hg := generateFileName_of_slug p.filename p.attributes slug hslug
  have hplain := plainElem_slugBaseName (p.attributes.lookup "date".toList) slug hs hd
  have := addFileName_folder p segs hne hsegs hfolder (by rw [hg]; exact hplain)
  rw [this, hg]
  cases p.attributes.lookup "date".toList <;> rfl

theorem addFileName_slug_folder_witness :
    (addFileName { filename := "ignored.md".toList,
                   attributes := [("slug".toList, "hello".toList),
                     ("folder".toList, "posts/tech".toList)],
                   text := [], assets := [] }).filename = "posts/tech/hello.md".toList :=
  (addFileName_slug_folder
      { filename := "ignored.md".toList,
        attributes := [("slug".toList, "hello".toList), ("folder".toList, "posts/tech".toList)],
        text := [], assets := [] }
      "hello".toList ["posts".toList, "tech".toList]
    (by decide) (by decide) (by decide) (by decide) (by decide) (by decide)).trans (by decide)

/-- C10, as it stands, fails: a slug with a repeated separator or a `..`
element is normalised.  Without a `folder` entry the slug `a//b` gives the
filename `a/b.md`, not `a//b.md`, and the slug `a/../b` gives `b.md`. -/
theorem addFileName_slug_verbatim_counterexample :
    (addFileName { filename := "x.md".toList, attributes := [("slug".toList, "a//b".toList)],
                   text := [], assets := [] }).filename = "a/b.md".toList ∧
    (addFileName { filename := "x.md".toList, attributes := [("slug".toList, "a/../b".toList)],
                   text := [], assets := [] }).filename = "b.md".toList := by
  decide

/-- C10, amended: for every page with a `slug` entry and no `folder` entry the
filename set by `addFileName` is `path.Clean` of the base name
`<date->slug.md`, with no directory in front; it is the base name itself,
character for character, whenever slug and date hold no slash. -/
theorem addFileName_slug_no_folder (p : page) (slug : Str)
    (hslug : p.attributes.lookup "slug".toList = some slug)
    (hfolder : p.attributes.lookup "folder".toList = none) :
    (addFileName p).filename
        = pathClean (slugBaseName (p.attributes.lookup "date".toList) slug) ∧
    (('/' ∉ slug ∧ ∀ date, p.attributes.lookup "date".toList = some date → '/' ∉ date) →
      (addFileName p).filename = slugBaseName (p.attributes.lookup "date".toList) slug) := by
  have hg := generateFileName_of_slug p.filename p.attributes slug hslug
  have h1 : (addFileName p).filename
      = pathClean (slugBaseName (p.attributes.lookup "date".toList) slug) := by
    rw [addFileName_no_folder p hfolder, hg, if_neg (slugBaseName_ne_nil _ _)]
  refine ⟨h1, ?_⟩
  rintro ⟨hs, hd⟩
  rw [h1]
  have hplain := plainElem_slugBaseName (p.attributes.lookup "date".toList) slug hs hd
  simpa [stringsJoin] using pathClean_join_plain [slugBaseName _ slug] (by simp)
    (by simpa using hplain)

theorem addFileName_slug_no_folder_witness :
    (addFileName { filename := "x.md".toList,
                   attributes := [("slug".toList, "he..o".toList),
                     ("date".toList, "2024-01-01".toList)],
                   text := [], assets := [] }).filename = "2024-01-01-he..o.md".toList :=
  ((addFileName_slug_no_folder
      { filename := "x.md".toList,
        attributes := [("slug".toList, "he..o".toList), ("date".toList, "2024-01-01".toList)],
        text := [], assets := [] }
      "he..o".toList (by decide) (by decide)).2
    ⟨by decide, by decide⟩).trans (by decide)

/-! ## Lemmas on the matcher -/

@[simp] theorem orTry_none {α : Type} (b : Option α) : orTry none b = b := rfl

@[simp] theorem orTry_some {α : Type} (x : α) (b : Option α) : orTry (some x) b = some x := rfl

theorem rmatch_cls_cons (p : Char → Bool) (prev : Option Char) (c : Char) (t : Str)
    (cap : Option Str) (k : MState → Option MState) :
    rmatch (.cls p) ⟨prev, c :: t, cap⟩ k = if p c then k ⟨some c, t, cap⟩ else none := by
  simp [rmatch]

theorem rmatch_cls_nil (p : Char → Bool) (prev : Option Char)
    (cap : Option Str) (k : MState → Option MState) :
    rmatch (.cls p) ⟨prev, [], cap⟩ k = none := by
  simp [rmatch]

theorem rmatch_lit_cons (d : Char) (prev : Option Char) (c : Char) (t : Str)
    (cap : Option Str) (k : MState → Option MState) :
    rmatch (.lit d) ⟨prev, c :: t, cap⟩ k = if c = d then k ⟨some c, t, cap⟩ else none := by
  simp [Regex.lit, rmatch]

theorem rmatch_lit_nil (d : Char) (prev : Option Char)
    (cap : Option Str) (k : MState → Option MState) :
    rmatch (.lit d) ⟨prev, [], cap⟩ k = none := by
  simp [Regex.lit, rmatch]

theorem starLoop_lazy_stop (body : MState → (MState → Option MState) → Option MState)
    (n : Nat) (st x : MState) (k : MState → Option MState) (h : k st = some x) :
    starLoop body false n st k = some x := by
  cases n <;> simp [starLoop, h]

theorem starLoop_lazy_skip (p : Char → Bool) (k : MState → Option MState) (rest : Str)
    (cap : Option Str) : ∀ (a : Str) (n : Nat) (prev : Option Char),
    (∀ c ∈ a, p c = true) →
    (∀ c ∈ a, ∀ prev' t, k ⟨prev', c :: t, cap⟩ = none) →
    (a ++ rest).length ≤ n →
    starLoop (rmatch (.cls p)) false n ⟨prev, a ++ rest, cap⟩ k
      = starLoop (rmatch (.cls p)) false (n - a.length) ⟨advance prev a, rest, cap⟩ k := by
  intro a
  induction a with
  | nil => intro n prev _ _ _; simp [advance]
  | cons c a ih =>
    intro n prev hp hk hn
    obtain ⟨m, rfl⟩ : ∃ m, n = m + 1 := ⟨n - 1, by simp at hn; omega⟩
    have hlen : (a ++ rest).length ≤ m := by simp at hn ⊢; omega
    simp only [List.cons_append, starLoop, hk c (by simp), orTry_none, rmatch_cls_cons,
      hp c (by simp), if_true, List.length_cons, Nat.lt_succ_self, Bool.false_eq_true, if_false]
    rw [ih m (some c) (fun x hx => hp x (List.mem_cons_of_mem _ hx))
      (fun x hx => hk x (List.mem_cons_of_mem _ hx)) hlen]
    simp [advance]

theorem imageRef_append (a u t : Str) :
    imageRef a u ++ t = '!' :: '[' :: (a ++ ']' :: '(' :: (u ++ ')' :: t)) := by
  simp [imageRef]

/-- The lazy `.+?` followed by `\)` and the end of the group, on `r` and a
closing parenthesis. -/
theorem rmatch_url_tail (r t : Str) (hr : r ≠ []) (hp : ')' ∉ r) (hn : '\n' ∉ r)
    (prev : Option Char) (cap : Option Str) (f : MState → Option Str) :
    rmatch (.plusLazy .dot) ⟨prev, r ++ ')' :: t, cap⟩
        (fun st => rmatch (.lit ')') ⟨st.prev, st.rest, f st⟩ some)
      = some ⟨some ')', t, f ⟨advance prev r, ')' :: t, cap⟩⟩ := by
  cases r with
  | nil => exact absurd rfl hr
  | cons c r =>
    simp only [List.mem_cons, not_or] at hp hn
    have hc : (c != '\n') = true := by
      simp only [bne_iff_ne, ne_eq]
      exact fun h => hn.1 h.symm
    simp only [Regex.plusLazy, Regex.dot, List.cons_append]
    rw [rmatch, rmatch_cls_cons, if_pos hc, rmatch]
    rw [starLoop_lazy_skip _ _ _ _ r _ (some c)
      (fun x hx => by
        simp only [bne_iff_ne, ne_eq]
        exact fun h => hn.2 (h ▸ hx))
      (fun x hx prev' t' => by
        have : ¬ x = ')' := fun h => hp.2 (h ▸ hx)
        simp [rmatch_lit_cons, this])
      (le_refl _)]
    apply starLoop_lazy_stop
    simp [rmatch_lit_cons, advance]

/-- The pattern of the capturing group of `assetRegexp`: `\.\.?/.+?`. -/
theorem rmatch_url_group (u r t : Str) (hr : r ≠ []) (hp : ')' ∉ r) (hn : '\n' ∉ r)
    (hu : u = "./".toList ++ r ∨ u = "../".toList ++ r)
    (prev : Option Char) (cap : Option Str) :
    rmatch (.group (.seq (.lit '.') (.seq (.opt (.lit '.')) (.seq (.lit '/') (.plusLazy .dot)))))
        ⟨prev, u ++ ')' :: t, cap⟩ (fun st => rmatch (.lit ')') st some)
      = some ⟨some ')', t, some u⟩ := by
  rcases hu with rfl | rfl
  · simp only [String.toList, List.cons_append, List.nil_append]
    rw [rmatch, rmatch, rmatch_lit_cons, if_pos rfl, rmatch, Regex.opt, rmatch, rmatch_lit_cons,
      if_neg (by decide), orTry_none, rmatch, rmatch, rmatch_lit_cons, if_pos rfl]
    rw [rmatch_url_tail r t hr hp hn (some '/') cap
      (fun st' => some (('.' :: '/' :: (r ++ ')' :: t)).take
        (('.' :: '/' :: (r ++ ')' :: t)).length - st'.rest.length)))]
    have : ('.' :: '/' :: (r ++ ')' :: t)) = ('.' :: '/' :: r) ++ ')' :: t := by simp
    simp only [this, take_length_sub]
  · simp only [String.toList, List.cons_append, List.nil_append]
    rw [rmatch, rmatch, rmatch_lit_cons, if_pos rfl, rmatch, Regex.opt, rmatch, rmatch_lit_cons,
      if_pos rfl, rmatch, rmatch, rmatch_lit_cons, if_pos rfl]
    rw [rmatch_url_tail r t hr hp hn (some '/') cap
      (fun st' => some (('.' :: '.' :: '/' :: (r ++ ')' :: t)).take
        (('.' :: '.' :: '/' :: (r ++ ')' :: t)).length - st'.rest.length)))]
    have : ('.' :: '.' :: '/' :: (r ++ ')' :: t)) = ('.' :: '.' :: '/' :: r) ++ ')' :: t := by simp
    simp only [this, take_length_sub, orTry_some]

theorem rmatch_imageRef (a u r t : Str) (ha : ']' ∉ a) (ha' : '\n' ∉ a)
    (hr : r ≠ []) (hp : ')' ∉ r) (hn : '\n' ∉ r)
    (hu : u = "./".toList ++ r ∨ u = "../".toList ++ r) (before : Option Char) :
    rmatch assetRegexp ⟨before, imageRef a u ++ t, none⟩ some = some ⟨some ')', t, some u⟩ := by
  rw [imageRef_append]
  unfold assetRegexp
  rw [rmatch, rmatch_lit_cons, if_pos rfl, rmatch, rmatch_lit_cons, if_pos rfl, rmatch, rmatch]
  simp only [Regex.dot]
  rw [starLoop_lazy_skip _ _ _ _ a _ (some '[')
    (fun x hx => by
      simp only [bne_iff_ne, ne_eq]
      exact fun h => ha' (h ▸ hx))
    (fun x hx prev' t' => by
      have : ¬ x = ']' := fun h => ha (h ▸ hx)
      rw [rmatch, rmatch_lit_cons, if_neg this])
    (le_refl _)]
  apply starLoop_lazy_stop
  rw [rmatch, rmatch_lit_cons, if_pos rfl, rmatch, rmatch_lit_cons, if_pos rfl, rmatch]
  exact rmatch_url_group u r t hr hp hn hu _ _

theorem matchAt_imageRef (a u r t : Str) (ha : ']' ∉ a) (ha' : '\n' ∉ a)
    (hr : r ≠ []) (hp : ')' ∉ r) (hn : '\n' ∉ r)
    (hu : u = "./".toList ++ r ∨ u = "../".toList ++ r) (before : Option Char) :
    matchAt assetRegexp before (imageRef a u ++ t)
      = some { text := imageRef a u, group1 := u } := by
  unfold matchAt
  rw [rmatch_imageRef a u r t ha ha' hr hp hn hu before]
  simp

theorem relativeURL_split (u : Str) (h : RelativeURL u) :
    ∃ r : Str, r ≠ [] ∧ ')' ∉ r ∧ '\n' ∉ r ∧ (u = "./".toList ++ r ∨ u = "../".toList ++ r) := by
  obtain ⟨h1, h2, h3⟩ := h
  rcases h1 with ⟨hp, hl⟩ | ⟨hp, hl⟩
  · match u, hp, hl, h2, h3 with
    | c :: d :: r, hp, hl, h2, h3 =>
      simp [hasPrefix] at hp
      obtain ⟨rfl, rfl⟩ := hp
      refine ⟨r, ?_, ?_, ?_, Or.inl rfl⟩
      · intro h; subst h; simp at hl
      · exact fun h => h2 (by simp [h])
      · exact fun h => h3 (by simp [h])
  · match u, hp, hl, h2, h3 with
    | c :: d :: e :: r, hp, hl, h2, h3 =>
      simp [hasPrefix] at hp
      obtain ⟨rfl, rfl, rfl⟩ := hp
      refine ⟨r, ?_, ?_, ?_, Or.inr rfl⟩
      · intro h; subst h; simp at hl
      · exact fun h => h2 (by simp [h])
      · exact fun h => h3 (by simp [h])

theorem takeWhile_append_stop (p : Char → Bool) (x : Char) (r : Str) (hx : p x = false) :
    ∀ l : Str, (∀ y ∈ l, p y = true) → (l ++ x :: r).takeWhile p = l := by
  intro l
  induction l with
  | nil => intro _; simp [List.takeWhile, hx]
  | cons y l ih =>
    intro h
    simp [List.takeWhile, h y (by simp), ih (fun z hz => h z (List.mem_cons_of_mem _ hz))]

theorem slash_decompose : ∀ u : Str, '/' ∉ u ∨ ∃ x b, u = x ++ '/' :: b ∧ '/' ∉ b := by
  intro u
  induction u with
  | nil => left; simp
  | cons c u ih =>
    rcases ih with h | ⟨x, b, rfl, hb⟩
    · by_cases hc : c = '/'
      · right; exact ⟨[], u, by simp [hc], h⟩
      · left
        simp only [List.mem_cons, not_or]
        exact ⟨fun h' => hc h'.symm, h⟩
    · right; exact ⟨c :: x, b, by simp, hb⟩

/-- The second component of `path.Split` is the part behind the last slash. -/
theorem pathSplit_snd (u : Str) : (pathSplit u).2 = afterLastSlash u := by
  have hall : ∀ b : Str, '/' ∉ b → ∀ y ∈ b.reverse, (y != '/') = true := by
    intro b hb y hy
    simp only [bne_iff_ne, ne_eq]
    rintro rfl
    exact hb (List.mem_reverse.1 hy)
  rcases slash_decompose u with h | ⟨x, b, rfl, hb⟩
  · rw [pathSplit_of_not_mem u h]
    unfold afterLastSlash
    rw [List.takeWhile_eq_self_iff.2 (hall u h)]
    simp
  · rw [pathSplit_append x b hb]
    unfold afterLastSlash
    have : (x ++ '/' :: b).reverse = b.reverse ++ '/' :: x.reverse := by simp
    rw [this, takeWhile_append_stop _ '/' _ (by decide) _ (hall b hb)]
    simp

/-! ## Lemmas on the successive matches -/

theorem pieces_skip (re : Regex) (t : Str) : ∀ (x : Str) (before : Option Char) (ab : Bool),
    x ≠ [] → pieces re before x.length ab (x ++ t) = pieces re (advance before x) 0 true t := by
  intro x
  induction x with
  | nil => intro _ _ h; exact absurd rfl h
  | cons c x ih =>
    intro before ab _
    cases x with
    | nil => simp [pieces, advance]
    | cons d x =>
      have := ih (some c) false (by simp)
      simp only [List.length_cons, List.cons_append, pieces] at this ⊢
      simpa [advance] using this

theorem pieces_found (re : Regex) (before : Option Char) (ab : Bool) (w t g : Str)
    (hw : w ≠ []) (h : matchAt re before (w ++ t) = some { text := w, group1 := g }) :
    pieces re before 0 ab (w ++ t)
      = .found { text := w, group1 := g } :: pieces re (advance before w) 0 true t := by
  cases w with
  | nil => exact absurd rfl hw
  | cons c x =>
    rw [List.cons_append] at h ⊢
    rw [pieces, h]
    simp only [List.length_cons, Nat.add_one_ne_zero, if_false, Nat.add_sub_cancel]
    cases x with
    | nil => simp [advance]
    | cons d x =>
      have := pieces_skip re t (d :: x) (some c) false (by simp)
      simp only [List.length_cons, List.cons_append] at this
      simp [this, advance]

theorem pieces_rune (re : Regex) (before : Option Char) (ab : Bool) (c : Char) (s : Str)
    (h : matchAt re before (c :: s) = none) :
    pieces re before 0 ab (c :: s) = .rune c :: pieces re (some c) 0 false s := by
  rw [pieces, h]

theorem pieces_nil (re : Regex) (before : Option Char) (ab : Bool) (k : Nat)
    (h : matchAt re before [] = none) : pieces re before k ab [] = [] := by
  rw [pieces, h]

theorem matchAt_asset_head (before : Option Char) (c : Char) (s : Str) (hc : c ≠ '!') :
    matchAt assetRegexp before (c :: s) = none := by
  unfold matchAt assetRegexp
  rw [rmatch, rmatch_lit_cons, if_neg hc]

theorem matchAt_asset_nil (before : Option Char) : matchAt assetRegexp before [] = none := by
  unfold matchAt assetRegexp
  rw [rmatch, rmatch_lit_nil]

theorem imageRef_ne_nil (a u : Str) : imageRef a u ≠ [] := by
  simp [imageRef]

/-! ## The replacement inside one image reference -/

theorem hasPrefix_append_self (t : Str) : ∀ u : Str, hasPrefix (u ++ t) u = true := by
  intro u
  induction u with
  | nil => cases t <;> simp [hasPrefix]
  | cons c u ih => simp [hasPrefix, ih]

theorem hasPrefix_head_ne (c d : Char) (s u : Str) (h : c ≠ d) :
    hasPrefix (c :: s) (d :: u) = false := by
  simp [hasPrefix, h]

/-- No occurrence of a relative URL starts inside an alt text without `./`. -/
theorem hasPrefix_alt (a X u r : Str) (hinf : ¬ "./".toList <:+: a)
    (hu : u = "./".toList ++ r ∨ u = "../".toList ++ r) :
    hasPrefix (a ++ ']' :: X) u = false := by
  have h0 : ∀ a' : Str, ¬ a = '.' :: '/' :: a' := by
    intro a' h
    exact hinf ⟨[], a', by simp [h]⟩
  have h1 : ∀ (c : Char) (a' : Str), ¬ a = c :: '.' :: '/' :: a' := by
    intro c a' h
    exact hinf ⟨[c], a', by simp [h]⟩
  rcases hu with rfl | rfl
  · match a, h0 with
    | [], _ => simp [hasPrefix]
    | [c], _ => simp [hasPrefix]
    | c :: d :: a', h0 =>
      by_cases hc : c = '.'
      · by_cases hd : d = '/'
        · subst hc; subst hd; exact absurd rfl (h0 a')
        · simp [hasPrefix, hd]
      · simp [hasPrefix, hc]
  · match a, h1 with
    | [], _ => simp [hasPrefix]
    | [c], _ => simp [hasPrefix]
    | [c, d], _ => simp [hasPrefix]
    | c :: d :: e :: a', h1 =>
      by_cases hd : d = '.'
      · by_cases he : e = '/'
        · subst hd; subst he; exact absurd rfl (h1 c a')
        · simp [hasPrefix, he]
      · simp [hasPrefix, hd]

theorem not_infix_tail (w a : Str) (c : Char) (h : ¬ w <:+: c :: a) : ¬ w <:+: a := by
  rintro ⟨x, y, rfl⟩
  exact h ⟨c :: x, y, by simp⟩

theorem replaceLoop_alt (u r new post : Str)
    (hu : u = "./".toList ++ r ∨ u = "../".toList ++ r) :
    ∀ a : Str, ¬ "./".toList <:+: a →
      replaceLoop u new 0 1 (a ++ ']' :: '(' :: (u ++ post)) = a ++ ']' :: '(' :: (new ++ post) := by
  have hdot : ∃ u', u = '.' :: u' := by rcases hu with rfl | rfl <;> exact ⟨_, rfl⟩
  obtain ⟨u', hu'⟩ := hdot
  intro a
  induction a with
  | nil =>
    intro _
    have h1 : hasPrefix (']' :: '(' :: (u ++ post)) u = false := by
      rw [hu']; exact hasPrefix_head_ne _ _ _ _ (by decide)
    have h2 : hasPrefix ('(' :: (u ++ post)) u = false := by
      rw [hu']; exact hasPrefix_head_ne _ _ _ _ (by decide)
    have h3 : hasPrefix ('.' :: (u' ++ post)) u = true := by
      have := hasPrefix_append_self post u
      rwa [hu'] at this ⊢
    simp only [List.nil_append, replaceLoop, h1, h2, if_false, Bool.false_eq_true]
    rw [hu'] at h3 ⊢
    simp only [List.cons_append, replaceLoop, h3, if_true, replaceLoop_zero]
    simp [h3]
  | cons c a ih =>
    intro hinf
    have h1 := hasPrefix_alt (c :: a) ('(' :: (u ++ post)) u r hinf hu
    rw [List.cons_append] at h1 ⊢
    simp only [replaceLoop, h1, if_false, Bool.false_eq_true]
    rw [ih (not_infix_tail _ _ _ hinf)]
    rfl

theorem stringsCountFrom_alt (u r post : Str)
    (hu : u = "./".toList ++ r ∨ u = "../".toList ++ r) :
    ∀ a : Str, ¬ "./".toList <:+: a →
      stringsCountFrom 0 (a ++ ']' :: '(' :: (u ++ post)) u ≠ 0 := by
  have hdot : ∃ u', u = '.' :: u' := by rcases hu with rfl | rfl <;> exact ⟨_, rfl⟩
  obtain ⟨u', hu'⟩ := hdot
  intro a
  induction a with
  | nil =>
    intro _
    have h1 : hasPrefix (']' :: '(' :: (u ++ post)) u = false := by
      rw [hu']; exact hasPrefix_head_ne _ _ _ _ (by decide)
    have h2 : hasPrefix ('(' :: (u ++ post)) u = false := by
      rw [hu']; exact hasPrefix_head_ne _ _ _ _ (by decide)
    have h3 : hasPrefix ('.' :: (u' ++ post)) u = true := by
      have := hasPrefix_append_self post u
      rwa [hu'] at this ⊢
    simp only [List.nil_append, stringsCountFrom, h1, h2, if_false, Bool.false_eq_true]
    rw [hu'] at h3 ⊢
    simp only [List.cons_append, stringsCountFrom, h3, if_true]
    simp [h3]
  | cons c a ih =>
    intro hinf
    have h1 := hasPrefix_alt (c :: a) ('(' :: (u ++ post)) u r hinf hu
    rw [List.cons_append] at h1 ⊢
    simp only [stringsCountFrom, h1, if_false, Bool.false_eq_true]
    exact ih (not_infix_tail _ _ _ hinf)

theorem stringsReplace_imageRef (a u r new : Str) (hinf : ¬ "./".toList <:+: a)
    (hu : u = "./".toList ++ r ∨ u = "../".toList ++ r) :
    stringsReplace (imageRef a u) u new 1 = imageRef a new := by
  have hdot : ∃ u', u = '.' :: u' := by rcases hu with rfl | rfl <;> exact ⟨_, rfl⟩
  obtain ⟨u', hu'⟩ := hdot
  by_cases hnew : u = new
  · subst hnew; simp [stringsReplace]
  · have hr1 : imageRef a u = '!' :: '[' :: (a ++ ']' :: '(' :: (u ++ [')'])) := by
      simp [imageRef]
    have hr2 : imageRef a new = '!' :: '[' :: (a ++ ']' :: '(' :: (new ++ [')'])) := by
      simp [imageRef]
    have h1 : hasPrefix ('!' :: '[' :: (a ++ ']' :: '(' :: (u ++ [')']))) u = false := by
      rw [hu']; exact hasPrefix_head_ne _ _ _ _ (by decide)
    have h2 : hasPrefix ('[' :: (a ++ ']' :: '(' :: (u ++ [')']))) u = false := by
      rw [hu']; exact hasPrefix_head_ne _ _ _ _ (by decide)
    have hcount : stringsCount (imageRef a u) u ≠ 0 := by
      have hne : u.isEmpty = false := by rw [hu']; rfl
      rw [hr1]
      simp only [stringsCount, hne, Bool.false_eq_true, if_false, stringsCountFrom, h1, h2]
      exact stringsCountFrom_alt u r [')'] hu a hinf
    have hne : u.isEmpty = false := by rw [hu']; rfl
    have hcnt : (if (1 : Int) < 0 ∨ ((stringsCount (imageRef a u) u : Nat) : Int) < 1
        then stringsCount (imageRef a u) u else (1 : Int).toNat) = 1 := by
      have : ¬ ((1 : Int) < 0 ∨ ((stringsCount (imageRef a u) u : Nat) : Int) < 1) := by
        omega
      rw [if_neg this]; rfl
    unfold stringsReplace
    have h0 : ¬ (u = new ∨ (1 : Int) = 0) := by
      rintro (h | h)
      · exact hnew h
      · exact absurd h (by decide)
    simp only [h0, if_false, hcount, hcnt, hne, Bool.false_eq_true]
    rw [hr1, hr2]
    simp only [replaceLoop, h1, h2, if_false, Bool.false_eq_true]
    rw [replaceLoop_alt u r new [')'] hu a hinf]

/-! ## The Asset Extractor on image references -/

theorem matchAt_ref (x : Str × Str) (t : Str)
    (hx : ']' ∉ x.1 ∧ '\n' ∉ x.1 ∧ RelativeURL x.2) (before : Option Char) :
    matchAt assetRegexp before (imageRef x.1 x.2 ++ t)
      = some { text := imageRef x.1 x.2, group1 := x.2 } := by
  obtain ⟨r, hr, hp, hn, hu⟩ := relativeURL_split x.2 hx.2.2
  exact matchAt_imageRef x.1 x.2 r t hx.1 hx.2.1 hr hp hn hu before

theorem pieces_refLines : ∀ (refs : List (Str × Str)),
    (∀ x ∈ refs, ']' ∉ x.1 ∧ '\n' ∉ x.1 ∧ RelativeURL x.2) →
    ∀ (before : Option Char) (ab : Bool),
      pieces assetRegexp before 0 ab (refLines refs) = refPieces refs := by
  intro refs
  induction refs with
  | nil =>
    intro _ before ab
    exact pieces_nil _ _ _ _ (matchAt_asset_nil before)
  | cons x refs ih =>
    intro h before ab
    have hx := h x (by simp)
    cases refs with
    | nil =>
      have h1 := pieces_found assetRegexp before ab (imageRef x.1 x.2) [] x.2
        (imageRef_ne_nil _ _) (matchAt_ref x [] hx before)
      rw [List.append_nil] at h1
      simp only [refLines, List.map, stringsJoin, refPieces]
      rw [h1, pieces_nil _ _ _ _ (matchAt_asset_nil _)]
    | cons y l =>
      have h0 : refLines (x :: y :: l) = imageRef x.1 x.2 ++ '\n' :: refLines (y :: l) := by
        simp [refLines, stringsJoin]
      rw [h0, pieces_found assetRegexp before ab (imageRef x.1 x.2) _ x.2
        (imageRef_ne_nil _ _) (matchAt_ref x _ hx before),
        pieces_rune _ _ _ _ _ (matchAt_asset_head _ '\n' _ (by decide)),
        ih (fun z hz => h z (List.mem_cons_of_mem _ hz))]
      rfl

theorem findAll_refLines (refs : List (Str × Str))
    (h : ∀ x ∈ refs, ']' ∉ x.1 ∧ '\n' ∉ x.1 ∧ RelativeURL x.2) :
    (findAllStringSubmatch assetRegexp (refLines refs)).map (fun l => l.group1)
      = refs.map Prod.snd := by
  unfold findAllStringSubmatch
  rw [pieces_refLines refs h]
  clear h
  induction refs with
  | nil => simp [refPieces]
  | cons x refs ih =>
    cases refs with
    | nil => simp [refPieces]
    | cons y l => simpa [refPieces] using ih

theorem extractAssetsRepl_ref (imagePrefixPath : Str) (x : Str × Str)
    (hx : ']' ∉ x.1 ∧ '\n' ∉ x.1 ∧ RelativeURL x.2) :
    extractAssetsRepl imagePrefixPath (imageRef x.1 x.2)
      = some (stringsReplace (imageRef x.1 x.2) x.2
          (pathJoin [imagePrefixPath, afterLastSlash x.2]) 1) := by
  have h1 := pieces_found assetRegexp none false (imageRef x.1 x.2) [] x.2
    (imageRef_ne_nil _ _) (matchAt_ref x [] hx none)
  rw [List.append_nil] at h1
  simp [extractAssetsRepl, findStringSubmatch, h1, pathSplit_snd]

theorem replaceAll_refLines (imagePrefixPath : Str) (refs : List (Str × Str))
    (h : ∀ x ∈ refs, ']' ∉ x.1 ∧ '\n' ∉ x.1 ∧ RelativeURL x.2) :
    replaceAllStringFunc assetRegexp (refLines refs) (extractAssetsRepl imagePrefixPath)
      = some (stringsJoin (refs.map (fun x => stringsReplace (imageRef x.1 x.2) x.2
          (pathJoin [imagePrefixPath, afterLastSlash x.2]) 1)) "\n".toList) := by
  unfold replaceAllStringFunc
  rw [pieces_refLines refs h]
  induction refs with
  | nil => simp [refPieces, stringsJoin]
  | cons x refs ih =>
    have hx := h x (by simp)
    cases refs with
    | nil => simp [refPieces, stringsJoin, extractAssetsRepl_ref _ x hx]
    | cons y l =>
      have ih' := ih (fun z hz => h z (List.mem_cons_of_mem _ hz))
      simp only [refPieces, List.foldr_cons, extractAssetsRepl_ref _ x hx] at ih' ⊢
      rw [ih']
      simp [stringsJoin]

/-! ## Texts without a relative image link -/

theorem orTry_eq_some {α : Type} (a b : Option α) (x : α) (h : orTry a b = some x) :
    a = some x ∨ b = some x := by
  cases a with
  | none => right; simpa using h
  | some y => left; simpa using h

theorem rmatch_cls_some (p : Char → Bool) (st x : MState) (k : MState → Option MState)
    (h : rmatch (.cls p) st k = some x) :
    ∃ c t, st.rest = c :: t ∧ p c = true ∧ k ⟨some c, t, st.cap⟩ = some x := by
  obtain ⟨prev, rest, cap⟩ := st
  cases rest with
  | nil => simp [rmatch] at h
  | cons c t =>
    rw [rmatch_cls_cons] at h
    by_cases hc : p c = true
    · rw [if_pos hc] at h; exact ⟨c, t, rfl, hc, h⟩
    · rw [if_neg hc] at h; exact absurd h (by simp)

theorem rmatch_lit_some (d : Char) (st x : MState) (k : MState → Option MState)
    (h : rmatch (.lit d) st k = some x) :
    ∃ t, st.rest = d :: t ∧ k ⟨some d, t, st.cap⟩ = some x := by
  obtain ⟨c, t, h1, h2, h3⟩ := rmatch_cls_some _ st x k h
  have : c = d := by simpa using h2
  subst this
  exact ⟨t, h1, h3⟩

theorem starLoop_cls_some (p : Char → Bool) (g : Bool) (k : MState → Option MState) (x : MState) :
    ∀ (n : Nat) (st : MState), starLoop (rmatch (.cls p)) g n st k = some x →
      ∃ st', st'.rest <:+ st.rest ∧ k st' = some x := by
  intro n
  induction n with
  | zero => intro st h; exact ⟨st, List.suffix_refl _, by simpa [starLoop] using h⟩
  | succ n ih =>
    intro st h
    have hcases : rmatch (.cls p) st (fun st' =>
          if st'.rest.length < st.rest.length then starLoop (rmatch (.cls p)) g n st' k else none)
          = some x ∨ k st = some x := by
      cases g with
      | true =>
        simp only [starLoop, if_true] at h
        exact orTry_eq_some _ _ _ h
      | false =>
        simp only [starLoop, Bool.false_eq_true, if_false] at h
        exact (orTry_eq_some _ _ _ h).symm
    rcases hcases with h1 | h1
    · obtain ⟨c, t, hrest, _, hk⟩ := rmatch_cls_some _ _ _ _ h1
      simp only at hk
      split at hk
      · obtain ⟨st', hs, hk'⟩ := ih _ hk
        refine ⟨st', ?_, hk'⟩
        rw [hrest]
        exact hs.trans (List.suffix_cons c t)
      · exact absurd hk (by simp)
    · exact ⟨st, List.suffix_refl _, h1⟩

/-- A match of `assetRegexp` holds `](./` or `](../`. -/
theorem matchAt_asset_infix (before : Option Char) (s : Str) (m : Match)
    (h : matchAt assetRegexp before s = some m) :
    "](./".toList <:+: s ∨ "](../".toList <:+: s := by
  unfold matchAt at h
  cases hr : rmatch assetRegexp ⟨before, s, none⟩ some with
  | none => rw [hr] at h; exact absurd h (by simp)
  | some x =>
    clear h
    unfold assetRegexp at hr
    rw [rmatch] at hr
    obtain ⟨t1, hs1, hr⟩ := rmatch_lit_some _ _ _ _ hr
    rw [rmatch] at hr
    obtain ⟨t2, hs2, hr⟩ := rmatch_lit_some _ _ _ _ hr
    rw [rmatch, rmatch] at hr
    obtain ⟨st, hsuf, hr⟩ := starLoop_cls_some _ _ _ _ _ _ hr
    rw [rmatch] at hr
    obtain ⟨t3, hs3, hr⟩ := rmatch_lit_some _ _ _ _ hr
    rw [rmatch] at hr
    obtain ⟨t4, hs4, hr⟩ := rmatch_lit_some _ _ _ _ hr
    rw [rmatch, rmatch, rmatch] at hr
    obtain ⟨t5, hs5, hr⟩ := rmatch_lit_some _ _ _ _ hr
    rw [rmatch, Regex.opt, rmatch] at hr
    simp only at hs1 hs2 hs3 hs4 hs5 hsuf
    subst hs4
    subst hs5
    have hsuf' : st.rest <:+ s := by
      rw [hs1, hs2]
      exact hsuf.trans ((List.suffix_cons _ _).trans (List.suffix_cons _ _))
    rcases orTry_eq_some _ _ _ hr with h1 | h1
    · obtain ⟨t6, hs6, h1⟩ := rmatch_lit_some _ _ _ _ h1
      rw [rmatch] at h1
      obtain ⟨t7, hs7, _⟩ := rmatch_lit_some _ _ _ _ h1
      simp only at hs6 hs7
      subst hs6
      subst hs7
      right
      obtain ⟨pre, hpre⟩ := hsuf'
      exact ⟨pre, t7, by rw [← hpre, hs3]; simp⟩
    · rw [rmatch, rmatch] at h1
      obtain ⟨t6, hs6, _⟩ := rmatch_lit_some _ _ _ _ h1
      simp only at hs6
      subst hs6
      left
      obtain ⟨pre, hpre⟩ := hsuf'
      exact ⟨pre, t6, by rw [← hpre, hs3]; simp⟩

theorem pieces_no_match (re : Regex) : ∀ (s : Str) (before : Option Char) (ab : Bool),
    (∀ s' before', s' <:+ s → matchAt re before' s' = none) →
    pieces re before 0 ab s = s.map .rune := by
  intro s
  induction s with
  | nil =>
    intro before ab h
    exact pieces_nil _ _ _ _ (h [] before (List.suffix_refl _))
  | cons c s ih =>
    intro before ab h
    rw [pieces_rune _ _ _ _ _ (h (c :: s) before (List.suffix_refl _)),
      ih _ _ (fun s' b' hs' => h s' b' (hs'.trans (List.suffix_cons c s)))]
    rfl

theorem pieces_asset_no_link (s : Str) (h1 : ¬ "](./".toList <:+: s)
    (h2 : ¬ "](../".toList <:+: s) (before : Option Char) (ab : Bool) :
    pieces assetRegexp before 0 ab s = s.map .rune := by
  apply pieces_no_match
  intro s' before' hs'
  cases hm : matchAt assetRegexp before' s' with
  | none => rfl
  | some m =>
    rcases matchAt_asset_infix before' s' m hm with h | h
    · exact absurd (h.trans hs'.isInfix) h1
    · exact absurd (h.trans hs'.isInfix) h2

theorem extractAssets_no_link (imagePrefixPath : Str) (p : page)
    (h1 : ¬ "](./".toList <:+: p.text) (h2 : ¬ "](../".toList <:+: p.text) :
    extractAssets imagePrefixPath p = some { p with assets := [] } := by
  have hp := pieces_asset_no_link p.text h1 h2 none false
  have hfind : findAllStringSubmatch assetRegexp p.text = [] := by
    unfold findAllStringSubmatch
    rw [hp]
    induction p.text with
    | nil => rfl
    | cons c s ih => simp [ih]
  have hrepl : ∀ f, replaceAllStringFunc assetRegexp p.text f = some p.text := by
    intro f
    unfold replaceAllStringFunc
    rw [hp]
    induction p.text with
    | nil => rfl
    | cons c s ih => simp [ih]
  simp [extractAssets, hfind, hrepl]

/-! ## `path.Join` under a rooted directory -/

theorem mem_of_mem_splitOnChar (sep : Char) : ∀ (s e : Str) (c : Char),
    e ∈ splitOnChar sep s → c ∈ e → c ∈ s := by
  intro s
  induction s with
  | nil => intro e c he hc; simp [splitOnChar] at he; subst he; exact hc
  | cons d s ih =>
    intro e c he hc
    by_cases hd : d = sep
    · simp only [splitOnChar, hd, if_true, List.mem_cons] at he
      rcases he with rfl | he
      · simp at hc
      · exact List.mem_cons_of_mem _ (ih e c he hc)
    · simp only [splitOnChar, hd, if_false] at he
      cases hsp : splitOnChar sep s with
      | nil => exact absurd hsp (splitOnChar_ne_nil sep s)
      | cons f fs =>
        rw [hsp] at he ih
        simp only [List.mem_cons] at he
        rcases he with rfl | he
        · rcases List.mem_cons.1 hc with rfl | hc
          · simp
          · exact List.mem_cons_of_mem _ (ih f c (by simp) hc)
        · exact List.mem_cons_of_mem _ (ih e c (by simp [he]) hc)

theorem cleanBacktrack_ge (out : Str) (dotdot : Nat) : ∀ w : Nat, dotdot ≤ w →
    dotdot ≤ cleanBacktrack out dotdot w := by
  intro w
  induction w with
  | zero => intro h; simpa [cleanBacktrack] using h
  | succ w ih =>
    intro h
    unfold cleanBacktrack
    split
    · rename_i hc; exact ih (by omega)
    · exact h

theorem cleanStep_rooted (b : CleanBuf) (e : Str) (hb : RootedBuf b) :
    RootedBuf (cleanStep true b e) ∧
      ∃ X B, (cleanStep true b e).out = X ++ B ∧ (∀ c ∈ X, c ∈ b.out ∨ c = '/') ∧
        (B = [] ∨ B = e) := by
  obtain ⟨hh, hd⟩ := hb
  obtain ⟨out, dotdot⟩ := b
  simp only at hh hd
  subst hd
  cases out with
  | nil => simp at hh
  | cons o out =>
    simp only [List.head?_cons, Option.some.injEq] at hh
    subst hh
    unfold cleanStep
    split
    · exact ⟨⟨rfl, rfl⟩, _, [], (List.append_nil _).symm, fun c hc => Or.inl hc, Or.inl rfl⟩
    · split
      · exact ⟨⟨rfl, rfl⟩, _, [], (List.append_nil _).symm, fun c hc => Or.inl hc, Or.inl rfl⟩
      · split
        · split
          · rename_i hlen
            simp only [List.length_cons] at hlen
            have hge := cleanBacktrack_ge ('/' :: out) 1 (('/' :: out).length - 1)
              (by simp only [List.length_cons]; omega)
            obtain ⟨w, hw⟩ : ∃ w, cleanBacktrack ('/' :: out) 1 (('/' :: out).length - 1) = w + 1 :=
              ⟨cleanBacktrack ('/' :: out) 1 (('/' :: out).length - 1) - 1, by omega⟩
            simp only [hw, List.take_succ_cons]
            refine ⟨⟨rfl, rfl⟩, _, [], (List.append_nil _).symm, ?_, Or.inl rfl⟩
            intro c hc
            rcases List.mem_cons.1 hc with rfl | hc
            · exact Or.inr rfl
            · exact Or.inl (List.mem_cons_of_mem _ (List.mem_of_mem_take hc))
          · simp only [Bool.not_true, Bool.false_eq_true, if_false]
            exact ⟨⟨rfl, rfl⟩, _, [], (List.append_nil _).symm, fun c hc => Or.inl hc, Or.inl rfl⟩
        · refine ⟨⟨?_, rfl⟩, _, e, rfl, ?_, Or.inr rfl⟩
          · simp only
            split <;> simp
          · intro c hc
            split at hc
            · rcases List.mem_append.1 hc with hc | hc
              · exact Or.inl hc
              · exact Or.inr (by simpa using hc)
            · exact Or.inl hc

theorem cleanFold_rooted : ∀ (es : List Str) (b : CleanBuf), RootedBuf b → ']' ∉ b.out →
    (∀ e ∈ es, ']' ∉ e) →
    RootedBuf (es.foldl (cleanStep true) b) ∧ ']' ∉ (es.foldl (cleanStep true) b).out := by
  intro es
  induction es with
  | nil => intro b hb hn _; exact ⟨hb, hn⟩
  | cons e es ih =>
    intro b hb hn hes
    obtain ⟨h1, X, B, hout, hX, hB⟩ := cleanStep_rooted b e hb
    simp only [List.foldl_cons]
    apply ih _ h1 _ (fun x hx => hes x (List.mem_cons_of_mem _ hx))
    rw [hout]
    intro hmem
    rcases List.mem_append.1 hmem with h | h
    · rcases hX _ h with h' | h'
      · exact hn h'
      · exact absurd h' (by decide)
    · rcases hB with rfl | rfl
      · simp at h
      · exact hes _ (by simp) h

theorem afterLastSlash_no_slash (u : Str) : '/' ∉ afterLastSlash u := by
  unfold afterLastSlash
  intro h
  have := List.mem_takeWhile_imp (List.mem_reverse.1 h)
  simp at this

theorem pathJoin_rooted (pre base : Str) (h1 : pre.head? = some '/') (h2 : ']' ∉ pre)
    (h3 : '/' ∉ base) :
    ∃ X B, pathJoin [pre, base] = '/' :: (X ++ B) ∧ ']' ∉ X ∧ '/' ∉ B := by
  cases pre with
  | nil => simp at h1
  | cons c pre' =>
    simp only [List.head?_cons, Option.some.injEq] at h1
    subst h1
    have hjoin : pathJoin ['/' :: pre', base] = pathClean (('/' :: pre') ++ '/' :: base) := by
      simp [pathJoin, pathJoinBuf]
    rw [hjoin]
    unfold pathClean
    have hne : ¬ (('/' :: pre') ++ '/' :: base = []) := by simp
    simp only [hne, if_false]
    have hr : ((('/' :: pre') ++ '/' :: base).head? = some '/') := rfl
    simp only [hr, decide_True, if_true]
    rw [splitOnChar_append_sep, splitOnChar_of_not_mem '/' base h3, List.foldl_append]
    obtain ⟨hb, hn⟩ := cleanFold_rooted (splitOnChar '/' ('/' :: pre'))
      { out := ['/'], dotdot := 1 } ⟨rfl, rfl⟩ (by decide)
      (fun e he hc => h2 (mem_of_mem_splitOnChar '/' _ e _ he hc))
    obtain ⟨h4, X, B, hout, hX, hB⟩ := cleanStep_rooted _ base hb
    simp only [List.foldl_cons, List.foldl_nil]
    have hhead := h4.1
    rw [hout] at hhead ⊢
    have hXB : X ++ B ≠ [] := by intro h; rw [h] at hhead; simp at hhead
    rw [if_neg hXB]
    have hXn : ']' ∉ X := by
      intro hmem
      rcases hX _ hmem with h' | h'
      · exact hn h'
      · exact absurd h' (by decide)
    have hBn : '/' ∉ B := by
      rcases hB with rfl | rfl
      · simp
      · exact h3
    cases X with
    | nil =>
      cases B with
      | nil => exact absurd rfl hXB
      | cons b B' =>
        simp only [List.nil_append, List.head?_cons, Option.some.injEq] at hhead
        exact absurd (by simp [hhead]) hBn
    | cons x X' =>
      simp only [List.cons_append, List.head?_cons, Option.some.injEq] at hhead
      subst hhead
      exact ⟨X', B, rfl, fun h => hXn (List.mem_cons_of_mem _ h), hBn⟩

/-! ## The text of the first pass holds no relative link -/

theorem noLink_nil : NoLink [] := by
  constructor <;> simp [String.toList]

theorem noLink_cons (c : Char) (s : Str) (hs : NoLink s)
    (h1 : ¬ "](./".toList <+: c :: s) (h2 : ¬ "](../".toList <+: c :: s) : NoLink (c :: s) := by
  constructor
  · rw [List.infix_cons_iff]
    rintro (h | h)
    · exact h1 h
    · exact hs.1 h
  · rw [List.infix_cons_iff]
    rintro (h | h)
    · exact h2 h
    · exact hs.2 h

theorem noLink_cons_ne (c : Char) (s : Str) (hc : c ≠ ']') (hs : NoLink s) : NoLink (c :: s) := by
  apply noLink_cons c s hs
  · simp only [String.toList, List.cons_prefix_cons]
    exact fun h => hc h.1.symm
  · simp only [String.toList, List.cons_prefix_cons]
    exact fun h => hc h.1.symm

theorem noLink_append (s : Str) (hs : NoLink s) : ∀ x : Str, ']' ∉ x → NoLink (x ++ s) := by
  intro x
  induction x with
  | nil => intro _; exact hs
  | cons c x ih =>
    intro h
    simp only [List.mem_cons, not_or] at h
    exact noLink_cons_ne c _ (fun hc => h.1 hc.symm) (ih h.2)

theorem noLink_base (rest : Str) (hrest : NoLink (')' :: rest)) :
    ∀ B : Str, '/' ∉ B → NoLink (B ++ ')' :: rest) := by
  intro B
  induction B with
  | nil => intro _; exact hrest
  | cons c B ih =>
    intro h
    simp only [List.mem_cons, not_or] at h
    have hB := h.2
    apply noLink_cons c _ (ih hB)
    · match B, hB with
      | [], _ => simp [String.toList]
      | [x], _ => simp [String.toList]
      | [x, y], _ => simp [String.toList]
      | x :: y :: z :: B', hB =>
        simp only [String.toList, List.cons_append, List.cons_prefix_cons]
        rintro ⟨_, _, _, hz, _⟩
        exact hB (by simp [← hz])
    · match B, hB with
      | [], _ => simp [String.toList]
      | [x], _ => simp [String.toList]
      | [x, y], _ => simp [String.toList]
      | [x, y, z], _ => simp [String.toList]
      | x :: y :: z :: w :: B', hB =>
        simp only [String.toList, List.cons_append, List.cons_prefix_cons]
        rintro ⟨_, _, _, _, hw, _⟩
        exact hB (by simp [← hw])

theorem noLink_imageRef (a X B rest : Str) (ha : ']' ∉ a) (hX : ']' ∉ X) (hB : '/' ∉ B)
    (hrest : NoLink rest) : NoLink (imageRef a ('/' :: (X ++ B)) ++ rest) := by
  have h0 : imageRef a ('/' :: (X ++ B)) ++ rest
      = '!' :: '[' :: (a ++ ']' :: '(' :: '/' :: (X ++ (B ++ ')' :: rest))) := by
    simp [imageRef]
  rw [h0]
  apply noLink_cons_ne _ _ (by decide)
  apply noLink_cons_ne _ _ (by decide)
  apply noLink_append _ _ a ha
  apply noLink_cons
  · apply noLink_cons_ne _ _ (by decide)
    apply noLink_cons_ne _ _ (by decide)
    apply noLink_append _ _ X hX
    exact noLink_base rest (noLink_cons_ne _ _ (by decide) hrest) B hB
  · simp [String.toList]
  · simp [String.toList]

theorem noLink_refLines : ∀ refs : List (Str × Str),
    (∀ x ∈ refs, ']' ∉ x.1 ∧ ∃ X B, x.2 = '/' :: (X ++ B) ∧ ']' ∉ X ∧ '/' ∉ B) →
    NoLink (refLines refs) := by
  intro refs
  induction refs with
  | nil => intro _; exact noLink_nil
  | cons x refs ih =>
    intro h
    obtain ⟨ha, X, B, hJ, hX, hB⟩ := h x (by simp)
    cases refs with
    | nil =>
      have := noLink_imageRef x.1 X B [] ha hX hB noLink_nil
      rw [List.append_nil, ← hJ] at this
      simpa [refLines, stringsJoin] using this
    | cons y l =>
      have h0 : refLines (x :: y :: l) = imageRef x.1 x.2 ++ '\n' :: refLines (y :: l) := by
        simp [refLines, stringsJoin]
      rw [h0, hJ]
      exact noLink_imageRef x.1 X B _ ha hX hB
        (noLink_cons_ne _ _ (by decide) (ih (fun z hz => h z (List.mem_cons_of_mem _ hz))))

theorem extractAssets_refLines (imagePrefixPath : Str) (refs : List (Str × Str)) (p : page)
    (h : ∀ x ∈ refs, ']' ∉ x.1 ∧ '\n' ∉ x.1 ∧ RelativeURL x.2)
    (htext : p.text = refLines refs) :
    extractAssets imagePrefixPath p
      = some { p with
          assets := refs.map Prod.snd,
          text := stringsJoin (refs.map (fun x => stringsReplace (imageRef x.1 x.2) x.2
            (pathJoin [imagePrefixPath, afterLastSlash x.2]) 1)) "\n".toList } := by
  unfold extractAssets
  simp only [htext, findAll_refLines refs h, replaceAll_refLines imagePrefixPath refs h]

theorem extractAssets_refLines_clean (imagePrefixPath : Str) (refs : List (Str × Str)) (p : page)
    (h : ∀ x ∈ refs, ']' ∉ x.1 ∧ '\n' ∉ x.1 ∧ ¬ "./".toList <:+: x.1 ∧ RelativeURL x.2)
    (htext : p.text = refLines refs) :
    extractAssets imagePrefixPath p
      = some { p with
          assets := refs.map Prod.snd,
          text := refLines (refs.map (fun x =>
            (x.1, pathJoin [imagePrefixPath, afterLastSlash x.2]))) } := by
  rw [extractAssets_refLines imagePrefixPath refs p
    (fun x hx => ⟨(h x hx).1, (h x hx).2.1, (h x hx).2.2.2⟩) htext]
  have : refs.map (fun x => stringsReplace (imageRef x.1 x.2) x.2
        (pathJoin [imagePrefixPath, afterLastSlash x.2]) 1)
      = (refs.map (fun x => (x.1, pathJoin [imagePrefixPath, afterLastSlash x.2]))).map
          (fun x => imageRef x.1 x.2) := by
    rw [List.map_map]
    apply List.map_congr_left
    intro x hx
    obtain ⟨r, _, _, _, hu⟩ := relativeURL_split x.2 (h x hx).2.2.2
    exact stringsReplace_imageRef x.1 x.2 r _ (h x hx).2.2.1 hu
  rw [this]
  rfl

theorem relativeURL_of_split (u r : Str) (hr1 : r ≠ []) (hr2 : ')' ∉ r) (hr3 : '\n' ∉ r)
    (hu : u = "./".toList ++ r ∨ u = "../".toList ++ r) : RelativeURL u := by
  have hlen : 0 < r.length := List.length_pos.2 hr1
  rcases hu with rfl | rfl
  · refine ⟨Or.inl ⟨by cases r <;> simp [hasPrefix, String.toList], ?_⟩, ?_, ?_⟩
    · simp [String.toList]; omega
    · simp [String.toList, hr2]
    · simp [String.toList, hr3]
  · refine ⟨Or.inr ⟨by cases r <;> simp [hasPrefix, String.toList], ?_⟩, ?_, ?_⟩
    · simp [String.toList]; omega
    · simp [String.toList, hr2]
    · simp [String.toList, hr3]

/-! ## The Asset Extractor: the claims -/

/-- C1, on the failing input: with alt text and URL both `./a.png` (no `]`, no
newline, a relative URL) and the prefix `/img`, `extractAssets` rewrites the
alt text and leaves the parenthesised URL as it was: `strings.Replace` puts the
new URL in place of the first occurrence of the old one in the whole match. -/
theorem extractAssets_alt_text_rewritten :
    ']' ∉ "./a.png".toList ∧ '\n' ∉ "./a.png".toList ∧ RelativeURL "./a.png".toList ∧
    extractAssets "/img".toList
        { filename := [], attributes := [], text := "![./a.png](./a.png)".toList, assets := [] }
      = some { filename := [], attributes := [], text := "![/img/a.png](./a.png)".toList,
               assets := ["./a.png".toList] } := by
  decide

/-- C2: for every prefix, every alt text `a` without `]`, newline and `./`, and
every relative URL `u = ("./" or "../") ++ r` with `r` non-empty and free of
`)` and newline, `extractAssets` on the text `![a](u)` sets the assets to `[u]`
and the text to `![a](` followed by `path.Join(prefix, basename(u))` and `)`,
where `basename(u)` is the part of `u` behind its last slash. -/
theorem extractAssets_single (imagePrefixPath a u r : Str) (p : page)
    (ha1 : ']' ∉ a) (ha2 : '\n' ∉ a) (ha3 : ¬ "./".toList <:+: a)
    (hr1 : r ≠ []) (hr2 : ')' ∉ r) (hr3 : '\n' ∉ r)
    (hu : u = "./".toList ++ r ∨ u = "../".toList ++ r)
    (htext : p.text = "![".toList ++ a ++ "](".toList ++ u ++ ")".toList) :
    extractAssets imagePrefixPath p
      = some { p with
          assets := [u],
          text := "![".toList ++ a ++ "](".toList
            ++ pathJoin [imagePrefixPath, afterLastSlash u] ++ ")".toList } := by
  have h := extractAssets_refLines_clean imagePrefixPath [(a, u)] p
    (by
      intro x hx
      rw [List.mem_singleton] at hx
      subst hx
      exact ⟨ha1, ha2, ha3, relativeURL_of_split u r hr1 hr2 hr3 hu⟩)
    (by rw [htext]; rfl)
  rw [h]
  rfl

theorem extractAssets_single_witness :
    extractAssets "/img".toList
        { filename := [], attributes := [], text := "![x](../assets/img.png)".toList,
          assets := [] }
      = some { filename := [], attributes := [], text := "![x](/img/img.png)".toList,
               assets := ["../assets/img.png".toList] } :=
  (extractAssets_single "/img".toList "x".toList "../assets/img.png".toList
    "assets/img.png".toList
    { filename := [], attributes := [], text := "![x](../assets/img.png)".toList, assets := [] }
    (by decide) (by decide) (by decide) (by decide) (by decide) (by decide)
    (Or.inr (by decide)) (by decide)).trans (by decide)

/-- C3: for every list of image references `![a_i](u_i)` (each `a_i` without
`]` and newline, each `u_i` a relative URL) written on separate lines,
`extractAssets` sets the assets to `[u_1, ..., u_n]`: one entry for each
reference, in the order of the text, repeated URLs repeated. -/
theorem extractAssets_lines (imagePrefixPath : Str) (refs : List (Str × Str)) (p : page)
    (hrefs : ∀ x ∈ refs, ']' ∉ x.1 ∧ '\n' ∉ x.1 ∧ RelativeURL x.2)
    (htext : p.text
      = stringsJoin (refs.map (fun x => "![".toList ++ x.1 ++ "](".toList ++ x.2 ++ ")".toList))
          "\n".toList) :
    (extractAssets imagePrefixPath p).map (fun q => q.assets) = some (refs.map Prod.snd) := by
  rw [extractAssets_refLines imagePrefixPath refs p hrefs (by rw [htext]; rfl)]
  rfl

theorem extractAssets_lines_witness :
    (extractAssets "/img".toList
        { filename := [], attributes := [],
          text := "![one](./x.png)\n![two](./x.png)".toList, assets := [] }).map
        (fun q => q.assets)
      = some ["./x.png".toList, "./x.png".toList] :=
  extractAssets_lines "/img".toList
    [("one".toList, "./x.png".toList), ("two".toList, "./x.png".toList)]
    { filename := [], attributes := [],
      text := "![one](./x.png)\n![two](./x.png)".toList, assets := [] }
    (by decide) (by decide)

/-- C4: for every prefix and every page text that holds neither `](./` nor
`](../`, `extractAssets` returns the text unchanged and an empty assets
list. -/
theorem extractAssets_no_relative_link (imagePrefixPath : Str) (p : page)
    (h1 : ¬ "](./".toList <:+: p.text) (h2 : ¬ "](../".toList <:+: p.text) :
    extractAssets imagePrefixPath p = some { p with assets := [], text := p.text } :=
  extractAssets_no_link imagePrefixPath p h1 h2

theorem extractAssets_no_relative_link_witness :
    extractAssets "/img".toList
        { filename := [], attributes := [],
          text := "![x](https://example.com/a.png)".toList, assets := [] }
      = some { filename := [], attributes := [],
               text := "![x](https://example.com/a.png)".toList, assets := [] } :=
  extractAssets_no_relative_link "/img".toList
    { filename := [], attributes := [],
      text := "![x](https://example.com/a.png)".toList, assets := [] }
    (by decide) (by decide)

/-- C5, as it stands, fails.  With the prefix `/img` the text
`![a](./x)](./y)` becomes `![a](/img/x)](./y)`, in which the second pass finds
the link `./y` and rewrites it; with the prefix `a/../../x`, which does not
begin with `./` or `../`, the text `![a](./y)` becomes `![a](../x/y)`, in which
the second pass finds the link `../x/y`. -/
theorem extractAssets_twice_counterexample :
    (extractAssets "/img".toList
        { filename := [], attributes := [], text := "![a](./x)](./y)".toList, assets := [] }
      = some { filename := [], attributes := [], text := "![a](/img/x)](./y)".toList,
               assets := ["./x".toList] } ∧
     extractAssets "/img".toList
        { filename := [], attributes := [], text := "![a](/img/x)](./y)".toList,
          assets := ["./x".toList] }
      = some { filename := [], attributes := [], text := "![a](/img/x)](/img/y)".toList,
               assets := ["./y".toList] }) ∧
    (extractAssets "a/../../x".toList
        { filename := [], attributes := [], text := "![a](./y)".toList, assets := [] }
      = some { filename := [], attributes := [], text := "![a](../x/y)".toList,
               assets := ["./y".toList] } ∧
     extractAssets "a/../../x".toList
        { filename := [], attributes := [], text := "![a](../x/y)".toList,
          assets := ["./y".toList] }
      = some { filename := [], attributes := [], text := "![a](../x/y)".toList,
               assets := ["../x/y".toList] }) := by
  decide

/-! ## General lemmas on the matcher -/

@[simp] theorem orTry_none_right {α : Type} (a : Option α) : orTry a none = a := by
  cases a <;> rfl

theorem rmatch_bol (st : MState) (k : MState → Option MState) :
    rmatch .bol st k = if st.prev = none ∨ st.prev = some '\n' then k st else none := by
  rw [rmatch]

theorem rmatch_eol (st : MState) (k : MState → Option MState) :
    rmatch .eol st k
      = if st.rest.head? = none ∨ st.rest.head? = some '\n' then k st else none := by
  rw [rmatch]

theorem starLoop_fail (body : MState → (MState → Option MState) → Option MState)
    (hbody : ∀ st, body st (fun _ => none) = none) (g : Bool) :
    ∀ (n : Nat) (st : MState), starLoop body g n st (fun _ => none) = none := by
  intro n
  induction n with
  | zero => intro st; rfl
  | succ n ih =>
    intro st
    have hk : (fun st' : MState =>
        if st'.rest.length < st.rest.length then starLoop body g n st' (fun _ => none) else none)
        = fun _ => none := by
      funext st'
      split
      · exact ih st'
      · rfl
    simp only [starLoop, hk, hbody]
    cases g <;> rfl

theorem rmatch_fail : ∀ (r : Regex) (st : MState), rmatch r st (fun _ => none) = none := by
  intro r
  induction r with
  | empty => intro st; rw [rmatch]
  | cls p =>
    intro st
    obtain ⟨prev, rest, cap⟩ := st
    cases rest with
    | nil => rw [rmatch_cls_nil]
    | cons c t => rw [rmatch_cls_cons]; split <;> rfl
  | seq a b iha ihb =>
    intro st
    rw [rmatch]
    have : (fun st' => rmatch b st' (fun _ => none)) = fun _ => none := by
      funext st'; exact ihb st'
    rw [this, iha]
  | alt a b iha ihb => intro st; rw [rmatch, iha, ihb]; rfl
  | star g a iha => intro st; rw [rmatch]; exact starLoop_fail _ iha g _ _
  | group a iha => intro st; rw [rmatch]; exact iha st
  | bol => intro st; rw [rmatch_bol]; split <;> rfl
  | eol => intro st; rw [rmatch_eol]; split <;> rfl

theorem starLoop_succ (a : Regex) (g : Bool) (k : MState → Option MState) :
    ∀ (n : Nat) (st : MState), st.rest.length ≤ n →
      starLoop (rmatch a) g (n + 1) st k = starLoop (rmatch a) g n st k := by
  intro n
  induction n with
  | zero =>
    intro st h
    have h0 : st.rest.length = 0 := Nat.le_zero.1 h
    have hk : (fun st' : MState =>
        if st'.rest.length < st.rest.length then starLoop (rmatch a) g 0 st' k else none)
        = fun _ => none := by
      funext st'
      rw [h0]
      simp
    conv => lhs; rw [starLoop]
    rw [hk, rmatch_fail]
    cases g <;> simp [starLoop]
  | succ n ih =>
    intro st h
    have hk : (fun st' : MState =>
        if st'.rest.length < st.rest.length then starLoop (rmatch a) g (n + 1) st' k else none)
        = (fun st' : MState =>
        if st'.rest.length < st.rest.length then starLoop (rmatch a) g n st' k else none) := by
      funext st'
      by_cases hlt : st'.rest.length < st.rest.length
      · rw [if_pos hlt, if_pos hlt]
        exact ih st' (by omega)
      · rw [if_neg hlt, if_neg hlt]
    rw [starLoop, hk]
    conv => rhs; rw [starLoop]

theorem starLoop_fuel (a : Regex) (g : Bool) (k : MState → Option MState) (st : MState) :
    ∀ (d : Nat), starLoop (rmatch a) g (st.rest.length + d) st k
      = starLoop (rmatch a) g st.rest.length st k := by
  intro d
  induction d with
  | zero => rfl
  | succ d ih =>
    rw [← Nat.add_assoc, starLoop_succ a g k _ st (by omega), ih]

theorem starLoop_fuel_le (a : Regex) (g : Bool) (k : MState → Option MState) (st : MState)
    (n : Nat) (h : st.rest.length ≤ n) :
    starLoop (rmatch a) g n st k = starLoop (rmatch a) g st.rest.length st k := by
  obtain ⟨d, rfl⟩ := Nat.exists_eq_add_of_le h
  exact starLoop_fuel a g k st d

theorem sufK_some : SufK some := by
  intro st x h
  cases h
  exact List.suffix_refl _

theorem starLoop_suffix (body : MState → (MState → Option MState) → Option MState)
    (hbody : ∀ k, SufK k → SufK (fun st => body st k)) (g : Bool)
    (k : MState → Option MState) (hk : SufK k) :
    ∀ n : Nat, SufK (fun st => starLoop body g n st k) := by
  intro n
  induction n with
  | zero => intro st x h; exact hk st x (by simpa [starLoop] using h)
  | succ n ih =>
    intro st x h
    simp only [starLoop] at h
    have hK : SufK (fun st' : MState =>
        if st'.rest.length < st.rest.length then starLoop body g n st' k else none) := by
      intro st' y hy
      simp only at hy
      split at hy
      · exact ih st' y hy
      · exact absurd hy (by simp)
    have hcases : body st (fun st' : MState =>
        if st'.rest.length < st.rest.length then starLoop body g n st' k else none) = some x
        ∨ k st = some x := by
      cases g with
      | true => simpa using orTry_eq_some _ _ _ h
      | false => exact (by simpa using orTry_eq_some _ _ _ h : _ ∨ _).symm
    rcases hcases with h1 | h1
    · exact hbody _ hK st x h1
    · exact hk st x h1

theorem rmatch_suffix : ∀ (r : Regex) (k : MState → Option MState), SufK k →
    SufK (fun st => rmatch r st k) := by
  intro r
  induction r with
  | empty => intro k hk st x h; simp only [rmatch] at h; exact hk st x h
  | cls p =>
    intro k hk st x h
    obtain ⟨c, t, hrest, _, hk'⟩ := rmatch_cls_some p st x k h
    rw [hrest]
    exact (hk _ x hk').trans (List.suffix_cons c t)
  | seq a b iha ihb =>
    intro k hk st x h
    simp only [rmatch] at h
    exact iha _ (ihb k hk) st x h
  | alt a b iha ihb =>
    intro k hk st x h
    simp only [rmatch] at h
    rcases orTry_eq_some _ _ _ h with h1 | h1
    · exact iha k hk st x h1
    · exact ihb k hk st x h1
  | star g a iha =>
    intro k hk st x h
    simp only [rmatch] at h
    exact starLoop_suffix (rmatch a) iha g k hk _ st x h
  | group a iha =>
    intro k hk st x h
    simp only [rmatch] at h
    exact iha (fun st' => k { st' with
        cap := some (st.rest.take (st.rest.length - st'.rest.length)) })
      (fun st' y hy => hk ⟨st'.prev, st'.rest,
        some (st.rest.take (st.rest.length - st'.rest.length))⟩ y hy) st x h
  | bol =>
    intro k hk st x h
    simp only [rmatch_bol] at h
    split at h
    · exact hk st x h
    · exact absurd h (by simp)
  | eol =>
    intro k hk st x h
    simp only [rmatch_eol] at h
    split at h
    · exact hk st x h
    · exact absurd h (by simp)

/-- The text of a match and the text behind it make up the text matched
against. -/
theorem matchAt_split (re : Regex) (b : Option Char) (s : Str) (m : Match)
    (h : matchAt re b s = some m) :
    ∃ x : MState, rmatch re ⟨b, s, none⟩ some = some x ∧ s = m.text ++ x.rest ∧
      m.group1 = x.cap.getD [] := by
  unfold matchAt at h
  cases hr : rmatch re ⟨b, s, none⟩ some with
  | none => rw [hr] at h; exact absurd h (by simp)
  | some x =>
    rw [hr] at h
    simp only [Option.some.injEq] at h
    subst h
    obtain ⟨pre, hpre⟩ := rmatch_suffix re some sufK_some ⟨b, s, none⟩ x hr
    simp only at hpre
    refine ⟨x, rfl, ?_, rfl⟩
    simp only
    rw [← hpre]
    simp

/-! ## Repetitions of a class -/

theorem starLoop_cls_split (p : Char → Bool) (g : Bool) (k : MState → Option MState)
    (x : MState) : ∀ (n : Nat) (st : MState), starLoop (rmatch (.cls p)) g n st k = some x →
      ∃ a st', st.rest = a ++ st'.rest ∧ (∀ c ∈ a, p c = true) ∧ st'.cap = st.cap ∧
        k st' = some x := by
  intro n
  induction n with
  | zero =>
    intro st h
    exact ⟨[], st, rfl, by simp, rfl, by simpa [starLoop] using h⟩
  | succ n ih =>
    intro st h
    have hcases : rmatch (.cls p) st (fun st' =>
          if st'.rest.length < st.rest.length then starLoop (rmatch (.cls p)) g n st' k else none)
          = some x ∨ k st = some x := by
      cases g with
      | true =>
        simp only [starLoop, if_true] at h
        exact orTry_eq_some _ _ _ h
      | false =>
        simp only [starLoop, Bool.false_eq_true, if_false] at h
        exact (orTry_eq_some _ _ _ h).symm
    rcases hcases with h1 | h1
    · obtain ⟨c, t, hrest, hc, hk⟩ := rmatch_cls_some _ _ _ _ h1
      simp only at hk
      split at hk
      · obtain ⟨a, st', hs, ha, hcap, hk'⟩ := ih _ hk
        refine ⟨c :: a, st', ?_, ?_, hcap, hk'⟩
        · rw [hrest]; simp only at hs; rw [hs]; rfl
        · intro d hd
          rcases List.mem_cons.1 hd with rfl | hd
          · exact hc
          · exact ha d hd
      · exact absurd hk (by simp)
    · exact ⟨[], st, rfl, by simp, rfl, h1⟩

theorem starLoop_cls_complete (p : Char → Bool) (g : Bool) (k : MState → Option MState)
    (rest : Str) (cap : Option Str) (x : MState) :
    ∀ (a : Str) (n : Nat) (prev : Option Char), (∀ c ∈ a, p c = true) →
      (a ++ rest).length ≤ n → k ⟨advance prev a, rest, cap⟩ = some x →
      ∃ y, starLoop (rmatch (.cls p)) g n ⟨prev, a ++ rest, cap⟩ k = some y := by
  intro a
  induction a with
  | nil =>
    intro n prev _ _ hk
    simp only [advance, List.foldl_nil, List.nil_append] at hk ⊢
    cases n with
    | zero => exact ⟨x, by simpa [starLoop] using hk⟩
    | succ n =>
      cases g with
      | true =>
        simp only [starLoop, if_true]
        cases rmatch (.cls p) ⟨prev, rest, cap⟩ _ with
        | none => exact ⟨x, by simpa using hk⟩
        | some y => exact ⟨y, rfl⟩
      | false =>
        simp only [starLoop, Bool.false_eq_true, if_false, hk]
        exact ⟨x, rfl⟩
  | cons c a ih =>
    intro n prev hp hn hk
    obtain ⟨m, rfl⟩ : ∃ m, n = m + 1 := ⟨n - 1, by simp at hn; omega⟩
    have hlen : (a ++ rest).length ≤ m := by simp at hn ⊢; omega
    obtain ⟨y, hy⟩ := ih m (some c) (fun d hd => hp d (List.mem_cons_of_mem _ hd)) hlen
      (by simpa [advance] using hk)
    have hagain : rmatch (.cls p) ⟨prev, c :: a ++ rest, cap⟩ (fun st' =>
        if st'.rest.length < (c :: a ++ rest).length
        then starLoop (rmatch (.cls p)) g m st' k else none) = some y := by
      rw [List.cons_append, rmatch_cls_cons, if_pos (hp c (by simp))]
      simp only [List.length_cons, Nat.lt_succ_self, if_true]
      exact hy
    cases g with
    | true =>
      refine ⟨y, ?_⟩
      simp only [starLoop, if_true]
      rw [hagain]; rfl
    | false =>
      simp only [starLoop, Bool.false_eq_true, if_false]
      rw [hagain]
      cases k ⟨prev, c :: a ++ rest, cap⟩ with
      | none => exact ⟨y, rfl⟩
      | some z => exact ⟨z, rfl⟩

theorem starLoop_greedy_take (p : Char → Bool) (k : MState → Option MState)
    (rest : Str) (cap : Option Str) (x : MState) (hrest : ∀ c t, rest = c :: t → p c = false) :
    ∀ (a : Str) (n : Nat) (prev : Option Char), (∀ c ∈ a, p c = true) →
      (a ++ rest).length ≤ n → k ⟨advance prev a, rest, cap⟩ = some x →
      starLoop (rmatch (.cls p)) true n ⟨prev, a ++ rest, cap⟩ k = some x := by
  intro a
  induction a with
  | nil =>
    intro n prev _ _ hk
    simp only [advance, List.foldl_nil, List.nil_append] at hk ⊢
    cases n with
    | zero => simpa [starLoop] using hk
    | succ n =>
      simp only [starLoop, if_true]
      cases rest with
      | nil => rw [rmatch_cls_nil]; simpa using hk
      | cons c t => rw [rmatch_cls_cons, hrest c t rfl]; simpa using hk
  | cons c a ih =>
    intro n prev hp hn hk
    obtain ⟨m, rfl⟩ : ∃ m, n = m + 1 := ⟨n - 1, by simp at hn; omega⟩
    have hlen : (a ++ rest).length ≤ m := by simp at hn ⊢; omega
    have hy := ih m (some c) (fun d hd => hp d (List.mem_cons_of_mem _ hd)) hlen
      (by simpa [advance] using hk)
    simp only [starLoop, if_true, List.cons_append]
    rw [rmatch_cls_cons, if_pos (hp c (by simp))]
    simp only [List.length_cons, Nat.lt_succ_self, if_true]
    rw [hy]; rfl

/-! ## Patterns anchored at the beginning of a line -/

theorem matchAt_seq_bol (r : Regex) (b : Option Char) (s : Str) :
    matchAt (.seq .bol r) b s = if IsBol b then matchAt r b s else none := by
  unfold matchAt IsBol
  rw [rmatch, rmatch_bol]
  by_cases h : b = none ∨ b = some '\n' <;> simp [h]

theorem anchored_seq_bol (r : Regex) : Anchored (.seq .bol r) := by
  intro b s hb
  rw [matchAt_seq_bol, if_neg hb]

theorem advance_append (b : Option Char) (x y : Str) :
    advance b (x ++ y) = advance (advance b x) y := by
  simp [advance]

theorem advance_cons (b : Option Char) (c : Char) (x : Str) :
    advance b (c :: x) = advance (some c) x := rfl

theorem advance_concat (b : Option Char) (x : Str) (c : Char) :
    advance b (x ++ [c]) = some c := by
  simp [advance]

theorem advance_not_bol (b : Option Char) (hb : ¬ IsBol b) : ∀ (x : Str), '\n' ∉ x →
    ¬ IsBol (advance b x) := by
  intro x
  induction x generalizing b with
  | nil => intro _; exact hb
  | cons c x ih =>
    intro h
    simp only [List.mem_cons, not_or] at h
    rw [advance_cons]
    apply ih
    · unfold IsBol
      simp only [Option.some.injEq, false_or, reduceCtorEq]
      exact fun hc => h.1 hc.symm
    · exact h.2

theorem pieces_line_tail (re : Regex) (hre : Anchored re) (t : Str) :
    ∀ (A : Str) (b : Option Char) (ab : Bool), ¬ IsBol b → '\n' ∉ A →
      pieces re b 0 ab (A ++ '\n' :: t)
        = A.map .rune ++ .rune '\n' :: pieces re (some '\n') 0 false t := by
  intro A
  induction A with
  | nil => intro b ab hb _; exact pieces_rune _ _ _ _ _ (hre b _ hb)
  | cons c A ih =>
    intro b ab hb h
    simp only [List.mem_cons, not_or] at h
    rw [List.cons_append, pieces_rune _ _ _ _ _ (hre b _ hb), ih (some c) false _ h.2]
    · rfl
    · unfold IsBol
      simp only [Option.some.injEq, false_or, reduceCtorEq]
      exact fun hc => h.1 hc.symm

theorem pieces_last_tail (re : Regex) (hre : Anchored re) :
    ∀ (A : Str) (b : Option Char) (ab : Bool), ¬ IsBol b → '\n' ∉ A →
      pieces re b 0 ab A = A.map .rune := by
  intro A
  induction A with
  | nil => intro b ab hb _; exact pieces_nil _ _ _ _ (hre b _ hb)
  | cons c A ih =>
    intro b ab hb h
    simp only [List.mem_cons, not_or] at h
    rw [pieces_rune _ _ _ _ _ (hre b _ hb), ih (some c) false _ h.2]
    · rfl
    · unfold IsBol
      simp only [Option.some.injEq, false_or, reduceCtorEq]
      exact fun hc => h.1 hc.symm

/-! ## Rebuilding the text -/

theorem renderPieces_append (repl : Str) : ∀ ps qs : List Piece,
    renderPieces repl (ps ++ qs) = renderPieces repl ps ++ renderPieces repl qs := by
  intro ps
  induction ps with
  | nil => intro qs; rfl
  | cons p ps ih =>
    intro qs
    cases p with
    | rune c => simp [renderPieces, ih]
    | found m => simp [renderPieces, ih]

theorem renderPieces_runes (repl : Str) : ∀ A : Str,
    renderPieces repl (A.map .rune) = A := by
  intro A
  induction A with
  | nil => rfl
  | cons c A ih => simp [renderPieces, ih]

theorem replaceAllStringFunc_eq (re : Regex) (s : Str) (repl : Str → Option Str) :
    replaceAllStringFunc re s repl = renderFunc repl (pieces re none 0 false s) := by
  unfold replaceAllStringFunc
  induction pieces re none 0 false s with
  | nil => rfl
  | cons p ps ih =>
    cases p with
    | rune c => simp only [List.foldr_cons, ih, renderFunc]
    | found m =>
      cases h1 : repl m.text <;> cases h2 : renderFunc repl ps <;>
        simp [List.foldr_cons, ih, renderFunc, h1, h2]

theorem renderFunc_runes (repl : Str → Option Str) : ∀ A : Str,
    renderFunc repl (A.map .rune) = some A := by
  intro A
  induction A with
  | nil => rfl
  | cons c A ih => simp [renderFunc, ih]

theorem renderFunc_append (repl : Str → Option Str) : ∀ (ps qs : List Piece) (x y : Str),
    renderFunc repl ps = some x → renderFunc repl qs = some y →
    renderFunc repl (ps ++ qs) = some (x ++ y) := by
  intro ps
  induction ps with
  | nil => intro qs x y hx hy; simp only [renderFunc, Option.some.injEq] at hx; subst hx; simpa using hy
  | cons p ps ih =>
    intro qs x y hx hy
    cases p with
    | rune c =>
      simp only [renderFunc, Option.map_eq_some'] at hx
      obtain ⟨x', hx', rfl⟩ := hx
      simp [renderFunc, ih qs x' y hx' hy]
    | found m =>
      simp only [renderFunc] at hx
      cases hr : repl m.text with
      | none => rw [hr] at hx; simp at hx
      | some r =>
        cases hps : renderFunc repl ps with
        | none => rw [hr, hps] at hx; simp at hx
        | some x' =>
          rw [hr, hps] at hx
          simp only [Option.some.injEq] at hx
          subst hx
          simp [renderFunc, hr, ih qs x' y hps hy]

/-! ## The matches of `emptyBulletRegexp` -/

theorem isEol_iff_head (t : Str) : IsEol t ↔ (t.head? = none ∨ t.head? = some '\n') := by
  cases t with
  | nil => simp [IsEol]
  | cons c t => simp [IsEol]

theorem rmatch_eol_some (st x : MState) (h : rmatch .eol st some = some x) :
    IsEol st.rest ∧ x = st := by
  rw [rmatch_eol] at h
  split at h
  · rename_i hh
    exact ⟨(isEol_iff_head _).2 hh, by simpa using h.symm⟩
  · exact absurd h (by simp)

theorem anchored_emptyBullet : Anchored emptyBulletRegexp := anchored_seq_bol _

/-- Every match of `emptyBulletRegexp` starts a line and is whitespace, a
dash and whitespace up to the end of a line. -/
theorem emptyBullet_sound (b : Option Char) (s : Str) (m : Match)
    (h : matchAt emptyBulletRegexp b s = some m) :
    IsBol b ∧ ∃ w1 w2 t, s = w1 ++ '-' :: (w2 ++ t) ∧ (∀ c ∈ w1, isSpace c = true) ∧
      (∀ c ∈ w2, isSpace c = true) ∧ IsEol t ∧ m.text = w1 ++ '-' :: w2 := by
  unfold emptyBulletRegexp at h
  rw [matchAt_seq_bol] at h
  by_cases hb : IsBol b
  · rw [if_pos hb] at h
    refine ⟨hb, ?_⟩
    obtain ⟨x, hx, hs, _⟩ := matchAt_split _ b s m h
    rw [rmatch, rmatch] at hx
    obtain ⟨w1, st1, hs1, hw1, _, hx⟩ := starLoop_cls_split _ _ _ _ _ _ hx
    rw [rmatch] at hx
    obtain ⟨t1, ht1, hx⟩ := rmatch_lit_some _ _ _ _ hx
    rw [rmatch, rmatch] at hx
    obtain ⟨w2, st2, hs2, hw2, _, hx⟩ := starLoop_cls_split _ _ _ _ _ _ hx
    obtain ⟨heol, hxe⟩ := rmatch_eol_some _ _ hx
    simp only at hs1 hs2
    refine ⟨w1, w2, st2.rest, ?_, hw1, hw2, heol, ?_⟩
    · rw [hs1, ht1, hs2]
    · have h1 : s = (w1 ++ '-' :: w2) ++ st2.rest := by
        rw [hs1, ht1, hs2]; simp
      rw [hxe] at hs
      exact (List.append_cancel_right (h1.symm.trans hs)).symm
  · rw [if_neg hb] at h
    exact absurd h (by simp)

/-- At the beginning of a line, `emptyBulletRegexp` matches wherever whitespace,
a dash and whitespace up to the end of a line lie ahead. -/
theorem emptyBullet_complete (b : Option Char) (s : Str) (hb : IsBol b) (hs : BulletAt s) :
    ∃ m, matchAt emptyBulletRegexp b s = some m := by
  obtain ⟨w1, w2, t, rfl, hw1, hw2, heol⟩ := hs
  have h2 : ∀ (prev : Option Char) (cap : Option Str), ∃ y,
      starLoop (rmatch (.cls isSpace)) true (w2 ++ t).length ⟨prev, w2 ++ t, cap⟩
        (fun st => rmatch .eol st some) = some y := by
    intro prev cap
    apply starLoop_cls_complete isSpace true _ t cap ⟨advance prev w2, t, cap⟩ w2 _ prev hw2
      (le_refl _)
    rw [rmatch_eol, if_pos ((isEol_iff_head t).1 heol)]
  have h1 : ∃ y, rmatch (.seq (.star true (.cls isSpace)) (.seq (.lit '-')
      (.seq (.star true (.cls isSpace)) .eol))) ⟨b, w1 ++ '-' :: (w2 ++ t), none⟩ some
      = some y := by
    rw [rmatch, rmatch]
    obtain ⟨y, hy⟩ := h2 (some '-') none
    apply starLoop_cls_complete isSpace true _ ('-' :: (w2 ++ t)) none y w1 _ b hw1 (le_refl _)
    rw [rmatch, rmatch_lit_cons, if_pos rfl, rmatch, rmatch]
    exact hy
  obtain ⟨y, hy⟩ := h1
  unfold emptyBulletRegexp
  rw [matchAt_seq_bol, if_pos hb]
  unfold matchAt
  rw [hy]
  exact ⟨_, rfl⟩

theorem emptyBullet_none_iff (b : Option Char) (s : Str) :
    matchAt emptyBulletRegexp b s = none ↔ ¬ (IsBol b ∧ BulletAt s) := by
  constructor
  · rintro h ⟨hb, hs⟩
    obtain ⟨m, hm⟩ := emptyBullet_complete b s hb hs
    rw [h] at hm
    exact absurd hm (by simp)
  · intro h
    cases hm : matchAt emptyBulletRegexp b s with
    | none => rfl
    | some m =>
      obtain ⟨hb, w1, w2, t, hs, hw1, hw2, heol, _⟩ := emptyBullet_sound b s m hm
      exact absurd ⟨hb, w1, w2, t, hs, hw1, hw2, heol⟩ h

theorem not_bulletAt_nil : ¬ BulletAt [] := by
  rintro ⟨w1, w2, t, h, _⟩
  cases w1 <;> simp at h

theorem bulletAt_of_cons (c : Char) (s : Str) (hc : isSpace c = true) (h : BulletAt s) :
    BulletAt (c :: s) := by
  obtain ⟨w1, w2, t, rfl, hw1, hw2, heol⟩ := h
  refine ⟨c :: w1, w2, t, rfl, ?_, hw2, heol⟩
  intro d hd
  rcases List.mem_cons.1 hd with rfl | hd
  · exact hc
  · exact hw1 d hd

theorem bulletAt_tail (c : Char) (s : Str) (hc : c ≠ '-') (h : BulletAt (c :: s)) :
    isSpace c = true ∧ BulletAt s := by
  obtain ⟨w1, w2, t, hs, hw1, hw2, heol⟩ := h
  cases w1 with
  | nil =>
    simp only [List.nil_append, List.cons.injEq] at hs
    exact absurd hs.1 hc
  | cons d w1 =>
    simp only [List.cons_append, List.cons.injEq] at hs
    obtain ⟨rfl, rfl⟩ := hs
    exact ⟨hw1 c (by simp), w1, w2, t, rfl, fun e he => hw1 e (List.mem_cons_of_mem _ he), hw2, heol⟩

/-- The first rune that is no whitespace is where it is. -/
theorem space_split_unique : ∀ (u u' : Str) (d d' : Char) (v v' : Str),
    (∀ c ∈ u, isSpace c = true) → (∀ c ∈ u', isSpace c = true) →
    isSpace d = false → isSpace d' = false →
    u ++ d :: v = u' ++ d' :: v' → u = u' ∧ d = d' ∧ v = v' := by
  intro u
  induction u with
  | nil =>
    intro u' d d' v v' _ hu' hd _ h
    cases u' with
    | nil => simpa using h
    | cons e u' =>
      simp only [List.nil_append, List.cons_append, List.cons.injEq] at h
      have := hu' e (by simp)
      rw [← h.1, hd] at this
      exact absurd this (by simp)
  | cons c u ih =>
    intro u' d d' v v' hu hu' hd hd' h
    cases u' with
    | nil =>
      simp only [List.nil_append, List.cons_append, List.cons.injEq] at h
      have := hu c (by simp)
      rw [h.1, hd'] at this
      exact absurd this (by simp)
    | cons e u' =>
      simp only [List.cons_append, List.cons.injEq] at h
      obtain ⟨rfl, h⟩ := h
      obtain ⟨h1, h2, h3⟩ := ih u' d d' v v' (fun x hx => hu x (List.mem_cons_of_mem _ hx))
        (fun x hx => hu' x (List.mem_cons_of_mem _ hx)) hd hd' h
      exact ⟨by rw [h1], h2, h3⟩

/-- Whitespace followed by the end of a line cannot run into a rune that is no
whitespace on the same line. -/
theorem eol_not_before_solid (a t u z : Str) (e : Char)
    (ha : ∀ c ∈ a, isSpace c = true) (ht : IsEol t) (hu : '\n' ∉ u)
    (he : isSpace e = false) (h : a ++ t = u ++ e :: z) : False := by
  have hne : e ≠ '\n' := by rintro rfl; simp [isSpace] at he
  rcases List.append_eq_append_iff.1 h with ⟨e1, h1, h2⟩ | ⟨e1, h1, h2⟩
  · cases e1 with
    | nil =>
      simp only [List.nil_append] at h2
      rcases ht with rfl | ⟨t', rfl⟩
      · simp at h2
      · simp only [List.cons.injEq] at h2
        exact hne h2.1.symm
    | cons c e1 =>
      rcases ht with rfl | ⟨t', rfl⟩
      · simp at h2
      · simp only [List.cons_append, List.cons.injEq] at h2
        apply hu
        rw [h1, ← h2.1]
        simp
  · cases e1 with
    | nil =>
      simp only [List.nil_append] at h2
      rcases ht with rfl | ⟨t', rfl⟩
      · simp at h2
      · simp only [List.cons.injEq] at h2
        exact hne h2.1
    | cons c e1 =>
      simp only [List.cons_append, List.cons.injEq] at h2
      have := ha e (by rw [h1, ← h2.1]; simp)
      rw [he] at this
      exact absurd this (by simp)

/-! ## `removeEmptyBulletPoints` leaves no empty bullet -/

theorem noMatchFrom_head (re : Regex) (b : Option Char) (s : Str) (h : NoMatchFrom re b s) :
    matchAt re b s = none := by
  cases s with
  | nil => exact h
  | cons c s => exact h.1

theorem pieces_noMatchFrom (re : Regex) : ∀ (s : Str) (b : Option Char) (ab : Bool),
    NoMatchFrom re b s → pieces re b 0 ab s = s.map .rune := by
  intro s
  induction s with
  | nil => intro b ab h; exact pieces_nil _ _ _ _ h
  | cons c s ih =>
    intro b ab h
    rw [pieces_rune _ _ _ _ _ h.1, ih _ _ h.2]
    rfl

theorem not_isBol_some (c : Char) (hc : c ≠ '\n') : ¬ IsBol (some c) := by
  unfold IsBol
  simp only [Option.some.injEq, false_or, reduceCtorEq]
  exact hc

theorem eolAhead_of_bulletAt_dash (s : Str) (h : BulletAt ('-' :: s)) : EolAhead s := by
  obtain ⟨w1, w2, t, hs, hw1, hw2, heol⟩ := h
  cases w1 with
  | nil =>
    simp only [List.nil_append, List.cons.injEq, true_and] at hs
    exact ⟨w2, t, hs, hw2, heol⟩
  | cons d w1 =>
    simp only [List.cons_append, List.cons.injEq] at hs
    have := hw1 d (by simp)
    rw [← hs.1] at this
    exact absurd this (by decide)

theorem bulletAt_dash_of_eolAhead (s : Str) (h : EolAhead s) : BulletAt ('-' :: s) := by
  obtain ⟨w, t, rfl, hw, heol⟩ := h
  exact ⟨[], w, t, rfl, by simp, hw, heol⟩

theorem eolAhead_cons (d : Char) (s : Str) (hd : isSpace d = true) (h : EolAhead s) :
    EolAhead (d :: s) := by
  obtain ⟨w, t, rfl, hw, heol⟩ := h
  refine ⟨d :: w, t, rfl, ?_, heol⟩
  intro e he
  rcases List.mem_cons.1 he with rfl | he
  · exact hd
  · exact hw e he

theorem eolAhead_render : ∀ (s : Str) (b : Option Char) (ab : Bool), ¬ IsBol b →
    ¬ EolAhead s →
    ¬ EolAhead (renderPieces [] (pieces emptyBulletRegexp b 0 ab s)) := by
  intro s
  induction s with
  | nil => intro b ab _ h; exact absurd ⟨[], [], rfl, by simp, Or.inl rfl⟩ h
  | cons d s ih =>
    intro b ab hb h
    have hd : d ≠ '\n' := by
      rintro rfl
      exact h ⟨[], '\n' :: s, rfl, by simp, Or.inr ⟨s, rfl⟩⟩
    rw [pieces_rune _ _ _ _ _ (anchored_emptyBullet b _ hb)]
    simp only [renderPieces]
    rintro ⟨w, t, hwt, hw, heol⟩
    cases w with
    | nil =>
      simp only [List.nil_append] at hwt
      rcases heol with rfl | ⟨t', rfl⟩
      · simp at hwt
      · simp only [List.cons.injEq] at hwt
        exact hd hwt.1
    | cons e w =>
      simp only [List.cons_append, List.cons.injEq] at hwt
      obtain ⟨rfl, hwt⟩ := hwt
      have hsp := hw d (by simp)
      refine ih (some d) false (not_isBol_some d hd) (fun h' => h (eolAhead_cons d s hsp h')) ?_
      exact ⟨w, t, hwt, fun x hx => hw x (List.mem_cons_of_mem _ hx), heol⟩

theorem bulletAt_render : ∀ (s : Str) (b : Option Char) (ab : Bool),
    matchAt emptyBulletRegexp b s = none → ¬ BulletAt s →
    ¬ BulletAt (renderPieces [] (pieces emptyBulletRegexp b 0 ab s)) := by
  intro s
  induction s with
  | nil =>
    intro b ab hm _
    rw [pieces_nil _ _ _ _ hm]
    exact not_bulletAt_nil
  | cons c s ih =>
    intro b ab hm hs
    rw [pieces_rune _ _ _ _ _ hm]
    simp only [renderPieces]
    intro hrender
    by_cases hc : c = '-'
    · subst hc
      have h1 := eolAhead_of_bulletAt_dash _ hrender
      exact eolAhead_render s (some '-') false (not_isBol_some _ (by decide))
        (fun h' => hs (bulletAt_dash_of_eolAhead s h')) h1
    · obtain ⟨hsp, ho⟩ := bulletAt_tail c _ hc hrender
      have hs' : ¬ BulletAt s := fun h' => hs (bulletAt_of_cons c s hsp h')
      cases hm' : matchAt emptyBulletRegexp (some c) s with
      | none => exact ih (some c) false hm' hs' ho
      | some m =>
        obtain ⟨_, w1, w2, t, hst, hw1, hw2, heol, _⟩ := emptyBullet_sound _ _ _ hm'
        exact hs' ⟨w1, w2, t, hst, hw1, hw2, heol⟩

theorem noMatchFrom_nil_emptyBullet (bo : Option Char) :
    NoMatchFrom emptyBulletRegexp bo [] :=
  (emptyBullet_none_iff bo []).2 (fun h => not_bulletAt_nil h.2)

theorem removeEmpty_noMatch : ∀ (n : Nat) (s : Str), s.length ≤ n →
    ∀ (b bo : Option Char) (ab : Bool), (IsBol bo → IsBol b) →
      NoMatchFrom emptyBulletRegexp bo
        (renderPieces [] (pieces emptyBulletRegexp b 0 ab s)) := by
  intro n
  induction n with
  | zero =>
    intro s hs b bo ab _
    have : s = [] := List.length_eq_zero.1 (Nat.le_zero.1 hs)
    subst this
    have hm : matchAt emptyBulletRegexp b [] = none :=
      (emptyBullet_none_iff b []).2 (fun h => not_bulletAt_nil h.2)
    rw [pieces_nil _ _ _ _ hm]
    exact noMatchFrom_nil_emptyBullet bo
  | succ n ih =>
    intro s hs b bo ab hbo
    cases hm : matchAt emptyBulletRegexp b s with
    | none =>
      cases s with
      | nil =>
        rw [pieces_nil _ _ _ _ hm]
        exact noMatchFrom_nil_emptyBullet bo
      | cons c s =>
        have hrender := bulletAt_render (c :: s) b ab hm
        rw [pieces_rune _ _ _ _ _ hm] at hrender ⊢
        simp only [renderPieces] at hrender ⊢
        refine ⟨?_, ih s (by simp at hs; omega) (some c) (some c) false id⟩
        rw [emptyBullet_none_iff]
        rintro ⟨hb', hbullet⟩
        have hnb : ¬ BulletAt (c :: s) := fun h' =>
          ((emptyBullet_none_iff b (c :: s)).1 hm) ⟨hbo hb', h'⟩
        exact hrender hnb hbullet
    | some m =>
      obtain ⟨hb, w1, w2, t, hst, hw1, hw2, heol, hmt⟩ := emptyBullet_sound _ _ _ hm
      have hs' : s = m.text ++ t := by rw [hst, hmt]; simp
      have hne : m.text ≠ [] := by rw [hmt]; simp
      have hlen : t.length < s.length := by
        rw [hs', List.length_append]
        have := List.length_pos.2 hne
        omega
      have hpieces := pieces_found emptyBulletRegexp b ab m.text t m.group1 hne
        (by rw [← hs']; exact hm)
      rw [hs', hpieces]
      simp only [renderPieces, List.nil_append]
      by_cases hb' : IsBol (advance b m.text)
      · exact ih t (by omega) _ bo true (fun _ => hb')
      · rcases heol with rfl | ⟨t', rfl⟩
        · rw [pieces_nil _ _ _ _ (anchored_emptyBullet _ _ hb')]
          exact noMatchFrom_nil_emptyBullet bo
        · rw [pieces_rune _ _ _ _ _ (anchored_emptyBullet _ _ hb')]
          simp only [renderPieces]
          have hrec := ih t' (by simp at hlen; omega) (some '\n') (some '\n') false id
          refine ⟨?_, hrec⟩
          rw [emptyBullet_none_iff]
          rintro ⟨_, hbullet⟩
          obtain ⟨_, ho⟩ := bulletAt_tail '\n' _ (by decide) hbullet
          exact (emptyBullet_none_iff _ _).1 (noMatchFrom_head _ _ _ hrec)
            ⟨Or.inr rfl, ho⟩

/-! ## Matching a match again

A pattern without anchors that matches `m` in a text matches `m` again, with
the same group, when it is run on `m` alone: this is what the replacement
functions of `unindentMultilineStrings` and `extractAssets` rely on. -/

theorem cutSim_orTry (t : Str) (a b a' b' : Option MState)
    (ha : CutSim t a a') (hb : CutSim t b b') : CutSim t (orTry a b) (orTry a' b') := by
  constructor
  · intro h
    cases a with
    | some x => simp at h
    | none =>
      simp only [orTry_none] at h
      rw [ha.1 rfl, hb.1 h]
      rfl
  · intro x h hx
    cases a with
    | some y =>
      simp only [orTry_some, Option.some.injEq] at h
      subst h
      obtain ⟨x', h1, h2, h3⟩ := ha.2 y rfl hx
      exact ⟨x', by rw [h1]; rfl, h2, h3⟩
    | none =>
      simp only [orTry_none] at h
      obtain ⟨x', h1, h2, h3⟩ := hb.2 x h hx
      exact ⟨x', by rw [ha.1 rfl, h1]; rfl, h2, h3⟩

theorem cutSim_none (t : Str) : CutSim t none none :=
  ⟨fun _ => rfl, fun x h _ => absurd h (by simp)⟩

theorem cutSimK_some (t : Str) : CutSimK t some some := by
  intro st st' hrel
  refine ⟨fun h => absurd h (by simp), ?_⟩
  intro x hx hxt
  simp only [Option.some.injEq] at hx
  subst hx
  refine ⟨st', rfl, ?_, hrel.2.symm⟩
  have := hrel.1
  rw [hxt] at this
  exact List.append_left_eq_self.1 this.symm

theorem starLoop_cut (t : Str) (a : Regex) (g : Bool)
    (iha : ∀ k k', SufK k → CutSimK t k k' →
      CutSimK t (fun st => rmatch a st k) (fun st => rmatch a st k'))
    (hsuf : ∀ k, SufK k → SufK (fun st => rmatch a st k))
    (k k' : MState → Option MState) (hk : SufK k) (hkk : CutSimK t k k') :
    ∀ (n : Nat) (st st' : MState), CutRel t st st' → st.rest.length ≤ n →
      CutSim t (starLoop (rmatch a) g n st k) (starLoop (rmatch a) g n st' k') := by
  intro n
  induction n with
  | zero => intro st st' hrel _; exact hkk st st' hrel
  | succ n ih =>
    intro st st' hrel hn
    have hlen : st.rest.length = st'.rest.length + t.length := by
      rw [hrel.1, List.length_append]
    have hK : SufK (fun s1 : MState =>
        if s1.rest.length < st.rest.length then starLoop (rmatch a) g n s1 k else none) := by
      intro s1 y hy
      simp only at hy
      split at hy
      · exact starLoop_suffix (rmatch a) hsuf g k hk n s1 y hy
      · exact absurd hy (by simp)
    have hKK : CutSimK t
        (fun s1 : MState =>
          if s1.rest.length < st.rest.length then starLoop (rmatch a) g n s1 k else none)
        (fun s1 : MState =>
          if s1.rest.length < st'.rest.length then starLoop (rmatch a) g n s1 k' else none) := by
      intro s1 s1' hrel1
      have hlen1 : s1.rest.length = s1'.rest.length + t.length := by
        rw [hrel1.1, List.length_append]
      simp only
      by_cases hlt : s1.rest.length < st.rest.length
      · rw [if_pos hlt, if_pos (by omega)]
        exact ih s1 s1' hrel1 (by omega)
      · rw [if_neg hlt, if_neg (by omega)]
        exact cutSim_none t
    have hagain := iha _ _ hK hKK st st' hrel
    simp only at hagain
    simp only [starLoop]
    cases g with
    | true => exact cutSim_orTry t _ _ _ _ hagain (hkk st st' hrel)
    | false => exact cutSim_orTry t _ _ _ _ (hkk st st' hrel) hagain

theorem rmatch_cut (t : Str) : ∀ (r : Regex), AnchorFree r →
    ∀ k k', SufK k → CutSimK t k k' →
      CutSimK t (fun st => rmatch r st k) (fun st => rmatch r st k') := by
  intro r
  induction r with
  | empty =>
    intro _ k k' _ hkk st st' hrel
    simp only [rmatch]
    exact hkk st st' hrel
  | cls p =>
    intro _ k k' hk hkk st st' hrel
    obtain ⟨prev, rest, cap⟩ := st
    obtain ⟨prev', rest', cap'⟩ := st'
    obtain ⟨h1, h2⟩ := hrel
    simp only at h1 h2
    subst h1
    subst h2
    simp only
    cases rest' with
    | nil =>
      rw [rmatch_cls_nil]
      refine ⟨fun _ => rfl, ?_⟩
      intro x hx hxt
      exfalso
      obtain ⟨c, t', hrest, _, hkx⟩ := rmatch_cls_some p _ x k hx
      simp only [List.nil_append] at hrest
      have hs := hk _ x hkx
      simp only at hs
      have hl := hs.length_le
      rw [hxt, hrest] at hl
      simp at hl
    | cons c u =>
      rw [List.cons_append, rmatch_cls_cons, rmatch_cls_cons]
      by_cases hc : p c = true
      · rw [if_pos hc, if_pos hc]
        exact hkk _ _ ⟨rfl, rfl⟩
      · rw [if_neg hc, if_neg hc]
        exact cutSim_none t
  | seq a b iha ihb =>
    intro haf k k' hk hkk st st' hrel
    simp only [rmatch]
    exact iha haf.1 _ _ (rmatch_suffix b k hk) (ihb haf.2 k k' hk hkk) st st' hrel
  | alt a b iha ihb =>
    intro haf k k' hk hkk st st' hrel
    simp only [rmatch]
    exact cutSim_orTry t _ _ _ _ (iha haf.1 k k' hk hkk st st' hrel)
      (ihb haf.2 k k' hk hkk st st' hrel)
  | star g a iha =>
    intro haf k k' hk hkk st st' hrel
    simp only [rmatch]
    have hle : st'.rest.length ≤ st.rest.length := by
      rw [hrel.1, List.length_append]; omega
    rw [← starLoop_fuel_le a g k' st' st.rest.length hle]
    exact starLoop_cut t a g (iha haf) (rmatch_suffix a) k k' hk hkk _ st st' hrel (le_refl _)
  | group a iha =>
    intro haf k k' hk hkk st st' hrel
    simp only [rmatch]
    have hlen : st.rest.length = st'.rest.length + t.length := by
      rw [hrel.1, List.length_append]
    refine iha haf
      (fun s1 => k ⟨s1.prev, s1.rest, some (st.rest.take (st.rest.length - s1.rest.length))⟩)
      (fun s1 => k' ⟨s1.prev, s1.rest, some (st'.rest.take (st'.rest.length - s1.rest.length))⟩)
      (fun s1 y hy => hk ⟨s1.prev, s1.rest,
        some (st.rest.take (st.rest.length - s1.rest.length))⟩ y hy) ?_ st st' hrel
    intro s1 s1' hrel1
    have hlen1 : s1.rest.length = s1'.rest.length + t.length := by
      rw [hrel1.1, List.length_append]
    apply hkk
    refine ⟨hrel1.1, ?_⟩
    simp only [Option.some.injEq]
    have hd : st.rest.length - s1.rest.length = st'.rest.length - s1'.rest.length := by omega
    rw [hd, hrel.1, List.take_append_of_le_length (by omega)]
  | bol => intro haf; exact absurd haf (by simp [AnchorFree])
  | eol => intro haf; exact absurd haf (by simp [AnchorFree])

/-- A pattern without anchors matches its own match again, with the same
group. -/
theorem matchAt_again (re : Regex) (haf : AnchorFree re) (b : Option Char) (s : Str) (m : Match)
    (h : matchAt re b s = some m) : matchAt re none m.text = some m := by
  obtain ⟨x, hx, hs, hg⟩ := matchAt_split re b s m h
  have hsim := rmatch_cut x.rest re haf some some sufK_some (cutSimK_some _)
    ⟨b, s, none⟩ ⟨none, m.text, none⟩ ⟨hs, rfl⟩
  obtain ⟨x', hx', hrest, hcap⟩ := hsim.2 x hx rfl
  simp only at hx'
  unfold matchAt
  rw [hx']
  simp only [hrest, List.length_nil, Nat.sub_zero, List.take_length, hcap, ← hg]

theorem findStringSubmatch_of_matchAt (re : Regex) (s : Str) (m : Match)
    (h : matchAt re none s = some m) : findStringSubmatch re s = some m := by
  unfold findStringSubmatch
  cases s with
  | nil => simp [pieces, h]
  | cons c s =>
    rw [pieces, h]
    simp only
    split <;> simp

/-- Go's `FindStringSubmatch` on the text of a match of a pattern without
anchors finds that match. -/
theorem findStringSubmatch_again (re : Regex) (haf : AnchorFree re) (b : Option Char) (s : Str)
    (m : Match) (h : matchAt re b s = some m) : findStringSubmatch re m.text = some m :=
  findStringSubmatch_of_matchAt re m.text m (matchAt_again re haf b s m h)

theorem pieces_found_matchAt (re : Regex) : ∀ (s : Str) (b : Option Char) (k : Nat) (ab : Bool)
    (m : Match), .found m ∈ pieces re b k ab s → ∃ b' s', matchAt re b' s' = some m := by
  intro s
  induction s with
  | nil =>
    intro b k ab m hm
    rw [pieces] at hm
    cases hmatch : matchAt re b [] with
    | none => rw [hmatch] at hm; simp at hm
    | some m' =>
      rw [hmatch] at hm
      simp only at hm
      split at hm
      · simp at hm
      · simp only [List.mem_singleton, Piece.found.injEq] at hm
        exact ⟨b, [], by rw [hmatch, hm]⟩
  | cons c s ih =>
    intro b k ab m hm
    cases k with
    | succ k =>
      rw [pieces] at hm
      exact ih _ _ _ _ hm
    | zero =>
      rw [pieces] at hm
      cases hmatch : matchAt re b (c :: s) with
      | none =>
        rw [hmatch] at hm
        simp only [List.mem_cons, reduceCtorEq, false_or] at hm
        exact ih _ _ _ _ hm
      | some m' =>
        rw [hmatch] at hm
        simp only at hm
        split at hm
        · split at hm
          · simp only [List.mem_cons, reduceCtorEq, false_or] at hm
            exact ih _ _ _ _ hm
          · simp only [List.mem_cons, Piece.found.injEq, reduceCtorEq, false_or] at hm
            rcases hm with rfl | hm
            · exact ⟨b, c :: s, hmatch⟩
            · exact ih _ _ _ _ hm
        · simp only [List.mem_cons, Piece.found.injEq] at hm
          rcases hm with rfl | hm
          · exact ⟨b, c :: s, hmatch⟩
          · exact ih _ _ _ _ hm

theorem renderFunc_isSome (repl : Str → Option Str) : ∀ ps : List Piece,
    (∀ m, .found m ∈ ps → ∃ r, repl m.text = some r) → ∃ x, renderFunc repl ps = some x := by
  intro ps
  induction ps with
  | nil => intro _; exact ⟨[], rfl⟩
  | cons p ps ih =>
    intro h
    obtain ⟨x, hx⟩ := ih (fun m hm => h m (List.mem_cons_of_mem _ hm))
    cases p with
    | rune c => exact ⟨c :: x, by simp [renderFunc, hx]⟩
    | found m =>
      obtain ⟨r, hr⟩ := h m (by simp)
      exact ⟨r ++ x, by simp [renderFunc, hx, hr]⟩

theorem replaceAllStringFunc_isSome (re : Regex) (s : Str) (repl : Str → Option Str)
    (h : ∀ b s' m, matchAt re b s' = some m → ∃ r, repl m.text = some r) :
    ∃ x, replaceAllStringFunc re s repl = some x := by
  rw [replaceAllStringFunc_eq]
  apply renderFunc_isSome
  intro m hm
  obtain ⟨b', s', hmatch⟩ := pieces_found_matchAt re s none 0 false m hm
  exact h b' s' m hmatch

/-! ## The pipeline never panics -/

theorem anchorFree_multilineBlocks : AnchorFree multilineBlocks := by
  simp [multilineBlocks, AnchorFree, Regex.opt, Regex.lit, Regex.dot, Regex.plus]

theorem anchorFree_assetRegexp : AnchorFree assetRegexp := by
  simp [assetRegexp, AnchorFree, Regex.opt, Regex.lit, Regex.dot, Regex.plusLazy]

theorem unindentRepl_isSome (b : Option Char) (s : Str) (m : Match)
    (h : matchAt multilineBlocks b s = some m) : ∃ r, unindentRepl m.text = some r := by
  unfold unindentRepl
  rw [findStringSubmatch_again _ anchorFree_multilineBlocks b s m h]
  exact ⟨_, rfl⟩

theorem unindentMultilineStrings_isSome (s : Str) :
    ∃ x, unindentMultilineStrings s = some x :=
  replaceAllStringFunc_isSome _ s _ unindentRepl_isSome

theorem extractAssetsRepl_isSome (imagePrefixPath : Str) (b : Option Char) (s : Str) (m : Match)
    (h : matchAt assetRegexp b s = some m) :
    ∃ r, extractAssetsRepl imagePrefixPath m.text = some r := by
  unfold extractAssetsRepl
  rw [findStringSubmatch_again _ anchorFree_assetRegexp b s m h]
  exact ⟨_, rfl⟩

theorem extractAssets_isSome (imagePrefixPath : Str) (p : page) :
    ∃ q, extractAssets imagePrefixPath p = some q ∧ q.filename = p.filename ∧
      q.attributes = p.attributes := by
  obtain ⟨x, hx⟩ := replaceAllStringFunc_isSome assetRegexp p.text
    (extractAssetsRepl imagePrefixPath) (extractAssetsRepl_isSome imagePrefixPath)
  unfold extractAssets
  simp only [hx]
  exact ⟨_, rfl, rfl, rfl⟩

/-- A match of a pattern that starts with `^` and a literal is not empty. -/
theorem matchAt_bol_lit_ne_nil (c : Char) (r : Regex) (b : Option Char) (s : Str) (m : Match)
    (h : matchAt (.seq .bol (.seq (.lit c) r)) b s = some m) : m.text ≠ [] := by
  rw [matchAt_seq_bol] at h
  split at h
  · obtain ⟨x, hx, hs, _⟩ := matchAt_split _ b s m h
    rw [rmatch] at hx
    obtain ⟨t1, ht1, hx⟩ := rmatch_lit_some _ _ _ _ hx
    have hsuf := rmatch_suffix r some sufK_some _ x hx
    simp only at hsuf ht1
    have hl := hsuf.length_le
    intro hnil
    rw [hnil, List.nil_append] at hs
    rw [← hs, ht1] at hl
    simp at hl
  · exact absurd h (by simp)

theorem dropFirst_isSome (b : Option Char) (s : Str) (m : Match)
    (h : matchAt multiLevelRegexp b s = some m) : ∃ r, dropFirst m.text = some r := by
  have hne := matchAt_bol_lit_ne_nil _ _ b s m h
  cases hm : m.text with
  | nil => exact absurd hm hne
  | cons c t => exact ⟨t, rfl⟩

theorem removeTab_isSome (s : Str) : ∃ x, removeTabFromMultiLevelBulletPoints s = some x :=
  replaceAllStringFunc_isSome _ s _ dropFirst_isSome

/-- The pipeline as the composition of its steps. -/
theorem transformPage_eq (p : page) (webAssetsPathPrefix : Str) :
    transformPage p webAssetsPathPrefix
      = (unindentMultilineStrings (removeEmptyBulletPoints p.text)).bind (fun t2 =>
          (removeTabFromMultiLevelBulletPoints
            (secondToFirstBulletPoints (firstBulletPointsToParagraphs t2))).bind (fun t5 =>
              extractAssets webAssetsPathPrefix { addFileName p with text := t5 })) := by
  simp only [transformPage, applyAll, List.foldl_cons, List.foldl_nil, Option.some_bind,
    onlyText, addFileName]
  cases unindentMultilineStrings (removeEmptyBulletPoints p.text) with
  | none => rfl
  | some t2 =>
    simp only [Option.some_bind]
    cases removeTabFromMultiLevelBulletPoints
        (secondToFirstBulletPoints (firstBulletPointsToParagraphs t2)) with
    | none => rfl
    | some t5 => rfl

theorem transformPage_isSome (p : page) (webAssetsPathPrefix : Str) :
    ∃ q, transformPage p webAssetsPathPrefix = some q ∧
      q.filename = (addFileName p).filename ∧ q.attributes = p.attributes := by
  rw [transformPage_eq]
  obtain ⟨t2, h2⟩ := unindentMultilineStrings_isSome (removeEmptyBulletPoints p.text)
  obtain ⟨t5, h5⟩ := removeTab_isSome
    (secondToFirstBulletPoints (firstBulletPointsToParagraphs t2))
  obtain ⟨q, hq, hf, ha⟩ := extractAssets_isSome webAssetsPathPrefix
    { addFileName p with text := t5 }
  refine ⟨q, ?_, hf, ha⟩
  rw [h2, Option.some_bind, h5, Option.some_bind, hq]

/-! ## The anchored patterns of the rewriters -/

theorem anchored_firstBullet : Anchored firstBulletRegexp := anchored_seq_bol _

theorem anchored_secondBullet : Anchored secondBulletRegexp := anchored_seq_bol _

theorem anchored_multiLevel : Anchored multiLevelRegexp := anchored_seq_bol _

theorem anchored_leading : Anchored leadingRegexp := by
  intro b s hb
  unfold matchAt leadingRegexp
  rw [rmatch, rmatch, rmatch_bol]
  simp only
  have hb' : ¬ (b = none ∨ b = some '\n') := hb
  rw [if_neg hb']

theorem firstBullet_sound (b : Option Char) (s : Str) (m : Match)
    (h : matchAt firstBulletRegexp b s = some m) :
    IsBol b ∧ ∃ t, s = '-' :: ' ' :: t := by
  unfold firstBulletRegexp at h
  rw [matchAt_seq_bol] at h
  by_cases hb : IsBol b
  · rw [if_pos hb] at h
    refine ⟨hb, ?_⟩
    obtain ⟨x, hx, _, _⟩ := matchAt_split _ b s m h
    rw [rmatch] at hx
    obtain ⟨t1, ht1, hx⟩ := rmatch_lit_some _ _ _ _ hx
    obtain ⟨t2, ht2, _⟩ := rmatch_lit_some _ _ _ _ hx
    simp only at ht1 ht2
    exact ⟨t2, by rw [ht1, ht2]⟩
  · rw [if_neg hb] at h; exact absurd h (by simp)

theorem firstBullet_hit (b : Option Char) (t : Str) (hb : IsBol b) :
    matchAt firstBulletRegexp b ('-' :: ' ' :: t) = some { text := "- ".toList, group1 := [] } := by
  unfold firstBulletRegexp
  rw [matchAt_seq_bol, if_pos hb]
  unfold matchAt
  rw [rmatch, rmatch_lit_cons, if_pos rfl, rmatch_lit_cons, if_pos rfl]
  simp only [List.length_cons, Option.getD_none, Option.some.injEq, Match.mk.injEq, and_true]
  have : t.length + 1 + 1 - t.length = 2 := by omega
  rw [this]
  rfl

theorem secondBullet_sound (b : Option Char) (s : Str) (m : Match)
    (h : matchAt secondBulletRegexp b s = some m) :
    IsBol b ∧ ∃ t, s = '\t' :: '-' :: t := by
  unfold secondBulletRegexp at h
  rw [matchAt_seq_bol] at h
  by_cases hb : IsBol b
  · rw [if_pos hb] at h
    refine ⟨hb, ?_⟩
    obtain ⟨x, hx, _, _⟩ := matchAt_split _ b s m h
    rw [rmatch] at hx
    obtain ⟨t1, ht1, hx⟩ := rmatch_lit_some _ _ _ _ hx
    obtain ⟨t2, ht2, _⟩ := rmatch_lit_some _ _ _ _ hx
    simp only at ht1 ht2
    exact ⟨t2, by rw [ht1, ht2]⟩
  · rw [if_neg hb] at h; exact absurd h (by simp)

theorem secondBullet_hit (b : Option Char) (t : Str) (hb : IsBol b) :
    matchAt secondBulletRegexp b ('\t' :: '-' :: t)
      = some { text := "\t-".toList, group1 := [] } := by
  unfold secondBulletRegexp
  rw [matchAt_seq_bol, if_pos hb]
  unfold matchAt
  rw [rmatch, rmatch_lit_cons, if_pos rfl, rmatch_lit_cons, if_pos rfl]
  simp only [List.length_cons, Option.getD_none, Option.some.injEq, Match.mk.injEq, and_true]
  have : t.length + 1 + 1 - t.length = 2 := by omega
  rw [this]
  rfl

theorem multiLevel_sound (b : Option Char) (s : Str) (m : Match)
    (h : matchAt multiLevelRegexp b s = some m) :
    IsBol b ∧ ∃ w t, s = '\t' :: '\t' :: (w ++ '-' :: t) ∧ (∀ c ∈ w, c = '\t') := by
  unfold multiLevelRegexp at h
  rw [matchAt_seq_bol] at h
  by_cases hb : IsBol b
  · rw [if_pos hb] at h
    refine ⟨hb, ?_⟩
    obtain ⟨x, hx, _, _⟩ := matchAt_split _ b s m h
    rw [rmatch] at hx
    obtain ⟨t1, ht1, hx⟩ := rmatch_lit_some _ _ _ _ hx
    rw [rmatch] at hx
    obtain ⟨t2, ht2, hx⟩ := rmatch_lit_some _ _ _ _ hx
    rw [rmatch, rmatch] at hx
    unfold Regex.lit at hx
    obtain ⟨w, st, hs, hw, _, hx⟩ := starLoop_cls_split _ _ _ _ _ _ hx
    obtain ⟨c, t3, ht3, hc, _⟩ := rmatch_cls_some _ _ _ _ hx
    simp only at ht1 ht2 hs
    have hc' : c = '-' := by simpa using hc
    subst hc'
    refine ⟨w, t3, by rw [ht1, ht2, hs, ht3], ?_⟩
    intro d hd
    simpa using hw d hd
  · rw [if_neg hb] at h; exact absurd h (by simp)

theorem multiLevel_hit (b : Option Char) (w t : Str) (hb : IsBol b) (hw : ∀ c ∈ w, c = '\t') :
    matchAt multiLevelRegexp b ('\t' :: '\t' :: (w ++ '-' :: t))
      = some { text := '\t' :: '\t' :: (w ++ ['-']), group1 := [] } := by
  unfold multiLevelRegexp
  rw [matchAt_seq_bol, if_pos hb]
  unfold matchAt
  rw [rmatch, rmatch_lit_cons, if_pos rfl, rmatch, rmatch_lit_cons, if_pos rfl, rmatch, rmatch]
  unfold Regex.lit
  rw [starLoop_greedy_take (fun d => d == '\t') _ ('-' :: t) none
    ⟨some '-', t, none⟩ (by intro c t' h; cases h; decide) w _ (some '\t')
    (fun c hc => by simpa using hw c hc) (le_refl _)
    (by rw [rmatch_cls_cons]; simp)]
  simp only [Option.getD_none, Option.some.injEq, Match.mk.injEq, and_true]
  have : '\t' :: '\t' :: (w ++ '-' :: t) = ('\t' :: '\t' :: (w ++ ['-'])) ++ t := by simp
  rw [this, take_length_sub]

theorem leading_hit (b : Option Char) (c : Char) (t : Str) (hb : IsBol b)
    (hc : c = '-' ∨ c = ' ') :
    matchAt leadingRegexp b (c :: ' ' :: t) = some { text := [c, ' '], group1 := [c, ' '] } := by
  unfold leadingRegexp matchAt
  rw [rmatch, rmatch, rmatch_bol]
  simp only
  have hb' : (b = none ∨ b = some '\n') := hb
  rw [if_pos hb', rmatch, rmatch_cls_cons]
  have : (c == '-' || c == ' ') = true := by
    rcases hc with rfl | rfl <;> decide
  rw [if_pos this, rmatch_lit_cons, if_pos rfl]
  have h2 : t.length + 1 + 1 - t.length = 2 := by omega
  simp only [List.length_cons, Option.getD_some, h2]
  rfl

/-! ## Texts without bullet syntax -/

theorem splitOnChar_cons_ne (sep c : Char) (s : Str) (hc : c ≠ sep) :
    ∃ e es, splitOnChar sep s = e :: es ∧ splitOnChar sep (c :: s) = (c :: e) :: es := by
  cases h : splitOnChar sep s with
  | nil => exact absurd h (splitOnChar_ne_nil sep s)
  | cons e es =>
    refine ⟨e, es, rfl, ?_⟩
    simp [splitOnChar, hc, h]

theorem splitOnChar_cons_eq (sep : Char) (s : Str) :
    splitOnChar sep (sep :: s) = [] :: splitOnChar sep s := by
  simp [splitOnChar]

/-- A text that goes on with whitespace and a dash has a line whose first
rune that is no whitespace is a dash. -/
theorem bullet_line_of_dash : ∀ (w t : Str), (∀ c ∈ w, isSpace c = true) →
    ¬ NoBulletSyntax (w ++ '-' :: t) := by
  intro w
  induction w with
  | nil =>
    intro t _ h
    obtain ⟨e, es, _, h2⟩ := splitOnChar_cons_ne '\n' '-' t (by decide)
    have := h ('-' :: e) (by simp only [List.nil_append]; rw [h2]; simp)
    simp [List.dropWhile, isSpace] at this
  | cons c w ih =>
    intro t hw h
    have hc := hw c (by simp)
    apply ih t (fun d hd => hw d (List.mem_cons_of_mem _ hd))
    intro l hl
    by_cases hn : c = '\n'
    · subst hn
      apply h l
      rw [List.cons_append, splitOnChar_cons_eq]
      exact List.mem_cons_of_mem _ hl
    · obtain ⟨e, es, h1, h2⟩ := splitOnChar_cons_ne '\n' c (w ++ '-' :: t) hn
      rw [h1] at hl
      rcases List.mem_cons.1 hl with rfl | hl
      · have := h (c :: l) (by rw [List.cons_append, h2]; simp)
        simpa [List.dropWhile, hc] using this
      · exact h l (by rw [List.cons_append, h2]; exact List.mem_cons_of_mem _ hl)

theorem noMatchFrom_lines (re : Regex) (hre : Anchored re)
    (hdash : ∀ b s m, matchAt re b s = some m →
      ∃ w t, s = w ++ '-' :: t ∧ ∀ c ∈ w, isSpace c = true) :
    ∀ (s : Str) (b : Option Char), (IsBol b → NoBulletSyntax s) →
      (∀ l ∈ (splitOnChar '\n' s).tail, (l.dropWhile isSpace).head? ≠ some '-') →
      NoMatchFrom re b s := by
  have hnone : ∀ (s : Str) (b : Option Char), (IsBol b → NoBulletSyntax s) →
      matchAt re b s = none := by
    intro s b h
    cases hm : matchAt re b s with
    | none => rfl
    | some m =>
      by_cases hb : IsBol b
      · obtain ⟨w, t, rfl, hw⟩ := hdash b s m hm
        exact absurd (h hb) (bullet_line_of_dash w t hw)
      · rw [hre b s hb] at hm; exact absurd hm (by simp)
  intro s
  induction s with
  | nil => intro b h _; exact hnone [] b h
  | cons c s ih =>
    intro b h1 h2
    refine ⟨hnone _ b h1, ?_⟩
    by_cases hn : c = '\n'
    · subst hn
      rw [splitOnChar_cons_eq] at h2
      simp only [List.tail_cons] at h2
      exact ih (some '\n') (fun _ => h2) (fun l hl => h2 l (List.mem_of_mem_tail hl))
    · obtain ⟨e, es, h3, h4⟩ := splitOnChar_cons_ne '\n' c s hn
      rw [h4] at h2
      simp only [List.tail_cons] at h2
      apply ih (some c) (fun hb => absurd hb (not_isBol_some c hn))
      rw [h3]
      exact h2

theorem noMatchFrom_noBullet (re : Regex) (hre : Anchored re)
    (hdash : ∀ b s m, matchAt re b s = some m →
      ∃ w t, s = w ++ '-' :: t ∧ ∀ c ∈ w, isSpace c = true)
    (body : Str) (h : NoBulletSyntax body) : NoMatchFrom re none body :=
  noMatchFrom_lines re hre hdash body none (fun _ => h)
    (fun l hl => h l (List.mem_of_mem_tail hl))

theorem emptyBullet_dash (b : Option Char) (s : Str) (m : Match)
    (h : matchAt emptyBulletRegexp b s = some m) :
    ∃ w t, s = w ++ '-' :: t ∧ ∀ c ∈ w, isSpace c = true := by
  obtain ⟨_, w1, w2, t, hs, hw1, _⟩ := emptyBullet_sound b s m h
  exact ⟨w1, w2 ++ t, hs, hw1⟩

theorem firstBullet_dash (b : Option Char) (s : Str) (m : Match)
    (h : matchAt firstBulletRegexp b s = some m) :
    ∃ w t, s = w ++ '-' :: t ∧ ∀ c ∈ w, isSpace c = true := by
  obtain ⟨_, t, hs⟩ := firstBullet_sound b s m h
  exact ⟨[], ' ' :: t, hs, by simp⟩

theorem secondBullet_dash (b : Option Char) (s : Str) (m : Match)
    (h : matchAt secondBulletRegexp b s = some m) :
    ∃ w t, s = w ++ '-' :: t ∧ ∀ c ∈ w, isSpace c = true := by
  obtain ⟨_, t, hs⟩ := secondBullet_sound b s m h
  exact ⟨['\t'], t, hs, by simp [isSpace]⟩

theorem multiLevel_dash (b : Option Char) (s : Str) (m : Match)
    (h : matchAt multiLevelRegexp b s = some m) :
    ∃ w t, s = w ++ '-' :: t ∧ ∀ c ∈ w, isSpace c = true := by
  obtain ⟨_, w, t, hs, hw⟩ := multiLevel_sound b s m h
  refine ⟨'\t' :: '\t' :: w, t, hs, ?_⟩
  intro c hc
  simp only [List.mem_cons] at hc
  rcases hc with rfl | rfl | hc
  · rfl
  · rfl
  · rw [hw c hc]; rfl

theorem replaceAllString_noMatch (re : Regex) (s repl : Str) (h : NoMatchFrom re none s) :
    replaceAllString re s repl = s := by
  unfold replaceAllString
  rw [pieces_noMatchFrom re s none false h, renderPieces_runes]

theorem replaceAllStringFunc_noMatch (re : Regex) (s : Str) (repl : Str → Option Str)
    (h : NoMatchFrom re none s) : replaceAllStringFunc re s repl = some s := by
  rw [replaceAllStringFunc_eq, pieces_noMatchFrom re s none false h, renderFunc_runes]

/-! ## The matches of `multilineBlocks` -/

theorem multilineBlocks_eq : multilineBlocks
    = .seq (.opt (.lit '\n')) (.group (.seq (.lit '-') (.seq (.lit ' ') (.seq (.star true .dot)
        (.seq (.lit '\n') (.plus continuationRegexp)))))) := rfl

theorem block_group_sound (st x : MState) (k : MState → Option MState)
    (h : rmatch (.group (.seq (.lit '-') (.seq (.lit ' ') (.seq (.star true .dot)
        (.seq (.lit '\n') (.plus continuationRegexp)))))) st k = some x) :
    ∃ a post, st.rest = '-' :: ' ' :: (a ++ '\n' :: ' ' :: ' ' :: post) ∧ '\n' ∉ a := by
  rw [rmatch, rmatch] at h
  obtain ⟨t1, ht1, h⟩ := rmatch_lit_some _ _ _ _ h
  rw [rmatch] at h
  obtain ⟨t2, ht2, h⟩ := rmatch_lit_some _ _ _ _ h
  rw [rmatch, rmatch] at h
  unfold Regex.dot at h
  obtain ⟨a, st1, hs1, ha, _, h⟩ := starLoop_cls_split _ _ _ _ _ _ h
  rw [rmatch] at h
  obtain ⟨t3, ht3, h⟩ := rmatch_lit_some _ _ _ _ h
  unfold Regex.plus continuationRegexp at h
  rw [rmatch, rmatch] at h
  obtain ⟨t4, ht4, h⟩ := rmatch_lit_some _ _ _ _ h
  rw [rmatch] at h
  obtain ⟨t5, ht5, _⟩ := rmatch_lit_some _ _ _ _ h
  simp only at ht1 ht2 hs1 ht3 ht4 ht5
  refine ⟨a, t5, by rw [ht1, ht2, hs1, ht3, ht4, ht5], ?_⟩
  intro hmem
  have := ha _ hmem
  simp at this

/-- Every match of `multilineBlocks` holds `- `, the rest of that line, a
newline and two spaces. -/
theorem multilineBlocks_sound (b : Option Char) (s : Str) (m : Match)
    (h : matchAt multilineBlocks b s = some m) :
    ∃ pre x post, '\n' ∉ x ∧ s = pre ++ "- ".toList ++ x ++ "\n  ".toList ++ post := by
  obtain ⟨y, hy, _, _⟩ := matchAt_split _ b s m h
  rw [multilineBlocks_eq, rmatch] at hy
  unfold Regex.opt at hy
  rw [rmatch] at hy
  rcases orTry_eq_some _ _ _ hy with h1 | h1
  · obtain ⟨t1, ht1, h1⟩ := rmatch_lit_some _ _ _ _ h1
    obtain ⟨a, post, hs, ha⟩ := block_group_sound _ _ _ h1
    simp only at ht1 hs
    exact ⟨['\n'], a, post, ha, by rw [ht1, hs]; simp⟩
  · rw [rmatch] at h1
    obtain ⟨a, post, hs, ha⟩ := block_group_sound _ _ _ h1
    simp only at hs
    exact ⟨[], a, post, ha, by rw [hs]; simp⟩

theorem matchAt_multilineBlocks_nil (b : Option Char) : matchAt multilineBlocks b [] = none := by
  cases h : matchAt multilineBlocks b [] with
  | none => rfl
  | some m =>
    obtain ⟨pre, x, post, _, hs⟩ := multilineBlocks_sound b [] m h
    have := congrArg List.length hs
    simp at this
    omega

/-- A text in which no line that holds `- ` is followed by a line that starts
with two spaces is left as it is by `unindentMultilineStrings`. -/
theorem unindent_noBlock (s : Str)
    (h : ¬ ∃ pre x post, '\n' ∉ x ∧ s = pre ++ "- ".toList ++ x ++ "\n  ".toList ++ post) :
    unindentMultilineStrings s = some s := by
  unfold unindentMultilineStrings
  rw [replaceAllStringFunc_eq, pieces_no_match multilineBlocks s none false, renderFunc_runes]
  intro s' b' hs'
  cases hm : matchAt multilineBlocks b' s' with
  | none => rfl
  | some m =>
    obtain ⟨pre, x, post, hx, hs⟩ := multilineBlocks_sound b' s' m hm
    obtain ⟨pre0, hpre0⟩ := hs'
    exact absurd ⟨pre0 ++ pre, x, post, hx, by rw [← hpre0, hs]; simp⟩ h

/-! ## `unindentMultilineStrings` on one block -/

theorem continuation_line (B rest : Str) (prev : Option Char) (cap : Option Str)
    (k : MState → Option MState) (x : MState) (hB : '\n' ∉ B)
    (hk : k ⟨some '\n', rest, cap⟩ = some x) :
    rmatch continuationRegexp ⟨prev, ' ' :: ' ' :: (B ++ '\n' :: rest), cap⟩ k = some x := by
  unfold continuationRegexp
  rw [rmatch, rmatch_lit_cons, if_pos rfl, rmatch, rmatch_lit_cons, if_pos rfl, rmatch, rmatch]
  unfold Regex.dot
  apply starLoop_greedy_take _ _ ('\n' :: rest) cap x
    (by intro c t h; cases h; decide) B _ _
    (fun c hc => by
      simp only [bne_iff_ne, ne_eq]
      exact fun h => hB (h ▸ hc))
    (le_refl _)
  unfold Regex.opt
  rw [rmatch, rmatch_lit_cons, if_pos rfl, hk]
  rfl

theorem continuation_nil (prev : Option Char) (cap : Option Str) (k : MState → Option MState) :
    rmatch continuationRegexp ⟨prev, [], cap⟩ k = none := by
  unfold continuationRegexp
  rw [rmatch, rmatch_lit_nil]

theorem advance_blockLine (prev : Option Char) (B rest : Str) :
    advance prev (' ' :: ' ' :: (B ++ '\n' :: rest)) = advance (some '\n') rest := by
  simp [advance]

theorem continuation_loop (cap : Option Str) (kf : MState → Option MState) (x : MState) :
    ∀ (Bs : List Str) (n : Nat) (prev : Option Char), (∀ B ∈ Bs, '\n' ∉ B) →
      (blockLines Bs).length ≤ n →
      kf ⟨advance prev (blockLines Bs), [], cap⟩ = some x →
      starLoop (rmatch continuationRegexp) true n ⟨prev, blockLines Bs, cap⟩ kf = some x := by
  intro Bs
  induction Bs with
  | nil =>
    intro n prev _ _ hk
    simp only [blockLines, advance, List.foldl_nil] at hk ⊢
    cases n with
    | zero => simpa [starLoop] using hk
    | succ n =>
      simp only [starLoop, if_true]
      rw [continuation_nil, orTry_none, hk]
  | cons B Bs ih =>
    intro n prev hB hn hk
    simp only [blockLines] at hn hk ⊢
    obtain ⟨m, rfl⟩ : ∃ m, n = m + 1 := ⟨n - 1, by simp at hn; omega⟩
    rw [advance_blockLine] at hk
    have hlen : (blockLines Bs).length ≤ m := by
      simp only [List.length_cons, List.length_append] at hn; omega
    have hrec := ih m (some '\n') (fun C hC => hB C (List.mem_cons_of_mem _ hC)) hlen hk
    simp only [starLoop, if_true]
    rw [continuation_line B (blockLines Bs) prev cap _ x (hB B (by simp))]
    · rfl
    · simp only [List.length_cons, List.length_append]
      rw [if_pos (by omega)]
      exact hrec

theorem blockText_ne_nil (A : Str) (Bs : List Str) : blockText A Bs ≠ [] := by
  simp [blockText]

theorem matchAt_block (b : Option Char) (A : Str) (Bs : List Str) (hA : '\n' ∉ A)
    (hBs : ∀ B ∈ Bs, '\n' ∉ B) (hne : Bs ≠ []) :
    matchAt multilineBlocks b (blockText A Bs)
      = some { text := blockText A Bs, group1 := blockText A Bs } := by
  cases Bs with
  | nil => exact absurd rfl hne
  | cons B Bs =>
    have hfinal : ∀ prev : Option Char,
        (fun st' : MState => some { st' with
          cap := some ((blockText A (B :: Bs)).take
            ((blockText A (B :: Bs)).length - st'.rest.length)) })
          ⟨prev, [], none⟩
        = some ⟨prev, [], some (blockText A (B :: Bs))⟩ := by
      intro prev
      simp
    have hloop : rmatch (.plus continuationRegexp) ⟨some '\n', blockLines (B :: Bs), none⟩
        (fun st' : MState => some { st' with
          cap := some ((blockText A (B :: Bs)).take
            ((blockText A (B :: Bs)).length - st'.rest.length)) })
        = some ⟨advance (some '\n') (blockLines Bs), [], some (blockText A (B :: Bs))⟩ := by
      unfold Regex.plus
      rw [rmatch]
      simp only [blockLines]
      apply continuation_line B (blockLines Bs) _ none _ _ (hBs B (by simp))
      rw [rmatch]
      exact continuation_loop none _ _ Bs _ (some '\n')
        (fun C hC => hBs C (List.mem_cons_of_mem _ hC)) (le_refl _) (hfinal _)
    have hmatch : rmatch multilineBlocks ⟨b, blockText A (B :: Bs), none⟩ some
        = some ⟨advance (some '\n') (blockLines Bs), [], some (blockText A (B :: Bs))⟩ := by
      rw [multilineBlocks_eq, rmatch]
      unfold Regex.opt
      rw [rmatch]
      have h1 : rmatch (.lit '\n') ⟨b, blockText A (B :: Bs), none⟩
          (fun st' => rmatch (.group (.seq (.lit '-') (.seq (.lit ' ') (.seq (.star true .dot)
            (.seq (.lit '\n') (.plus continuationRegexp)))))) st' some) = none := by
        unfold blockText
        rw [rmatch_lit_cons, if_neg (by decide)]
      rw [h1, orTry_none, rmatch, rmatch]
      simp only
      conv => lhs; arg 2; unfold blockText
      rw [rmatch, rmatch_lit_cons, if_pos rfl, rmatch, rmatch_lit_cons, if_pos rfl, rmatch, rmatch]
      unfold Regex.dot
      apply starLoop_greedy_take _ _ ('\n' :: blockLines (B :: Bs)) none _
        (by intro c t h; cases h; decide) A _ _
        (fun c hc => by
          simp only [bne_iff_ne, ne_eq]
          exact fun h => hA (h ▸ hc))
        (le_refl _)
      rw [rmatch, rmatch_lit_cons, if_pos rfl]
      exact hloop
    unfold matchAt
    rw [hmatch]
    simp

theorem stringsReplace_self (s new : Str) (hs : s ≠ []) : stringsReplace s s new 1 = new := by
  by_cases hnew : s = new
  · subst hnew; simp [stringsReplace]
  · cases s with
    | nil => exact absurd rfl hs
    | cons c s' =>
      have hp : hasPrefix (c :: s') (c :: s') = true := by
        have := hasPrefix_append_self [] (c :: s')
        simpa using this
      have hcount : stringsCount (c :: s') (c :: s') ≠ 0 := by
        simp only [stringsCount, List.isEmpty_cons, Bool.false_eq_true, if_false,
          stringsCountFrom, hp, if_true]
        omega
      have hcnt : (if (1 : Int) < 0 ∨ ((stringsCount (c :: s') (c :: s') : Nat) : Int) < 1
          then stringsCount (c :: s') (c :: s') else (1 : Int).toNat) = 1 := by
        have : ¬ ((1 : Int) < 0 ∨ ((stringsCount (c :: s') (c :: s') : Nat) : Int) < 1) := by
          omega
        rw [if_neg this]; rfl
      have h0 : ¬ (c :: s' = new ∨ (1 : Int) = 0) := by
        rintro (h | h)
        · exact hnew h
        · exact absurd h (by decide)
      unfold stringsReplace
      simp only [h0, if_false, hcount, hcnt, List.isEmpty_cons, Bool.false_eq_true]
      simp only [replaceLoop, hp, if_true, replaceLoop_zero, List.length_cons,
        Nat.add_sub_cancel, List.drop_length, List.append_nil]

theorem matchAt_leading_nil (b : Option Char) : matchAt leadingRegexp b [] = none := by
  unfold matchAt leadingRegexp
  rw [rmatch, rmatch, rmatch_bol]
  simp only
  by_cases hb : b = none ∨ b = some '\n'
  · rw [if_pos hb, rmatch, rmatch_cls_nil]
  · rw [if_neg hb]

theorem leading_blockLines : ∀ (Bs : List Str) (ab : Bool), (∀ B ∈ Bs, '\n' ∉ B) →
    renderPieces [] (pieces leadingRegexp (some '\n') 0 ab (blockLines Bs)) = plainLines Bs := by
  intro Bs
  induction Bs with
  | nil =>
    intro ab _
    simp only [blockLines, plainLines]
    rw [pieces_nil _ _ _ _ (matchAt_leading_nil _)]
    rfl
  | cons B Bs ih =>
    intro ab hB
    simp only [blockLines, plainLines]
    have h1 := pieces_found leadingRegexp (some '\n') ab [' ', ' ']
      (B ++ '\n' :: blockLines Bs) [' ', ' '] (by simp)
      (leading_hit (some '\n') ' ' _ (Or.inr rfl) (Or.inr rfl))
    simp only [List.cons_append, List.nil_append] at h1
    rw [h1, pieces_line_tail leadingRegexp anchored_leading _ B _ _
      (by simp [advance, IsBol]) (hB B (by simp))]
    simp only [renderPieces, List.nil_append, renderPieces_append, renderPieces_runes]
    rw [ih false (fun C hC => hB C (List.mem_cons_of_mem _ hC))]

theorem leading_block (A : Str) (Bs : List Str) (hA : '\n' ∉ A) (hBs : ∀ B ∈ Bs, '\n' ∉ B) :
    replaceAllString leadingRegexp (blockText A Bs) [] = A ++ '\n' :: plainLines Bs := by
  unfold replaceAllString blockText
  have h1 := pieces_found leadingRegexp none false ['-', ' ']
    (A ++ '\n' :: blockLines Bs) ['-', ' '] (by simp)
    (leading_hit none '-' _ (Or.inl rfl) (Or.inl rfl))
  simp only [List.cons_append, List.nil_append] at h1
  rw [h1, pieces_line_tail leadingRegexp anchored_leading _ A _ _
    (by simp [advance, IsBol]) hA]
  simp only [renderPieces, List.nil_append, renderPieces_append, renderPieces_runes]
  rw [leading_blockLines Bs false hBs]

theorem unindent_block (A : Str) (Bs : List Str) (hA : '\n' ∉ A) (hBs : ∀ B ∈ Bs, '\n' ∉ B)
    (hne : Bs ≠ []) :
    unindentMultilineStrings (blockText A Bs) = some ('\n' :: (A ++ '\n' :: plainLines Bs)) := by
  have hm := matchAt_block none A Bs hA hBs hne
  have hp := pieces_found multilineBlocks none false (blockText A Bs) [] (blockText A Bs)
    (blockText_ne_nil A Bs) (by rw [List.append_nil]; exact hm)
  rw [List.append_nil] at hp
  have hrepl : unindentRepl (blockText A Bs)
      = some ('\n' :: (A ++ '\n' :: plainLines Bs)) := by
    unfold unindentRepl
    rw [findStringSubmatch_of_matchAt _ _ _ hm]
    simp only
    rw [leading_block A Bs hA hBs, stringsReplace_self _ _ (blockText_ne_nil A Bs)]
  unfold unindentMultilineStrings
  rw [replaceAllStringFunc_eq, hp, pieces_nil _ _ _ _ (matchAt_multilineBlocks_nil _)]
  simp [renderFunc, hrepl]

/-! ## Rewriting line by line -/

theorem advance_last_not_bol (b : Option Char) : ∀ (M : Str), M ≠ [] → '\n' ∉ M →
    ¬ IsBol (advance b M) := by
  intro M hne hM
  cases M with
  | nil => exact absurd rfl hne
  | cons c M =>
    simp only [List.mem_cons, not_or] at hM
    rw [advance_cons]
    exact advance_not_bol (some c) (not_isBol_some c (fun h => hM.1 h.symm)) M hM.2

theorem pieces_line_miss (re : Regex) (hre : Anchored re) (L t : Str) (b : Option Char)
    (ab : Bool) (hm : matchAt re b (L ++ '\n' :: t) = none) (hL : '\n' ∉ L) :
    pieces re b 0 ab (L ++ '\n' :: t)
      = L.map .rune ++ .rune '\n' :: pieces re (some '\n') 0 false t := by
  cases L with
  | nil => exact pieces_rune _ _ _ _ _ hm
  | cons c L =>
    simp only [List.mem_cons, not_or] at hL
    rw [List.cons_append] at hm ⊢
    rw [pieces_rune _ _ _ _ _ hm, pieces_line_tail re hre t L (some c) false
      (not_isBol_some c (fun h => hL.1 h.symm)) hL.2]
    rfl

theorem pieces_last_miss (re : Regex) (hre : Anchored re) (L : Str) (b : Option Char)
    (ab : Bool) (hm : matchAt re b L = none) (hL : '\n' ∉ L) :
    pieces re b 0 ab L = L.map .rune := by
  cases L with
  | nil => exact pieces_nil _ _ _ _ hm
  | cons c L =>
    simp only [List.mem_cons, not_or] at hL
    rw [pieces_rune _ _ _ _ _ hm, pieces_last_tail re hre L (some c) false
      (not_isBol_some c (fun h => hL.1 h.symm)) hL.2]
    rfl

theorem pieces_line_hit (re : Regex) (hre : Anchored re) (M A t g : Str) (b : Option Char)
    (ab : Bool) (hm : matchAt re b (M ++ (A ++ '\n' :: t)) = some { text := M, group1 := g })
    (hne : M ≠ []) (hM : '\n' ∉ M) (hA : '\n' ∉ A) :
    pieces re b 0 ab (M ++ (A ++ '\n' :: t))
      = .found { text := M, group1 := g } ::
          (A.map .rune ++ .rune '\n' :: pieces re (some '\n') 0 false t) := by
  rw [pieces_found re b ab M _ g hne hm,
    pieces_line_tail re hre t A _ true (advance_last_not_bol b M hne hM) hA]

theorem pieces_last_hit (re : Regex) (hre : Anchored re) (M A g : Str) (b : Option Char)
    (ab : Bool) (hm : matchAt re b (M ++ A) = some { text := M, group1 := g })
    (hne : M ≠ []) (hM : '\n' ∉ M) (hA : '\n' ∉ A) :
    pieces re b 0 ab (M ++ A) = .found { text := M, group1 := g } :: A.map .rune := by
  rw [pieces_found re b ab M _ g hne hm,
    pieces_last_tail re hre A _ true (advance_last_not_bol b M hne hM) hA]

theorem renderFunc_runes_append (repl : Str → Option Str) (ps : List Piece) : ∀ A : Str,
    renderFunc repl (A.map .rune ++ ps) = (renderFunc repl ps).map (A ++ ·) := by
  intro A
  induction A with
  | nil => simp
  | cons c A ih =>
    rw [List.map_cons, List.cons_append, renderFunc, ih, Option.map_map]
    rfl

theorem isBol_none : IsBol none := Or.inl rfl

theorem isBol_newline : IsBol (some '\n') := Or.inr rfl

/-! ## Steps 3 and 4 on a second-level bullet -/

theorem firstBullet_none_of_head (b : Option Char) (c : Char) (s : Str) (hc : c ≠ '-') :
    matchAt firstBulletRegexp b (c :: s) = none := by
  cases h : matchAt firstBulletRegexp b (c :: s) with
  | none => rfl
  | some m =>
    obtain ⟨_, t, ht⟩ := firstBullet_sound b _ m h
    simp only [List.cons.injEq] at ht
    exact absurd ht.1 hc

theorem firstBullet_none_nil (b : Option Char) : matchAt firstBulletRegexp b [] = none := by
  cases h : matchAt firstBulletRegexp b [] with
  | none => rfl
  | some m =>
    obtain ⟨_, t, ht⟩ := firstBullet_sound b _ m h
    simp at ht

theorem secondBullet_none_of_head (b : Option Char) (c : Char) (s : Str) (hc : c ≠ '\t') :
    matchAt secondBulletRegexp b (c :: s) = none := by
  cases h : matchAt secondBulletRegexp b (c :: s) with
  | none => rfl
  | some m =>
    obtain ⟨_, t, ht⟩ := secondBullet_sound b _ m h
    simp only [List.cons.injEq] at ht
    exact absurd ht.1 hc

theorem secondBullet_none_of_second (b : Option Char) (c d : Char) (s : Str) (hd : d ≠ '-') :
    matchAt secondBulletRegexp b (c :: d :: s) = none := by
  cases h : matchAt secondBulletRegexp b (c :: d :: s) with
  | none => rfl
  | some m =>
    obtain ⟨_, t, ht⟩ := secondBullet_sound b _ m h
    simp only [List.cons.injEq] at ht
    exact absurd ht.2.1 hd

theorem secondBullet_none_nil (b : Option Char) : matchAt secondBulletRegexp b [] = none := by
  cases h : matchAt secondBulletRegexp b [] with
  | none => rfl
  | some m =>
    obtain ⟨_, t, ht⟩ := secondBullet_sound b _ m h
    simp at ht

theorem multiLevel_none_of_head (b : Option Char) (c : Char) (s : Str) (hc : c ≠ '\t') :
    matchAt multiLevelRegexp b (c :: s) = none := by
  cases h : matchAt multiLevelRegexp b (c :: s) with
  | none => rfl
  | some m =>
    obtain ⟨_, w, t, ht, _⟩ := multiLevel_sound b _ m h
    simp only [List.cons.injEq] at ht
    exact absurd ht.1 hc

theorem multiLevel_none_nil (b : Option Char) : matchAt multiLevelRegexp b [] = none := by
  cases h : matchAt multiLevelRegexp b [] with
  | none => rfl
  | some m =>
    obtain ⟨_, w, t, ht, _⟩ := multiLevel_sound b _ m h
    simp at ht

theorem second_on_second_level (x : Str) (hx : '\n' ∉ x) :
    secondToFirstBulletPoints ('\t' :: '-' :: ' ' :: x) = '\n' :: '-' :: ' ' :: x := by
  unfold secondToFirstBulletPoints replaceAllString
  have h := pieces_last_hit secondBulletRegexp anchored_secondBullet ['\t', '-'] (' ' :: x) []
    none false (secondBullet_hit none _ isBol_none) (by simp) (by decide)
    (by simp only [List.mem_cons, not_or]; exact ⟨by decide, hx⟩)
  simp only [List.cons_append, List.nil_append] at h
  rw [h]
  simp only [renderPieces, renderPieces_runes]
  rfl

theorem first_on_second_level (x : Str) (hx : '\n' ∉ x) :
    firstBulletPointsToParagraphs ('\t' :: '-' :: ' ' :: x) = '\t' :: '-' :: ' ' :: x := by
  unfold firstBulletPointsToParagraphs replaceAllString
  rw [pieces_last_miss firstBulletRegexp anchored_firstBullet _ none false
    (firstBullet_none_of_head none '\t' _ (by decide))
    (by simp only [List.mem_cons, not_or]; exact ⟨by decide, by decide, by decide, hx⟩),
    renderPieces_runes]

theorem first_on_promoted (x : Str) (hx : '\n' ∉ x) :
    firstBulletPointsToParagraphs ('\n' :: '-' :: ' ' :: x) = '\n' :: '\n' :: x := by
  unfold firstBulletPointsToParagraphs replaceAllString
  have h1 := pieces_line_miss firstBulletRegexp anchored_firstBullet [] ('-' :: ' ' :: x) none
    false (firstBullet_none_of_head none '\n' _ (by decide)) (by simp)
  have h2 := pieces_last_hit firstBulletRegexp anchored_firstBullet ['-', ' '] x []
    (some '\n') false (firstBullet_hit (some '\n') _ isBol_newline) (by simp) (by decide) hx
  simp only [List.cons_append, List.nil_append, List.map_nil] at h1 h2
  rw [h1, h2]
  simp only [renderPieces, renderPieces_runes]
  rfl

/-! ## The three-level outline -/

theorem first_solid : ∀ (y : Str), (∃ d ∈ y, isSpace d = false) →
    ∃ u e z, y = u ++ e :: z ∧ (∀ c ∈ u, isSpace c = true) ∧ isSpace e = false := by
  intro y
  induction y with
  | nil => rintro ⟨d, hd, _⟩; simp at hd
  | cons c y ih =>
    intro h
    by_cases hc : isSpace c = true
    · obtain ⟨d, hd, hds⟩ := h
      have hd' : d ∈ y := by
        rcases List.mem_cons.1 hd with rfl | hd
        · rw [hc] at hds; exact absurd hds (by simp)
        · exact hd
      obtain ⟨u, e, z, rfl, hu, he⟩ := ih ⟨d, hd', hds⟩
      refine ⟨c :: u, e, z, rfl, ?_, he⟩
      intro x hx
      rcases List.mem_cons.1 hx with rfl | hx
      · exact hc
      · exact hu x hx
    · exact ⟨[], c, y, rfl, by simp, by simpa using hc⟩

/-- A line with content behind its dash is no empty bullet. -/
theorem emptyBullet_none_content (b : Option Char) (w y rest : Str)
    (hw : ∀ c ∈ w, isSpace c = true) (hy : ∃ d ∈ y, isSpace d = false) (hyn : '\n' ∉ y) :
    matchAt emptyBulletRegexp b (w ++ '-' :: (y ++ rest)) = none := by
  rw [emptyBullet_none_iff]
  rintro ⟨_, w1, w2, t, hs, hw1, hw2, heol⟩
  obtain ⟨u, e, z, rfl, hu, he⟩ := first_solid y hy
  obtain ⟨_, _, h3⟩ := space_split_unique w w1 '-' '-' _ _ hw hw1 (by decide) (by decide) hs
  refine eol_not_before_solid w2 t u (z ++ rest) e hw2 heol ?_ he ?_
  · exact fun h => hyn (by simp [h])
  · rw [← h3]; simp

theorem notInfix_cons (w : Str) (c : Char) (s : Str) (h1 : ¬ w <+: c :: s) (h2 : ¬ w <:+: s) :
    ¬ w <:+: c :: s := by
  rw [List.infix_cons_iff]
  rintro (h | h)
  · exact h1 h
  · exact h2 h

theorem notInfix_append_free (p : Char) (w s : Str) (hs : ¬ (p :: w) <:+: s) :
    ∀ X : Str, p ∉ X → ¬ (p :: w) <:+: X ++ s := by
  intro X
  induction X with
  | nil => intro _; exact hs
  | cons c X ih =>
    intro h
    simp only [List.mem_cons, not_or] at h
    apply notInfix_cons _ _ _ _ (ih h.2)
    rw [List.cons_prefix_cons]
    exact fun h' => h.1 h'.1

theorem outline_no_block (a b c : Str) (ha : '\n' ∉ a) (hb : '\n' ∉ b) (hc : '\n' ∉ c) :
    ¬ ∃ pre x post, '\n' ∉ x ∧
      '-' :: ' ' :: (a ++ '\n' :: '\t' :: '-' :: ' ' :: (b ++ '\n' :: '\t' :: '\t' :: '-' :: ' ' ::
        (c ++ ['\n'])))
      = pre ++ "- ".toList ++ x ++ "\n  ".toList ++ post := by
  rintro ⟨pre, x, post, _, h⟩
  have hinf : ['\n', ' '] <:+: '-' :: ' ' :: (a ++ '\n' :: '\t' :: '-' :: ' ' ::
      (b ++ '\n' :: '\t' :: '\t' :: '-' :: ' ' :: (c ++ ['\n']))) :=
    ⟨pre ++ "- ".toList ++ x, ' ' :: post, by rw [h]; simp⟩
  revert hinf
  apply notInfix_cons _ _ _ (by simp)
  apply notInfix_cons _ _ _ (by simp)
  apply notInfix_append_free _ _ _ _ a ha
  apply notInfix_cons _ _ _ (by simp)
  apply notInfix_cons _ _ _ (by simp)
  apply notInfix_cons _ _ _ (by simp)
  apply notInfix_cons _ _ _ (by simp)
  apply notInfix_append_free _ _ _ _ b hb
  apply notInfix_cons _ _ _ (by simp)
  apply notInfix_cons _ _ _ (by simp)
  apply notInfix_cons _ _ _ (by simp)
  apply notInfix_cons _ _ _ (by simp)
  apply notInfix_cons _ _ _ (by simp)
  apply notInfix_append_free _ _ _ _ c hc
  apply notInfix_cons _ _ _ (by simp)
  simp

theorem mem_cons_space (x : Str) (hx : '\n' ∉ x) : '\n' ∉ ' ' :: x := by
  simp only [List.mem_cons, not_or]
  exact ⟨by decide, hx⟩

theorem solid_cons_space (x : Str) (hx : ∃ d ∈ x, isSpace d = false) :
    ∃ d ∈ ' ' :: x, isSpace d = false := by
  obtain ⟨d, hd, h⟩ := hx
  exact ⟨d, List.mem_cons_of_mem _ hd, h⟩

theorem renderPieces_line (repl L : Str) (ps : List Piece) :
    renderPieces repl (L.map .rune ++ .rune '\n' :: ps) = L ++ '\n' :: renderPieces repl ps := by
  rw [renderPieces_append, renderPieces_runes]; rfl

theorem renderPieces_rune (repl : Str) (c : Char) (ps : List Piece) :
    renderPieces repl (.rune c :: ps) = c :: renderPieces repl ps := rfl

theorem renderPieces_found (repl : Str) (m : Match) (ps : List Piece) :
    renderPieces repl (.found m :: ps) = repl ++ renderPieces repl ps := rfl

theorem outline_step1 (a b c : Str) (ha : '\n' ∉ a) (hb : '\n' ∉ b) (hc : '\n' ∉ c)
    (hsa : ∃ d ∈ a, isSpace d = false) (hsb : ∃ d ∈ b, isSpace d = false)
    (hsc : ∃ d ∈ c, isSpace d = false) :
    removeEmptyBulletPoints
      ('-' :: ' ' :: (a ++ '\n' :: '\t' :: '-' :: ' ' :: (b ++ '\n' :: '\t' :: '\t' :: '-' :: ' ' ::
        (c ++ ['\n']))))
    = '-' :: ' ' :: (a ++ '\n' :: '\t' :: '-' :: ' ' :: (b ++ '\n' :: '\t' :: '\t' :: '-' :: ' ' ::
        (c ++ ['\n']))) := by
  unfold removeEmptyBulletPoints replaceAllString
  have h1 := pieces_line_miss emptyBulletRegexp anchored_emptyBullet ('-' :: ' ' :: a)
    ('\t' :: '-' :: ' ' :: (b ++ '\n' :: '\t' :: '\t' :: '-' :: ' ' :: (c ++ ['\n']))) none false
    (emptyBullet_none_content none [] (' ' :: a) _ (by simp) (solid_cons_space a hsa)
      (mem_cons_space a ha))
    (by simp only [List.mem_cons, not_or]; exact ⟨by decide, by decide, ha⟩)
  have h2 := pieces_line_miss emptyBulletRegexp anchored_emptyBullet ('\t' :: '-' :: ' ' :: b)
    ('\t' :: '\t' :: '-' :: ' ' :: (c ++ ['\n'])) (some '\n') false
    (emptyBullet_none_content (some '\n') ['\t'] (' ' :: b) _ (by simp [isSpace])
      (solid_cons_space b hsb) (mem_cons_space b hb))
    (by simp only [List.mem_cons, not_or]; exact ⟨by decide, by decide, by decide, hb⟩)
  have h3 := pieces_line_miss emptyBulletRegexp anchored_emptyBullet
    ('\t' :: '\t' :: '-' :: ' ' :: c) [] (some '\n') false
    (emptyBullet_none_content (some '\n') ['\t', '\t'] (' ' :: c) _ (by simp [isSpace])
      (solid_cons_space c hsc) (mem_cons_space c hc))
    (by simp only [List.mem_cons, not_or]
        exact ⟨by decide, by decide, by decide, by decide, hc⟩)
  have h4 : pieces emptyBulletRegexp (some '\n') 0 false [] = [] :=
    pieces_nil _ _ _ _ (noMatchFrom_nil_emptyBullet _)
  simp only [List.cons_append, List.nil_append, List.append_assoc] at h1 h2 h3
  rw [h1, renderPieces_line, h2, renderPieces_line, h3, renderPieces_line, h4]
  simp [renderPieces]

theorem outline_step3 (a b c : Str) (ha : '\n' ∉ a) (hb : '\n' ∉ b) (hc : '\n' ∉ c) :
    firstBulletPointsToParagraphs
      ('-' :: ' ' :: (a ++ '\n' :: '\t' :: '-' :: ' ' :: (b ++ '\n' :: '\t' :: '\t' :: '-' :: ' ' ::
        (c ++ ['\n']))))
    = '\n' :: (a ++ '\n' :: '\t' :: '-' :: ' ' :: (b ++ '\n' :: '\t' :: '\t' :: '-' :: ' ' ::
        (c ++ ['\n']))) := by
  unfold firstBulletPointsToParagraphs replaceAllString
  have h1 := pieces_line_hit firstBulletRegexp anchored_firstBullet ['-', ' '] a
    ('\t' :: '-' :: ' ' :: (b ++ '\n' :: '\t' :: '\t' :: '-' :: ' ' :: (c ++ ['\n']))) [] none
    false (firstBullet_hit none _ isBol_none) (by simp) (by decide) ha
  have h2 := pieces_line_miss firstBulletRegexp anchored_firstBullet ('\t' :: '-' :: ' ' :: b)
    ('\t' :: '\t' :: '-' :: ' ' :: (c ++ ['\n'])) (some '\n') false
    (firstBullet_none_of_head _ '\t' _ (by decide))
    (by simp only [List.mem_cons, not_or]; exact ⟨by decide, by decide, by decide, hb⟩)
  have h3 := pieces_line_miss firstBulletRegexp anchored_firstBullet
    ('\t' :: '\t' :: '-' :: ' ' :: c) [] (some '\n') false
    (firstBullet_none_of_head _ '\t' _ (by decide))
    (by simp only [List.mem_cons, not_or]
        exact ⟨by decide, by decide, by decide, by decide, hc⟩)
  have h4 : pieces firstBulletRegexp (some '\n') 0 false [] = [] :=
    pieces_nil _ _ _ _ (firstBullet_none_nil _)
  simp only [List.cons_append, List.nil_append, List.append_assoc] at h1 h2 h3
  rw [h1, renderPieces_found, renderPieces_line, h2, renderPieces_line, h3, renderPieces_line, h4]
  simp [renderPieces]

theorem secondBullet_none_no_tab (bf : Option Char) (L rest : Str) (hL : '\t' ∉ L) :
    matchAt secondBulletRegexp bf (L ++ '\n' :: rest) = none := by
  cases L with
  | nil => exact secondBullet_none_of_head _ _ _ (by decide)
  | cons c L =>
    simp only [List.mem_cons, not_or] at hL
    exact secondBullet_none_of_head _ _ _ (fun h => hL.1 h.symm)

theorem multiLevel_none_no_tab (bf : Option Char) (L rest : Str) (hL : '\t' ∉ L) :
    matchAt multiLevelRegexp bf (L ++ '\n' :: rest) = none := by
  cases L with
  | nil => exact multiLevel_none_of_head _ _ _ (by decide)
  | cons c L =>
    simp only [List.mem_cons, not_or] at hL
    exact multiLevel_none_of_head _ _ _ (fun h => hL.1 h.symm)

theorem outline_step4 (a b c : Str) (ha : '\n' ∉ a) (hb : '\n' ∉ b) (hc : '\n' ∉ c)
    (hta : '\t' ∉ a) :
    secondToFirstBulletPoints
      ('\n' :: (a ++ '\n' :: '\t' :: '-' :: ' ' :: (b ++ '\n' :: '\t' :: '\t' :: '-' :: ' ' ::
        (c ++ ['\n']))))
    = '\n' :: (a ++ '\n' :: '\n' :: '-' :: ' ' :: (b ++ '\n' :: '\t' :: '\t' :: '-' :: ' ' ::
        (c ++ ['\n']))) := by
  unfold secondToFirstBulletPoints replaceAllString
  have h0 := pieces_line_miss secondBulletRegexp anchored_secondBullet []
    (a ++ '\n' :: '\t' :: '-' :: ' ' :: (b ++ '\n' :: '\t' :: '\t' :: '-' :: ' ' :: (c ++ ['\n'])))
    none false (secondBullet_none_of_head _ '\n' _ (by decide)) (by simp)
  have h1 := pieces_line_miss secondBulletRegexp anchored_secondBullet a
    ('\t' :: '-' :: ' ' :: (b ++ '\n' :: '\t' :: '\t' :: '-' :: ' ' :: (c ++ ['\n'])))
    (some '\n') false (secondBullet_none_no_tab _ a _ hta) ha
  have h2 := pieces_line_hit secondBulletRegexp anchored_secondBullet ['\t', '-'] (' ' :: b)
    ('\t' :: '\t' :: '-' :: ' ' :: (c ++ ['\n'])) [] (some '\n') false
    (secondBullet_hit _ _ isBol_newline) (by simp) (by decide) (mem_cons_space b hb)
  have h3 := pieces_line_miss secondBulletRegexp anchored_secondBullet
    ('\t' :: '\t' :: '-' :: ' ' :: c) [] (some '\n') false
    (secondBullet_none_of_second _ '\t' '\t' _ (by decide))
    (by simp only [List.mem_cons, not_or]
        exact ⟨by decide, by decide, by decide, by decide, hc⟩)
  have h4 : pieces secondBulletRegexp (some '\n') 0 false [] = [] :=
    pieces_nil _ _ _ _ (secondBullet_none_nil _)
  simp only [List.cons_append, List.nil_append, List.append_assoc, List.map_nil] at h0 h1 h2 h3
  rw [h0, renderPieces_rune, h1, renderPieces_line, h2, renderPieces_found, renderPieces_line, h3,
    renderPieces_line, h4]
  simp [renderPieces]

theorem outline_step5 (a b c : Str) (ha : '\n' ∉ a) (hb : '\n' ∉ b) (hc : '\n' ∉ c)
    (hta : '\t' ∉ a) :
    removeTabFromMultiLevelBulletPoints
      ('\n' :: (a ++ '\n' :: '\n' :: '-' :: ' ' :: (b ++ '\n' :: '\t' :: '\t' :: '-' :: ' ' ::
        (c ++ ['\n']))))
    = some ('\n' :: (a ++ '\n' :: '\n' :: '-' :: ' ' :: (b ++ '\n' :: '\t' :: '-' :: ' ' ::
        (c ++ ['\n'])))) := by
  unfold removeTabFromMultiLevelBulletPoints
  rw [replaceAllStringFunc_eq]
  have h0 := pieces_line_miss multiLevelRegexp anchored_multiLevel []
    (a ++ '\n' :: '\n' :: '-' :: ' ' :: (b ++ '\n' :: '\t' :: '\t' :: '-' :: ' ' :: (c ++ ['\n'])))
    none false (multiLevel_none_of_head _ '\n' _ (by decide)) (by simp)
  have h1 := pieces_line_miss multiLevelRegexp anchored_multiLevel a
    ('\n' :: '-' :: ' ' :: (b ++ '\n' :: '\t' :: '\t' :: '-' :: ' ' :: (c ++ ['\n'])))
    (some '\n') false (multiLevel_none_no_tab _ a _ hta) ha
  have h1' := pieces_line_miss multiLevelRegexp anchored_multiLevel []
    ('-' :: ' ' :: (b ++ '\n' :: '\t' :: '\t' :: '-' :: ' ' :: (c ++ ['\n'])))
    (some '\n') false (multiLevel_none_of_head _ '\n' _ (by decide)) (by simp)
  have h2 := pieces_line_miss multiLevelRegexp anchored_multiLevel ('-' :: ' ' :: b)
    ('\t' :: '\t' :: '-' :: ' ' :: (c ++ ['\n'])) (some '\n') false
    (multiLevel_none_of_head _ '-' _ (by decide))
    (by simp only [List.mem_cons, not_or]; exact ⟨by decide, by decide, hb⟩)
  have h3 := pieces_line_hit multiLevelRegexp anchored_multiLevel ['\t', '\t', '-'] (' ' :: c)
    [] [] (some '\n') false
    (by
      have := multiLevel_hit (some '\n') [] (' ' :: (c ++ ['\n'])) isBol_newline (by simp)
      simpa using this)
    (by simp) (by decide) (mem_cons_space c hc)
  have h4 : pieces multiLevelRegexp (some '\n') 0 false [] = [] :=
    pieces_nil _ _ _ _ (multiLevel_none_nil _)
  simp only [List.cons_append, List.nil_append, List.append_assoc, List.map_nil]
    at h0 h1 h1' h2 h3
  rw [h0, h1, h1', h2, h3, h4]
  simp only [List.map_cons, renderFunc, renderFunc_runes_append, dropFirst, Option.map_some',
    Option.map_map, List.cons_append, List.nil_append, List.append_nil]

/-! ## `removeEmptyBulletPoints` line by line -/

theorem dropWhile_space_dash : ∀ (w1 w2 : Str), (∀ c ∈ w1, isSpace c = true) →
    (w1 ++ '-' :: w2).dropWhile isSpace = '-' :: w2 := by
  intro w1
  induction w1 with
  | nil => intro w2 _; rfl
  | cons c w1 ih =>
    intro w2 h
    rw [List.cons_append, List.dropWhile_cons, if_pos (h c (by simp))]
    exact ih w2 (fun d hd => h d (List.mem_cons_of_mem _ hd))

theorem emptyBulletLine_iff (l : Str) : emptyBulletLine l = true ↔
    ∃ w1 w2, l = w1 ++ '-' :: w2 ∧ (∀ c ∈ w1, isSpace c = true) ∧
      (∀ c ∈ w2, isSpace c = true) := by
  constructor
  · intro h
    unfold emptyBulletLine at h
    have hl := List.takeWhile_append_dropWhile isSpace l
    have hw : ∀ c ∈ l.takeWhile isSpace, isSpace c = true :=
      fun c hc => List.mem_takeWhile_imp hc
    cases hd : l.dropWhile isSpace with
    | nil => rw [hd] at h; simp at h
    | cons d r =>
      rw [hd] at h hl
      by_cases hdd : d = '-'
      · subst hdd
        simp only [List.all_eq_true] at h
        exact ⟨_, r, hl.symm, hw, h⟩
      · split at h
        · rename_i heq
          simp only [List.cons.injEq] at heq
          exact absurd heq.1 hdd
        · simp at h
  · rintro ⟨w1, w2, rfl, hw1, hw2⟩
    unfold emptyBulletLine
    rw [dropWhile_space_dash w1 w2 hw1]
    simpa using hw2

theorem blankLine_false (l : Str) (h : blankLine l = false) : ∃ d ∈ l, isSpace d = false := by
  unfold blankLine at h
  simpa using h

theorem blankLine_true (l : Str) (h : blankLine l = true) : ∀ c ∈ l, isSpace c = true := by
  unfold blankLine at h
  simpa using h

/-- An empty bullet line at the beginning of a line, followed by the end of the
text or by a line that is not blank, is matched as it stands. -/
theorem emptyBullet_line_match (b : Option Char) (hb : IsBol b) (w1 w2 R : Str)
    (hw1 : ∀ c ∈ w1, isSpace c = true) (hw2 : ∀ c ∈ w2, isSpace c = true) (hn2 : '\n' ∉ w2)
    (hR : R = [] ∨ ∃ u e z, R = '\n' :: (u ++ e :: z) ∧ '\n' ∉ u ∧ isSpace e = false) :
    ∃ g, matchAt emptyBulletRegexp b (w1 ++ '-' :: w2 ++ R)
      = some { text := w1 ++ '-' :: w2, group1 := g } := by
  have heol : IsEol R := by
    rcases hR with rfl | ⟨u, e, z, rfl, _⟩
    · exact Or.inl rfl
    · exact Or.inr ⟨_, rfl⟩
  have hB : BulletAt (w1 ++ '-' :: w2 ++ R) := ⟨w1, w2, R, by simp, hw1, hw2, heol⟩
  obtain ⟨m, hm⟩ := emptyBullet_complete b _ hb hB
  obtain ⟨_, v1, v2, t, hs, hv1, hv2, ht, htext⟩ := emptyBullet_sound b _ m hm
  have hs' : w1 ++ '-' :: (w2 ++ R) = v1 ++ '-' :: (v2 ++ t) := by
    rw [← hs]; simp
  obtain ⟨h1, _, h3⟩ := space_split_unique w1 v1 '-' '-' _ _ hw1 hv1 (by decide) (by decide) hs'
  subst h1
  have h2 : v2 = w2 := by
    rcases List.append_eq_append_iff.1 h3 with ⟨a, ha1, ha2⟩ | ⟨a, ha1, ha2⟩
    · cases a with
      | nil => simpa using ha1
      | cons c a =>
        exfalso
        rcases hR with rfl | ⟨u, e, z, rfl, hu, he⟩
        · simp at ha2
        · simp only [List.cons_append, List.cons.injEq] at ha2
          refine eol_not_before_solid a t u z e ?_ ht hu he ha2.2.symm
          intro d hd
          exact hv2 d (by rw [ha1]; simp [hd])
    · cases a with
      | nil => simpa using ha1.symm
      | cons c a =>
        exfalso
        have hc : c = '\n' := by
          rcases ht with rfl | ⟨t', rfl⟩
          · simp at ha2
          · simp only [List.cons_append, List.cons.injEq] at ha2
            exact ha2.1.symm
        apply hn2
        rw [ha1, hc]
        simp
  subst h2
  refine ⟨m.group1, ?_⟩
  rw [hm]
  cases m
  simp only at htext
  subst htext
  rfl

theorem bulletAt_drop_spaces (X : Str) : ∀ w : Str, (∀ c ∈ w, isSpace c = true) →
    BulletAt (w ++ X) → BulletAt X := by
  intro w
  induction w with
  | nil => intro _ h; exact h
  | cons c w ih =>
    intro hw h
    have hc : c ≠ '-' := by
      rintro rfl
      exact absurd (hw '-' (by simp)) (by decide)
    exact ih (fun d hd => hw d (List.mem_cons_of_mem _ hd)) (bulletAt_tail c _ hc h).2

/-- A line with content that is no empty bullet line starts no empty bullet,
whatever follows it. -/
theorem not_bulletAt_line (l R : Str) (hn : '\n' ∉ l) (he : emptyBulletLine l = false)
    (hb : blankLine l = false) : ¬ BulletAt (l ++ R) := by
  obtain ⟨u, e, z, rfl, hu, hes⟩ := first_solid l (blankLine_false l hb)
  rintro ⟨w1, w2, t, hs, hw1, hw2, ht⟩
  have hs' : u ++ e :: (z ++ R) = w1 ++ '-' :: (w2 ++ t) := by
    rw [← hs]; simp
  obtain ⟨rfl, rfl, h3⟩ := space_split_unique u w1 e '-' _ _ hu hw1 hes (by decide) hs'
  by_cases hz : blankLine z = true
  · have : emptyBulletLine (u ++ '-' :: z) = true :=
      (emptyBulletLine_iff _).2 ⟨u, z, rfl, hu, blankLine_true z hz⟩
    rw [this] at he
    exact absurd he (by simp)
  · obtain ⟨u2, e2, z2, rfl, hu2, he2⟩ := first_solid z (blankLine_false z (by simpa using hz))
    refine eol_not_before_solid w2 t u2 (z2 ++ R) e2 hw2 ht ?_ he2 ?_
    · intro h
      apply hn
      simp [h]
    · rw [← h3]; simp

theorem not_bulletAt_blank (l : Str) (hb : blankLine l = true) : ¬ BulletAt l := by
  rintro ⟨w1, w2, t, rfl, _⟩
  have := blankLine_true _ hb '-' (by simp)
  exact absurd this (by decide)

theorem stringsJoin_cons_cons (l l' : Str) (rest : List Str) :
    stringsJoin (l :: l' :: rest) ['\n'] = l ++ '\n' :: stringsJoin (l' :: rest) ['\n'] := by
  simp [stringsJoin]

/-- Where no empty bullet line stands next to a blank line, a first line that
is no empty bullet line starts no empty bullet. -/
theorem not_bulletAt_lines : ∀ (ls : List Str) (l : Str), (∀ x ∈ l :: ls, '\n' ∉ x) →
    noBlankBesideBullet (l :: ls) = true → emptyBulletLine l = false →
    ¬ BulletAt (stringsJoin (l :: ls) ['\n']) := by
  intro ls
  induction ls with
  | nil =>
    intro l hn _ he
    by_cases hb : blankLine l = true
    · exact not_bulletAt_blank l hb
    · have := not_bulletAt_line l [] (hn l (by simp)) he (by simpa using hb)
      simpa [stringsJoin] using this
  | cons l' rest ih =>
    intro l hn hnb he
    rw [stringsJoin_cons_cons]
    simp only [noBlankBesideBullet, Bool.and_eq_true, Bool.not_eq_true', Bool.and_eq_false_imp]
      at hnb
    by_cases hb : blankLine l = true
    · intro h
      have h' : BulletAt ((l ++ ['\n']) ++ stringsJoin (l' :: rest) ['\n']) := by
        simpa using h
      refine ih l' (fun x hx => hn x (List.mem_cons_of_mem _ hx)) hnb.2 (hnb.1.2 hb)
        (bulletAt_drop_spaces _ (l ++ ['\n']) ?_ h')
      intro c hc
      rcases List.mem_append.1 hc with hc | hc
      · exact blankLine_true l hb c hc
      · simp only [List.mem_singleton] at hc
        subst hc; rfl
    · exact not_bulletAt_line l _ (hn l (by simp)) he (by simpa using hb)

theorem removeEmpty_lines : ∀ (ls : List Str) (l : Str), (∀ x ∈ l :: ls, '\n' ∉ x) →
    noBlankBesideBullet (l :: ls) = true → ∀ b, IsBol b →
    renderPieces [] (pieces emptyBulletRegexp b 0 false (stringsJoin (l :: ls) ['\n']))
      = stringsJoin ((l :: ls).map (fun l => if emptyBulletLine l then [] else l)) ['\n'] := by
  intro ls
  induction ls with
  | nil =>
    intro l hn hnb b hb
    simp only [stringsJoin, List.map_cons, List.map_nil]
    by_cases he : emptyBulletLine l = true
    · rw [if_pos he]
      obtain ⟨w1, w2, rfl, hw1, hw2⟩ := (emptyBulletLine_iff l).1 he
      have hn2 : '\n' ∉ w2 := fun h => hn (w1 ++ '-' :: w2) (by simp) (by simp [h])
      obtain ⟨g, hg⟩ := emptyBullet_line_match b hb w1 w2 [] hw1 hw2 hn2 (Or.inl rfl)
      have := pieces_last_hit emptyBulletRegexp anchored_emptyBullet (w1 ++ '-' :: w2) [] g b
        false hg (by simp) (hn _ (by simp)) (by simp)
      rw [List.append_nil] at this
      rw [this]
      rfl
    · rw [if_neg he]
      have hne : emptyBulletLine l = false := by simpa using he
      have hm : matchAt emptyBulletRegexp b l = none := by
        rw [emptyBullet_none_iff]
        rintro ⟨_, h⟩
        have := not_bulletAt_lines [] l hn hnb hne
        exact this (by simpa [stringsJoin] using h)
      rw [pieces_last_miss emptyBulletRegexp anchored_emptyBullet l b false hm (hn l (by simp)),
        renderPieces_runes]
  | cons l' rest ih =>
    intro l hn hnb b hb
    have hnb' := hnb
    simp only [noBlankBesideBullet, Bool.and_eq_true, Bool.not_eq_true', Bool.and_eq_false_imp]
      at hnb'
    have hrec := ih l' (fun x hx => hn x (List.mem_cons_of_mem _ hx)) hnb'.2 (some '\n')
      isBol_newline
    rw [stringsJoin_cons_cons, List.map_cons, List.map_cons, stringsJoin_cons_cons]
    rw [List.map_cons] at hrec
    by_cases he : emptyBulletLine l = true
    · rw [if_pos he]
      obtain ⟨w1, w2, rfl, hw1, hw2⟩ := (emptyBulletLine_iff l).1 he
      have hn2 : '\n' ∉ w2 := fun h => hn (w1 ++ '-' :: w2) (by simp) (by simp [h])
      have hl' : blankLine l' = false := hnb'.1.1 he
      obtain ⟨u, e, z, hl'eq, hu, hes⟩ := first_solid l' (blankLine_false l' hl')
      have hnu : '\n' ∉ u := by
        intro h
        exact hn l' (by simp) (by rw [hl'eq]; simp [h])
      have hR : ∃ u e z, '\n' :: stringsJoin (l' :: rest) ['\n'] = '\n' :: (u ++ e :: z) ∧
          '\n' ∉ u ∧ isSpace e = false := by
        cases rest with
        | nil => exact ⟨u, e, z, by simp [stringsJoin, hl'eq], hnu, hes⟩
        | cons l'' rest =>
          refine ⟨u, e, z ++ '\n' :: stringsJoin (l'' :: rest) ['\n'], ?_, hnu, hes⟩
          rw [stringsJoin_cons_cons, hl'eq]
          simp
      obtain ⟨g, hg⟩ := emptyBullet_line_match b hb w1 w2 _ hw1 hw2 hn2 (Or.inr hR)
      have := pieces_line_hit emptyBulletRegexp anchored_emptyBullet (w1 ++ '-' :: w2) []
        (stringsJoin (l' :: rest) ['\n']) g b false (by simpa using hg) (by simp)
        (hn _ (by simp)) (by simp)
      rw [List.nil_append] at this
      rw [this, renderPieces_found, List.map_nil, List.nil_append, List.nil_append,
        renderPieces_rune, hrec]
      rfl
    · rw [if_neg he]
      have hne : emptyBulletLine l = false := by simpa using he
      have hm : matchAt emptyBulletRegexp b (l ++ '\n' :: stringsJoin (l' :: rest) ['\n'])
          = none := by
        rw [emptyBullet_none_iff]
        rintro ⟨_, h⟩
        have := not_bulletAt_lines (l' :: rest) l hn hnb hne
        rw [stringsJoin_cons_cons] at this
        exact this h
      rw [pieces_line_miss emptyBulletRegexp anchored_emptyBullet l _ b false hm (hn l (by simp)),
        renderPieces_line, hrec]

theorem stringsJoin_splitOnChar (sep : Char) : ∀ s : Str,
    stringsJoin (splitOnChar sep s) [sep] = s := by
  intro s
  induction s with
  | nil => rfl
  | cons c s ih =>
    by_cases hc : c = sep
    · subst hc
      rw [splitOnChar_cons_eq]
      cases h : splitOnChar c s with
      | nil => exact absurd h (splitOnChar_ne_nil _ _)
      | cons e es =>
        rw [h] at ih
        simp only [stringsJoin, List.nil_append, List.singleton_append, ih]
    · obtain ⟨e, es, h1, h2⟩ := splitOnChar_cons_ne sep c s hc
      rw [h2]
      rw [h1] at ih
      cases es with
      | nil =>
        simp only [stringsJoin] at ih ⊢
        rw [ih]
      | cons f es =>
        simp only [stringsJoin, List.cons_append] at ih ⊢
        rw [ih]

theorem splitOnChar_not_mem (sep : Char) : ∀ (s : Str), ∀ l ∈ splitOnChar sep s, sep ∉ l := by
  intro s
  induction s with
  | nil => intro l hl; simp [splitOnChar] at hl; subst hl; simp
  | cons c s ih =>
    intro l hl
    by_cases hc : c = sep
    · subst hc
      rw [splitOnChar_cons_eq] at hl
      rcases List.mem_cons.1 hl with rfl | hl
      · simp
      · exact ih l hl
    · obtain ⟨e, es, h1, h2⟩ := splitOnChar_cons_ne sep c s hc
      rw [h2] at hl
      rw [h1] at ih
      rcases List.mem_cons.1 hl with rfl | hl
      · simp only [List.mem_cons, not_or]
        exact ⟨fun h => hc h.symm, ih e (by simp)⟩
      · exact ih l (List.mem_cons_of_mem _ hl)

theorem splitOnChar_stringsJoin (sep : Char) : ∀ (es : List Str) (e : Str),
    (∀ x ∈ e :: es, sep ∉ x) → splitOnChar sep (stringsJoin (e :: es) [sep]) = e :: es := by
  intro es
  induction es with
  | nil =>
    intro e h
    exact splitOnChar_of_not_mem sep e (h e (by simp))
  | cons f es ih =>
    intro e h
    have : stringsJoin (e :: f :: es) [sep] = e ++ sep :: stringsJoin (f :: es) [sep] := by
      simp [stringsJoin]
    rw [this, splitOnChar_append_sep, splitOnChar_of_not_mem sep e (h e (by simp)),
      ih f (fun x hx => h x (List.mem_cons_of_mem _ hx))]
    rfl

/-- The line-by-line reading of `removeEmptyBulletPoints` is right for a text
in which no empty bullet line stands next to a blank line. -/
theorem removeEmpty_perLine (text : Str)
    (h : noBlankBesideBullet (splitOnChar '\n' text) = true) :
    removeEmptyBulletPoints text = removeEmptyBulletPointsPerLine emptyBulletLine text := by
  unfold removeEmptyBulletPoints replaceAllString removeEmptyBulletPointsPerLine
  have hn := splitOnChar_not_mem '\n' text
  have hj := stringsJoin_splitOnChar '\n' text
  cases hs : splitOnChar '\n' text with
  | nil => exact absurd hs (splitOnChar_ne_nil _ _)
  | cons l ls =>
    rw [hs] at h hn hj
    have := removeEmpty_lines ls l hn h none isBol_none
    rw [hj] at this
    exact this

theorem perLine_length (f : Str → Bool) (text : Str) :
    (splitOnChar '\n' (removeEmptyBulletPointsPerLine f text)).length
      = (splitOnChar '\n' text).length := by
  unfold removeEmptyBulletPointsPerLine
  have hn := splitOnChar_not_mem '\n' text
  cases hs : splitOnChar '\n' text with
  | nil => exact absurd hs (splitOnChar_ne_nil _ _)
  | cons l ls =>
    rw [hs] at hn
    rw [List.map_cons, splitOnChar_stringsJoin]
    · simp
    · intro x hx
      rw [← List.map_cons (fun l => if f l = true then [] else l)] at hx
      obtain ⟨y, hy, rfl⟩ := List.mem_map.1 hx
      split
      · simp
      · exact hn y hy

/-! ## The claims on the rewriters and on `transformPage` -/

theorem no_block_of_no_indent (s : Str) (h : ¬ "\n ".toList <:+: s) :
    ¬ ∃ pre x post, '\n' ∉ x ∧ s = pre ++ "- ".toList ++ x ++ "\n  ".toList ++ post := by
  rintro ⟨pre, x, post, _, hs⟩
  exact h ⟨pre ++ "- ".toList ++ x, ' ' :: post, by rw [hs]; simp⟩

/-- C11, on the failing input: the body `a - b`, newline, `  c` has no bullet
syntax (no line whose first rune that is no whitespace is a dash) and no
relative link, yet `unindentMultilineStrings` rewrites it.  Its pattern has no
line anchor, matches `- b\n  c` in the middle of the first line and returns
`a \nb\nc`: the dash is dropped and the line is broken.  `transformPage`
returns that text and not the body. -/
theorem transformPage_midline_dash :
    NoBulletSyntax "a - b\n  c".toList ∧ NoLink "a - b\n  c".toList ∧
    unindentMultilineStrings "a - b\n  c".toList = some "a \nb\nc".toList ∧
    (transformPage { filename := "p.md".toList, attributes := [], text := "a - b\n  c".toList,
                     assets := [] } "/img".toList).map (fun q => (q.text, q.assets))
      = some ("a \nb\nc".toList, []) := by
  decide

/-- Where `unindentMultilineStrings` finds no block: for every page whose body
has no bullet syntax (no line whose first rune that is no whitespace of the
class `\s` is a dash), no relative image link (neither `](./` nor `](../`) and
no place where `- `, the rest of that line, and a next line beginning with two
spaces follow each other, and for every prefix, `transformPage` returns a page
whose text is the body and whose assets list is empty. -/
theorem transformPage_plain_body (p : page) (webAssetsPathPrefix : Str)
    (hbullet : NoBulletSyntax p.text) (hlink : NoLink p.text)
    (hblock : ¬ ∃ pre x post, '\n' ∉ x ∧
      p.text = pre ++ "- ".toList ++ x ++ "\n  ".toList ++ post) :
    ∃ q, transformPage p webAssetsPathPrefix = some q ∧ q.text = p.text ∧ q.assets = [] := by
  have h1 : removeEmptyBulletPoints p.text = p.text :=
    replaceAllString_noMatch _ _ _
      (noMatchFrom_noBullet _ anchored_emptyBullet emptyBullet_dash _ hbullet)
  have h2 : unindentMultilineStrings p.text = some p.text := unindent_noBlock _ hblock
  have h3 : firstBulletPointsToParagraphs p.text = p.text :=
    replaceAllString_noMatch _ _ _
      (noMatchFrom_noBullet _ anchored_firstBullet firstBullet_dash _ hbullet)
  have h4 : secondToFirstBulletPoints p.text = p.text :=
    replaceAllString_noMatch _ _ _
      (noMatchFrom_noBullet _ anchored_secondBullet secondBullet_dash _ hbullet)
  have h5 : removeTabFromMultiLevelBulletPoints p.text = some p.text :=
    replaceAllStringFunc_noMatch _ _ _
      (noMatchFrom_noBullet _ anchored_multiLevel multiLevel_dash _ hbullet)
  rw [transformPage_eq, h1, h2, Option.some_bind, h3, h4, h5, Option.some_bind]
  exact ⟨_, extractAssets_no_link webAssetsPathPrefix { addFileName p with text := p.text }
    hlink.1 hlink.2, rfl, rfl⟩

theorem transformPage_plain_body_witness :
    ∃ q, transformPage
        { filename := "p.md".toList, attributes := [],
          text := "# Title\n\nplain a-b text - no bullet\nnext\n".toList, assets := [] }
        "/img".toList = some q ∧
      q.text = "# Title\n\nplain a-b text - no bullet\nnext\n".toList ∧ q.assets = [] :=
  transformPage_plain_body
    { filename := "p.md".toList, attributes := [],
      text := "# Title\n\nplain a-b text - no bullet\nnext\n".toList, assets := [] }
    "/img".toList (by decide) (by decide) (no_block_of_no_indent _ (by decide))

/-- C12: for every first-line content `A` and every non-empty list of
continuation contents `Bs`, none holding a newline, `unindentMultilineStrings`
applied to the block `- A`, newline, and the lines of `Bs` each indented by two
spaces and ended by a newline, returns a newline, `A`, a newline, and the lines
of `Bs` flush left, each ended by a newline. -/
theorem unindentMultilineStrings_block (A : Str) (Bs : List Str) (hA : '\n' ∉ A)
    (hBs : ∀ B ∈ Bs, '\n' ∉ B) (hne : Bs ≠ []) :
    unindentMultilineStrings
        ("- ".toList ++ A ++ "\n".toList ++ (Bs.map (fun B => "  ".toList ++ B ++ "\n".toList)).flatten)
      = some ("\n".toList ++ A ++ "\n".toList ++ (Bs.map (fun B => B ++ "\n".toList)).flatten) := by
  have h1 : ∀ Bs : List Str,
      (Bs.map (fun B => "  ".toList ++ B ++ "\n".toList)).flatten = blockLines Bs := by
    intro Bs
    induction Bs with
    | nil => rfl
    | cons B Bs ih =>
      rw [List.map_cons, List.flatten_cons, ih, List.append_assoc, List.append_assoc]
      rfl
  have h2 : ∀ Bs : List Str, (Bs.map (fun B => B ++ "\n".toList)).flatten = plainLines Bs := by
    intro Bs
    induction Bs with
    | nil => rfl
    | cons B Bs ih =>
      rw [List.map_cons, List.flatten_cons, ih, List.append_assoc]
      rfl
  rw [h1, h2, List.append_assoc, List.append_assoc, List.append_assoc]
  exact unindent_block A Bs hA hBs hne

theorem unindentMultilineStrings_block_witness :
    unindentMultilineStrings "- ```ts\n  const hello = \"world\"\n  ```\n".toList
      = some "\n```ts\nconst hello = \"world\"\n```\n".toList :=
  unindentMultilineStrings_block "```ts".toList
    ["const hello = \"world\"".toList, "```".toList] (by decide) (by decide) (by decide)

/-- C13: for all strings `a`, `b`, `c` without a newline, each holding a rune
that is no whitespace, and `a` without a tab, the five rewriters in pipeline
order (`removeEmptyBulletPoints`, `unindentMultilineStrings`,
`firstBulletPointsToParagraphs`, `secondToFirstBulletPoints`,
`removeTabFromMultiLevelBulletPoints`) turn the three-level outline
`- a`, `\t- b`, `\t\t- c` into `\n`, `a`, a blank line, `- b` and `\t- c`: the
top level loses its bullet, the second level loses its tab behind a blank line,
and the third level keeps exactly one tab.  The absence of tabs in `b` and `c`
is not needed. -/
theorem outline_three_levels (a b c : Str)
    (ha : '\n' ∉ a) (hb : '\n' ∉ b) (hc : '\n' ∉ c) (hta : '\t' ∉ a)
    (hsa : ∃ d ∈ a, isSpace d = false) (hsb : ∃ d ∈ b, isSpace d = false)
    (hsc : ∃ d ∈ c, isSpace d = false) :
    (unindentMultilineStrings (removeEmptyBulletPoints
        ("- ".toList ++ a ++ "\n\t- ".toList ++ b ++ "\n\t\t- ".toList ++ c ++ "\n".toList))).bind
      (fun t2 => removeTabFromMultiLevelBulletPoints
        (secondToFirstBulletPoints (firstBulletPointsToParagraphs t2)))
      = some ("\n".toList ++ a ++ "\n\n- ".toList ++ b ++ "\n\t- ".toList ++ c ++ "\n".toList) := by
  have e0 : "- ".toList ++ a ++ "\n\t- ".toList ++ b ++ "\n\t\t- ".toList ++ c ++ "\n".toList
      = '-' :: ' ' :: (a ++ '\n' :: '\t' :: '-' :: ' ' ::
          (b ++ '\n' :: '\t' :: '\t' :: '-' :: ' ' :: (c ++ ['\n']))) := by
    simp only [List.append_assoc]
    rfl
  have e5 : "\n".toList ++ a ++ "\n\n- ".toList ++ b ++ "\n\t- ".toList ++ c ++ "\n".toList
      = '\n' :: (a ++ '\n' :: '\n' :: '-' :: ' ' ::
          (b ++ '\n' :: '\t' :: '-' :: ' ' :: (c ++ ['\n']))) := by
    simp only [List.append_assoc]
    rfl
  rw [e0, e5, outline_step1 a b c ha hb hc hsa hsb hsc,
    unindent_noBlock _ (outline_no_block a b c ha hb hc), Option.some_bind,
    outline_step3 a b c ha hb hc, outline_step4 a b c ha hb hc hta,
    outline_step5 a b c ha hb hc hta]

theorem outline_three_levels_witness :
    (unindentMultilineStrings (removeEmptyBulletPoints
        "- top\n\t- second\n\t\t- third\n".toList)).bind
      (fun t2 => removeTabFromMultiLevelBulletPoints
        (secondToFirstBulletPoints (firstBulletPointsToParagraphs t2)))
      = some "\ntop\n\n- second\n\t- third\n".toList :=
  outline_three_levels "top".toList "second".toList "third".toList
    (by decide) (by decide) (by decide) (by decide)
    ⟨'t', by decide, by decide⟩ ⟨'s', by decide, by decide⟩ ⟨'t', by decide, by decide⟩

/-- C14, as it stands, fails: on the body `- `, newline, `- item`, newline,
`removeEmptyBulletPoints` does not return `- item\n`, and the first three
rewriters do not return `\nitem\n`.  The pattern takes the text of the empty
bullet line and leaves its newline. -/
theorem empty_bullet_then_item_counterexample :
    removeEmptyBulletPoints "- \n- item\n".toList ≠ "- item\n".toList ∧
    (unindentMultilineStrings (removeEmptyBulletPoints "- \n- item\n".toList)).map
        firstBulletPointsToParagraphs ≠ some "\nitem\n".toList := by
  decide

/-- C14, amended: on the body `- `, newline, `- item`, newline,
`removeEmptyBulletPoints` returns `\n- item\n` (the empty bullet line becomes
an empty line), and `removeEmptyBulletPoints`, `unindentMultilineStrings` and
`firstBulletPointsToParagraphs` in this order return `\n\nitem\n` (two
newlines in front, no dash). -/
theorem empty_bullet_then_item :
    removeEmptyBulletPoints "- \n- item\n".toList = "\n- item\n".toList ∧
    (unindentMultilineStrings (removeEmptyBulletPoints "- \n- item\n".toList)).map
        firstBulletPointsToParagraphs = some "\n\nitem\n".toList := by
  decide

/-- C15, as it stands, fails: the class `\s` of the pattern holds the newline,
so a match runs over the blank lines around an empty bullet.  On `a`, blank
line, `-`, blank line, `b` the function returns `a`, blank line, `b`: three
lines instead of five, not the text that the line-by-line reading gives.  The
class also holds the carriage return, so the line `-\r` is taken for an empty
bullet although it is more than spaces, tabs and a dash. -/
theorem removeEmptyBulletPoints_per_line_counterexample :
    removeEmptyBulletPoints "a\n\n-\n\nb".toList = "a\n\nb".toList ∧
    removeEmptyBulletPointsPerLine specEmptyBulletLine "a\n\n-\n\nb".toList
      = "a\n\n\n\nb".toList ∧
    (splitOnChar '\n' (removeEmptyBulletPoints "a\n\n-\n\nb".toList)).length = 3 ∧
    (splitOnChar '\n' "a\n\n-\n\nb".toList).length = 5 ∧
    removeEmptyBulletPoints "a\n-\r\nb".toList = "a\n\nb".toList ∧
    removeEmptyBulletPointsPerLine specEmptyBulletLine "a\n-\r\nb".toList
      = "a\n-\r\nb".toList := by
  decide

/-- C15, amended: for every text in which no empty bullet line stands directly
before or behind a line of whitespace only (the empty line and the empty last
line behind a final newline included), `removeEmptyBulletPoints` works line by
line: its result is the text split at newlines, with every line made of
whitespace of the class `\s`, a single dash and whitespace replaced by the
empty line and every other line kept, joined with newlines again; the number
of lines is the same. -/
theorem removeEmptyBulletPoints_per_line (text : Str)
    (h : noBlankBesideBullet (splitOnChar '\n' text) = true) :
    removeEmptyBulletPoints text
      = stringsJoin ((splitOnChar '\n' text).map (fun l => if emptyBulletLine l then [] else l))
          ['\n'] ∧
    (splitOnChar '\n' (removeEmptyBulletPoints text)).length
      = (splitOnChar '\n' text).length := by
  have h1 := removeEmpty_perLine text h
  refine ⟨h1, ?_⟩
  rw [h1]
  exact perLine_length emptyBulletLine text

theorem removeEmptyBulletPoints_per_line_witness :
    removeEmptyBulletPoints "- a\n \t- \n- b\n-\nc".toList = "- a\n\n- b\n\nc".toList ∧
    (splitOnChar '\n' (removeEmptyBulletPoints "- a\n \t- \n- b\n-\nc".toList)).length = 5 := by
  have h := removeEmptyBulletPoints_per_line "- a\n \t- \n- b\n-\nc".toList (by decide)
  exact ⟨h.1.trans (by decide), h.2.trans (by decide)⟩

/-- C16: `removeEmptyBulletPoints` is idempotent: for every text `t`, applying
it to its own result changes nothing, since no empty bullet is left or made in
the result. -/
theorem removeEmptyBulletPoints_idempotent (t : Str) :
    removeEmptyBulletPoints (removeEmptyBulletPoints t) = removeEmptyBulletPoints t := by
  have h := removeEmpty_noMatch t.length t (le_refl _) none none false id
  have h2 : removeEmptyBulletPoints t
      = renderPieces [] (pieces emptyBulletRegexp none 0 false t) := rfl
  rw [← h2] at h
  have h3 : removeEmptyBulletPoints (removeEmptyBulletPoints t)
      = renderPieces [] (pieces emptyBulletRegexp none 0 false (removeEmptyBulletPoints t)) := rfl
  rw [h3, pieces_noMatchFrom _ _ _ _ h, renderPieces_runes]

/-- C17: for every body that is an empty bullet and nothing else, that is
`w1 ++ "-" ++ w2` with `w1` and `w2` made of spaces and tabs,
`removeEmptyBulletPoints` returns the empty string, and for every prefix
`transformPage` returns a page with the empty text and an empty assets list. -/
theorem transformPage_empty_bullet (p : page) (webAssetsPathPrefix w1 w2 : Str)
    (hw1 : ∀ c ∈ w1, c = ' ' ∨ c = '\t') (hw2 : ∀ c ∈ w2, c = ' ' ∨ c = '\t')
    (hp : p.text = w1 ++ "-".toList ++ w2) :
    removeEmptyBulletPoints p.text = [] ∧
    ∃ q, transformPage p webAssetsPathPrefix = some q ∧ q.text = [] ∧ q.assets = [] := by
  have hs1 : ∀ c ∈ w1, isSpace c = true := by
    intro c hc
    rcases hw1 c hc with rfl | rfl <;> rfl
  have hs2 : ∀ c ∈ w2, isSpace c = true := by
    intro c hc
    rcases hw2 c hc with rfl | rfl <;> rfl
  have hn1 : '\n' ∉ w1 := fun h => by
    rcases hw1 _ h with h | h <;> exact absurd h (by decide)
  have hn2 : '\n' ∉ w2 := fun h => by
    rcases hw2 _ h with h | h <;> exact absurd h (by decide)
  have hp' : p.text = w1 ++ '-' :: w2 := by
    rw [hp, List.append_assoc]
    rfl
  have h1 : removeEmptyBulletPoints p.text = [] := by
    rw [hp']
    obtain ⟨g, hg⟩ := emptyBullet_line_match none isBol_none w1 w2 [] hs1 hs2 hn2 (Or.inl rfl)
    have hpc := pieces_last_hit emptyBulletRegexp anchored_emptyBullet (w1 ++ '-' :: w2) [] g
      none false hg (by simp)
      (by
        simp only [List.mem_append, List.mem_cons, not_or]
        exact ⟨hn1, by decide, hn2⟩)
      (by simp)
    rw [List.append_nil] at hpc
    unfold removeEmptyBulletPoints replaceAllString
    rw [hpc]
    rfl
  refine ⟨h1, ?_⟩
  have h2 : unindentMultilineStrings [] = some [] := by decide
  have h5 : removeTabFromMultiLevelBulletPoints
      (secondToFirstBulletPoints (firstBulletPointsToParagraphs [])) = some [] := by decide
  rw [transformPage_eq, h1, h2, Option.some_bind, h5, Option.some_bind]
  exact ⟨_, extractAssets_no_link webAssetsPathPrefix { addFileName p with text := [] }
    (show ¬ "](./".toList <:+: ([] : Str) by decide)
    (show ¬ "](../".toList <:+: ([] : Str) by decide), rfl, rfl⟩

theorem transformPage_empty_bullet_witness :
    removeEmptyBulletPoints " \t- \t".toList = [] ∧
    ∃ q, transformPage
        { filename := "p.md".toList, attributes := [], text := " \t- \t".toList, assets := [] }
        "/img".toList = some q ∧ q.text = [] ∧ q.assets = [] :=
  transformPage_empty_bullet
    { filename := "p.md".toList, attributes := [], text := " \t- \t".toList, assets := [] }
    "/img".toList " \t".toList " \t".toList (by decide) (by decide) (by decide)

/-- C18: for every page `p` and prefix, `transformPage` returns a page with the
attribute map of `p` and with the filename of `addFileName p`; the filename is
the same for every other text, assets list and prefix, so it depends on the
source name and the attributes of `p` only. -/
theorem transformPage_frame (p : page) (webAssetsPathPrefix : Str) :
    ∃ q, transformPage p webAssetsPathPrefix = some q ∧
      q.attributes = p.attributes ∧ q.filename = (addFileName p).filename ∧
      ∀ (text' : Str) (assets' : List Str) (prefix' : Str),
        ∃ q', transformPage { p with text := text', assets := assets' } prefix' = some q' ∧
          q'.attributes = q.attributes ∧ q'.filename = q.filename := by
  obtain ⟨q, hq, hf, ha⟩ := transformPage_isSome p webAssetsPathPrefix
  refine ⟨q, hq, ha, hf, ?_⟩
  intro text' assets' prefix'
  obtain ⟨q', hq', hf', ha'⟩ :=
    transformPage_isSome { p with text := text', assets := assets' } prefix'
  exact ⟨q', hq', by rw [ha', ha], by rw [hf', hf]; rfl⟩

/-- C19: `transformPage` is total: for every page and every prefix it returns a
page.  The indexings `match[1]` and the slice `s[1:]` are in range: a text that
`multilineBlocks` or the pattern of `extractAssets` matched is matched again
by the same pattern, whole and with the same group, and a match of the
pattern of `removeTabFromMultiLevelBulletPoints` is never empty. -/
theorem transformPage_total (p : page) (webAssetsPathPrefix : Str) :
    (∃ q, transformPage p webAssetsPathPrefix = some q) ∧
    (∀ b s m, matchAt multilineBlocks b s = some m →
      findStringSubmatch multilineBlocks m.text = some m) ∧
    (∀ b s m, matchAt assetRegexp b s = some m →
      findStringSubmatch assetRegexp m.text = some m) ∧
    (∀ b s m, matchAt multiLevelRegexp b s = some m → ∃ c t, m.text = c :: t) := by
  refine ⟨?_, ?_, ?_, ?_⟩
  · obtain ⟨q, hq, _⟩ := transformPage_isSome p webAssetsPathPrefix
    exact ⟨q, hq⟩
  · exact fun b s m h => findStringSubmatch_again _ anchorFree_multilineBlocks b s m h
  · exact fun b s m h => findStringSubmatch_again _ anchorFree_assetRegexp b s m h
  · intro b s m h
    have := matchAt_bol_lit_ne_nil _ _ b s m h
    cases hm : m.text with
    | nil => exact absurd hm this
    | cons c t => exact ⟨c, t, rfl⟩

/-- C20: steps 3 and 4 do not commute: for every line content `x` without a
newline, `secondToFirstBulletPoints` followed by
`firstBulletPointsToParagraphs` maps `\t- x` to `\n\nx` (the bullet of the
second level is lost), `firstBulletPointsToParagraphs` followed by
`secondToFirstBulletPoints` maps it to `\n- x`, and the two results differ. -/
theorem first_second_not_commute (x : Str) (hx : '\n' ∉ x) :
    firstBulletPointsToParagraphs (secondToFirstBulletPoints ("\t- ".toList ++ x))
      = "\n\n".toList ++ x ∧
    secondToFirstBulletPoints (firstBulletPointsToParagraphs ("\t- ".toList ++ x))
      = "\n- ".toList ++ x ∧
    "\n\n".toList ++ x ≠ "\n- ".toList ++ x := by
  refine ⟨?_, ?_, ?_⟩
  · show firstBulletPointsToParagraphs (secondToFirstBulletPoints ('\t' :: '-' :: ' ' :: x))
      = '\n' :: '\n' :: x
    rw [second_on_second_level x hx, first_on_promoted x hx]
  · show secondToFirstBulletPoints (firstBulletPointsToParagraphs ('\t' :: '-' :: ' ' :: x))
      = '\n' :: '-' :: ' ' :: x
    rw [first_on_second_level x hx, second_on_second_level x hx]
  · show '\n' :: '\n' :: x ≠ '\n' :: '-' :: ' ' :: x
    intro h
    simp only [List.cons.injEq, true_and] at h
    cases x with
    | nil => simp at h
    | cons c x =>
      simp only [List.mem_cons, not_or] at hx
      simp only [List.cons.injEq] at h
      exact absurd h.1 (by decide)

theorem first_second_not_commute_witness :
    firstBulletPointsToParagraphs (secondToFirstBulletPoints "\t- second".toList)
      = "\n\nsecond".toList ∧
    secondToFirstBulletPoints (firstBulletPointsToParagraphs "\t- second".toList)
      = "\n- second".toList ∧
    "\n\nsecond".toList ≠ "\n- second".toList :=
  first_second_not_commute "second".toList (by decide)

/-! ## The Asset Extractor on its own output -/

/-! ## `path.Join` under a directory without `..` -/

/-- A buffer of `path.Clean` that is empty or begins with a path element other
than `.` and `..`. -/
theorem firstPlain_not_dot (e t : Str) (he1 : e ≠ []) (he2 : e ≠ ['.']) (he3 : e ≠ ['.', '.'])
    (he4 : '/' ∉ e) (ht : t = [] ∨ ∃ t', t = '/' :: t') :
    ¬ "./".toList <+: e ++ t ∧ ¬ "../".toList <+: e ++ t := by
  constructor
  · rintro ⟨r, hr⟩
    match e, he1, he2, he4 with
    | [c], _, he2, _ =>
      simp only [String.toList, List.cons_append, List.nil_append, List.cons.injEq] at hr
      exact he2 (by rw [← hr.1])
    | c :: d :: e', _, _, he4 =>
      simp only [String.toList, List.cons_append, List.nil_append, List.cons.injEq] at hr
      exact he4 (by simp [← hr.2.1])
  · rintro ⟨r, hr⟩
    match e, he1, he2, he3, he4 with
    | [c], _, _, _, _ =>
      rcases ht with rfl | ⟨t', rfl⟩
      · simp [String.toList] at hr
      · simp only [String.toList, List.cons_append, List.nil_append, List.cons.injEq] at hr
        exact absurd hr.2.1 (by decide)
    | [c, d], _, _, he3, _ =>
      simp only [String.toList, List.cons_append, List.nil_append, List.cons.injEq] at hr
      exact he3 (by rw [← hr.1, ← hr.2.1])
    | c :: d :: f :: e', _, _, _, he4 =>
      simp only [String.toList, List.cons_append, List.nil_append, List.cons.injEq] at hr
      exact he4 (by simp [← hr.2.2.1])

/-- The invariant of the buffer of `path.Clean` on a relative path without
`..`: it is empty, or it begins with a path element other than `.` and `..`
that ends the buffer or is followed by a slash. -/
theorem cleanStep_plain_first (b : CleanBuf) (e : Str) (he : e ≠ ['.', '.']) (hs : '/' ∉ e)
    (hb : b.out = [] ∨ ∃ f t, b.out = f ++ t ∧ f ≠ [] ∧ f ≠ ['.'] ∧ f ≠ ['.', '.'] ∧ '/' ∉ f ∧
      (t = [] ∨ ∃ t', t = '/' :: t')) :
    ((cleanStep false b e).out = [] ∨ ∃ f t, (cleanStep false b e).out = f ++ t ∧ f ≠ [] ∧
      f ≠ ['.'] ∧ f ≠ ['.', '.'] ∧ '/' ∉ f ∧ (t = [] ∨ ∃ t', t = '/' :: t')) ∧
    ∃ X B, (cleanStep false b e).out = X ++ B ∧ (∀ c ∈ X, c ∈ b.out ∨ c = '/') ∧
      (B = [] ∨ B = e) := by
  unfold cleanStep
  by_cases h1 : e = []
  · rw [if_pos h1]
    exact ⟨hb, b.out, [], (List.append_nil _).symm, fun c hc => Or.inl hc, Or.inl rfl⟩
  · rw [if_neg h1]
    by_cases h2 : e = ['.']
    · rw [if_pos h2]
      exact ⟨hb, b.out, [], (List.append_nil _).symm, fun c hc => Or.inl hc, Or.inl rfl⟩
    · rw [if_neg h2, if_neg he]
      simp only [Bool.false_and, Bool.not_false, Bool.true_and, Bool.false_or]
      rcases hb with hb | ⟨f, t, hft, hf1, hf2, hf3, hf4, ht⟩
      · rw [hb]
        simp only [List.length_nil, bne_self_eq_false, Bool.false_eq_true, if_false,
          List.nil_append]
        exact ⟨Or.inr ⟨e, [], (List.append_nil _).symm, h1, h2, he, hs, Or.inl rfl⟩,
          [], e, rfl, by simp, Or.inr rfl⟩
      · have hne : (b.out.length != 0) = true := by
          rw [hft]
          cases f with
          | nil => exact absurd rfl hf1
          | cons c f => simp
        rw [hne, if_pos rfl]
        refine ⟨Or.inr ⟨f, t ++ '/' :: e, by rw [hft]; simp, hf1, hf2, hf3, hf4, ?_⟩,
          b.out ++ ['/'], e, rfl, ?_, Or.inr rfl⟩
        · rcases ht with rfl | ⟨t', rfl⟩
          · exact Or.inr ⟨e, rfl⟩
          · exact Or.inr ⟨_, rfl⟩
        · intro c hc
          rcases List.mem_append.1 hc with hc | hc
          · exact Or.inl hc
          · exact Or.inr (by simpa using hc)

theorem cleanFold_plain_first : ∀ (es : List Str) (b : CleanBuf),
    (∀ e ∈ es, e ≠ ['.', '.'] ∧ '/' ∉ e ∧ ']' ∉ e) → ']' ∉ b.out →
    (b.out = [] ∨ ∃ f t, b.out = f ++ t ∧ f ≠ [] ∧ f ≠ ['.'] ∧ f ≠ ['.', '.'] ∧ '/' ∉ f ∧
      (t = [] ∨ ∃ t', t = '/' :: t')) →
    ']' ∉ (es.foldl (cleanStep false) b).out ∧
    ((es.foldl (cleanStep false) b).out = [] ∨ ∃ f t, (es.foldl (cleanStep false) b).out = f ++ t ∧
      f ≠ [] ∧ f ≠ ['.'] ∧ f ≠ ['.', '.'] ∧ '/' ∉ f ∧ (t = [] ∨ ∃ t', t = '/' :: t')) := by
  intro es
  induction es with
  | nil => intro b _ hn hb; exact ⟨hn, hb⟩
  | cons e es ih =>
    intro b hes hn hb
    obtain ⟨he1, he2, he3⟩ := hes e (by simp)
    obtain ⟨h1, X, B, hout, hX, hB⟩ := cleanStep_plain_first b e he1 he2 hb
    simp only [List.foldl_cons]
    apply ih _ (fun x hx => hes x (List.mem_cons_of_mem _ hx)) _ h1
    rw [hout]
    intro hmem
    rcases List.mem_append.1 hmem with h | h
    · rcases hX _ h with h' | h'
      · exact hn h'
      · exact absurd h' (by decide)
    · rcases hB with rfl | rfl
      · simp at h
      · exact he3 h

theorem pfx_of_take (w out : Str) (n : Nat) (h : w <+: out.take n) : w <+: out :=
  h.trans (List.take_prefix n out)

/-- The last round of `path.Clean` on a relative path whose directory part has
no element `..`: the result is a part without `]` followed by a part without
slash, and it begins neither with `./` nor with `../`. -/
theorem cleanStep_last (b : CleanBuf) (base : Str) (hs : '/' ∉ base) (hn : ']' ∉ b.out)
    (hb : b.out = [] ∨ ∃ f t, b.out = f ++ t ∧ f ≠ [] ∧ f ≠ ['.'] ∧ f ≠ ['.', '.'] ∧ '/' ∉ f ∧
      (t = [] ∨ ∃ t', t = '/' :: t')) :
    (∃ X B, (cleanStep false b base).out = X ++ B ∧ ']' ∉ X ∧ '/' ∉ B) ∧
    ¬ "./".toList <+: (cleanStep false b base).out ∧
    ¬ "../".toList <+: (cleanStep false b base).out := by
  have hQ : ¬ "./".toList <+: b.out ∧ ¬ "../".toList <+: b.out := by
    rcases hb with hb | ⟨f, t, hft, hf1, hf2, hf3, hf4, ht⟩
    · rw [hb]; exact ⟨by decide, by decide⟩
    · rw [hft]; exact firstPlain_not_dot f t hf1 hf2 hf3 hf4 ht
  by_cases he : base = ['.', '.']
  · subst he
    unfold cleanStep
    rw [if_neg (by decide), if_neg (by decide), if_pos rfl]
    by_cases hlen : b.out.length > b.dotdot
    · rw [if_pos hlen]
      simp only
      refine ⟨⟨_, [], (List.append_nil _).symm, fun h => hn (List.mem_of_mem_take h), by simp⟩,
        fun h => hQ.1 (pfx_of_take _ _ _ h), fun h => hQ.2 (pfx_of_take _ _ _ h)⟩
    · rw [if_neg hlen]
      simp only [Bool.not_false, if_true]
      rcases hb with hb | ⟨f, t, hft, hf1, hf2, hf3, hf4, ht⟩
      · rw [hb]
        simp only [List.length_nil, gt_iff_lt, Nat.lt_irrefl, if_false, List.nil_append]
        exact ⟨⟨['.', '.'], [], rfl, by decide, by simp⟩, by decide, by decide⟩
      · have hpos : b.out.length > 0 := by
          rw [hft]
          cases f with
          | nil => exact absurd rfl hf1
          | cons c f => simp
        rw [if_pos hpos]
        refine ⟨⟨_, [], (List.append_nil _).symm, ?_, by simp⟩, ?_⟩
        · intro h
          simp only [List.mem_append, List.mem_cons, List.mem_singleton] at h
          rcases h with (h | h) | h
          · exact hn h
          · exact absurd h (by decide)
          · rcases h with h | h | h
            · exact absurd h (by decide)
            · exact absurd h (by decide)
            · simp at h
        · have : b.out ++ ['/'] ++ ['.', '.'] = f ++ (t ++ '/' :: ['.', '.']) := by
            rw [hft]; simp
          rw [this]
          refine firstPlain_not_dot f _ hf1 hf2 hf3 hf4 ?_
          rcases ht with rfl | ⟨t', rfl⟩
          · exact Or.inr ⟨_, rfl⟩
          · exact Or.inr ⟨_, rfl⟩
  · obtain ⟨h1, X, B, hout, hX, hB⟩ := cleanStep_plain_first b base he hs hb
    refine ⟨⟨X, B, hout, ?_, ?_⟩, ?_⟩
    · intro hmem
      rcases hX _ hmem with h' | h'
      · exact hn h'
      · exact absurd h' (by decide)
    · rcases hB with rfl | rfl
      · simp
      · exact hs
    · rcases h1 with h1 | ⟨f, t, hft, hf1, hf2, hf3, hf4, ht⟩
      · rw [h1]; exact ⟨by decide, by decide⟩
      · rw [hft]; exact firstPlain_not_dot f t hf1 hf2 hf3 hf4 ht

/-- The result of `path.Clean` on a relative path whose directory part has no
element `..` and no `]`, and whose last element is `base`. -/
theorem pathClean_relative (es : List Str) (base p : Str) (hp : p ≠ [])
    (hhead : p.head? ≠ some '/') (hsplit : splitOnChar '/' p = es ++ [base])
    (hes : ∀ e ∈ es, e ≠ ['.', '.'] ∧ '/' ∉ e ∧ ']' ∉ e) (hs : '/' ∉ base) :
    (∃ X B, pathClean p = X ++ B ∧ ']' ∉ X ∧ '/' ∉ B) ∧
    ¬ "./".toList <+: pathClean p ∧ ¬ "../".toList <+: pathClean p := by
  unfold pathClean
  rw [if_neg hp]
  simp only [hhead, decide_False, Bool.false_eq_true, if_false, hsplit, List.foldl_append,
    List.foldl_cons, List.foldl_nil]
  obtain ⟨hn, hb⟩ := cleanFold_plain_first es { out := [], dotdot := 0 } hes (by simp)
    (Or.inl rfl)
  obtain ⟨⟨X, B, hout, hX, hB⟩, hq1, hq2⟩ := cleanStep_last _ base hs hn hb
  by_cases hempty : (cleanStep false (es.foldl (cleanStep false) { out := [], dotdot := 0 })
      base).out = []
  · rw [if_pos hempty]
    exact ⟨⟨['.'], [], rfl, by decide, by simp⟩, by decide, by decide⟩
  · rw [if_neg hempty]
    exact ⟨⟨X, B, hout, hX, hB⟩, hq1, hq2⟩

/-- The URL that `extractAssets` writes, for a prefix without `]` that begins
with a slash or has no path element `..`: it begins neither with `./` nor with
`../`, and no `]` in it is followed by a slash. -/
theorem pathJoin_plain_dir (pre base : Str)
    (h1 : pre.head? = some '/' ∨ "..".toList ∉ splitOnChar '/' pre) (h2 : ']' ∉ pre)
    (h3 : '/' ∉ base) :
    (∃ X B, pathJoin [pre, base] = X ++ B ∧ ']' ∉ X ∧ '/' ∉ B) ∧
    ¬ "./".toList <+: pathJoin [pre, base] ∧ ¬ "../".toList <+: pathJoin [pre, base] := by
  by_cases hroot : pre.head? = some '/'
  · obtain ⟨X, B, hJ, hX, hB⟩ := pathJoin_rooted pre base hroot h2 h3
    rw [hJ]
    refine ⟨⟨'/' :: X, B, rfl, ?_, hB⟩, ?_, ?_⟩
    · simp only [List.mem_cons, not_or]
      exact ⟨by decide, hX⟩
    · simp [String.toList]
    · simp [String.toList]
  · have hdd : "..".toList ∉ splitOnChar '/' pre := by
      rcases h1 with h1 | h1
      · exact absurd h1 hroot
      · exact h1
    have hes : ∀ e ∈ splitOnChar '/' pre, e ≠ ['.', '.'] ∧ '/' ∉ e ∧ ']' ∉ e := by
      intro e he
      refine ⟨?_, splitOnChar_not_mem '/' pre e he,
        fun hc => h2 (mem_of_mem_splitOnChar '/' _ e _ he hc)⟩
      rintro rfl
      exact hdd he
    cases pre with
    | nil =>
      cases base with
      | nil =>
        have : pathJoin [[], []] = [] := by decide
        rw [this]
        exact ⟨⟨[], [], rfl, by simp, by simp⟩, by decide, by decide⟩
      | cons c base =>
        have hjoin : pathJoin [[], c :: base] = pathClean (c :: base) := by
          simp [pathJoin, pathJoinBuf]
        rw [hjoin]
        apply pathClean_relative [] (c :: base) (c :: base) (by simp)
        · simp only [List.head?_cons, ne_eq, Option.some.injEq]
          rintro rfl
          exact h3 (by simp)
        · rw [List.nil_append]
          exact splitOnChar_of_not_mem '/' _ h3
        · simp
        · exact h3
    | cons c pre' =>
      have hjoin : pathJoin [c :: pre', base] = pathClean ((c :: pre') ++ '/' :: base) := by
        simp [pathJoin, pathJoinBuf]
      rw [hjoin]
      apply pathClean_relative (splitOnChar '/' (c :: pre')) base _ (by simp)
      · simpa using hroot
      · rw [splitOnChar_append_sep, splitOnChar_of_not_mem '/' base h3]
      · exact hes
      · exact h3

/-! ## Links behind a `![` -/

theorem hasPrefix_iff : ∀ (s p : Str), hasPrefix s p = true ↔ p <+: s := by
  intro s p
  induction p generalizing s with
  | nil => cases s <;> simp [hasPrefix]
  | cons d p ih =>
    cases s with
    | nil => simp [hasPrefix]
    | cons c s =>
      simp only [hasPrefix, Bool.and_eq_true, beq_iff_eq, List.cons_prefix_cons, ih]
      constructor
      · rintro ⟨h1, h2⟩; exact ⟨h1.symm, h2⟩
      · rintro ⟨h1, h2⟩; exact ⟨h1.symm, h2⟩

theorem pfx_append_of_not_mem (c : Char) (rest : Str) : ∀ (w J : Str), c ∉ w →
    w <+: J ++ c :: rest → w <+: J := by
  intro w
  induction w with
  | nil => intro J _ _; exact List.nil_prefix
  | cons d w ih =>
    intro J hc h
    simp only [List.mem_cons, not_or] at hc
    cases J with
    | nil =>
      rw [List.nil_append, List.cons_prefix_cons] at h
      exact absurd h.1.symm hc.1
    | cons j J =>
      rw [List.cons_append, List.cons_prefix_cons] at h
      rw [List.cons_prefix_cons]
      exact ⟨h.1, ih J hc.2 h.2⟩

theorem pfx_append_of_not_mem_tail (c : Char) (rest : Str) (w : Str) (hc : c ∉ w.tail)
    (j : Char) (J : Str) (h : w <+: (j :: J) ++ c :: rest) : w <+: j :: J := by
  cases w with
  | nil => exact List.nil_prefix
  | cons d w =>
    rw [List.cons_append, List.cons_prefix_cons] at h
    rw [List.cons_prefix_cons]
    exact ⟨h.1, pfx_append_of_not_mem c rest w J hc h.2⟩

theorem hasPrefix_append_of_not_mem (c : Char) (rest w : Str) (hc : c ∉ w) (j : Char) (J : Str) :
    hasPrefix ((j :: J) ++ c :: rest) w = hasPrefix (j :: J) w := by
  cases h1 : hasPrefix (j :: J) w with
  | true =>
    rw [hasPrefix_iff] at h1 ⊢
    exact h1.trans (List.prefix_append _ _)
  | false =>
    cases h2 : hasPrefix ((j :: J) ++ c :: rest) w with
    | false => rfl
    | true =>
      rw [hasPrefix_iff] at h2
      have := pfx_append_of_not_mem c rest w (j :: J) hc h2
      rw [← hasPrefix_iff, h1] at this
      exact absurd this (by simp)

theorem linkBehindBang_cons (o : Bool) (c : Char) (s : Str) :
    linkBehindBang o (c :: s)
      = ((o && (hasPrefix (c :: s) "](./".toList || hasPrefix (c :: s) "](../".toList)) ||
          linkBehindBang (if c = '\n' then false else o || hasPrefix (c :: s) "![".toList) s) :=
  rfl

theorem linkBehindBang_cons_false (o : Bool) (c : Char) (s : Str) :
    linkBehindBang o (c :: s) = false ↔
      (o = true → hasPrefix (c :: s) "](./".toList = false ∧
        hasPrefix (c :: s) "](../".toList = false) ∧
      linkBehindBang (if c = '\n' then false else o || hasPrefix (c :: s) "![".toList) s
        = false := by
  rw [linkBehindBang_cons, Bool.or_eq_false_iff]
  cases o <;> simp

theorem linkBehindBang_cons_of_tail (o : Bool) (c : Char) (s : Str)
    (h : linkBehindBang (if c = '\n' then false else o || hasPrefix (c :: s) "![".toList) s
      = true) : linkBehindBang o (c :: s) = true := by
  rw [linkBehindBang_cons, h, Bool.or_true]

/-- A `![` on the line in front is the worst case. -/
theorem linkBehindBang_mono : ∀ (T : Str) (o : Bool), linkBehindBang true T = false →
    linkBehindBang o T = false := by
  intro T
  induction T with
  | nil => intro o _; rfl
  | cons c T ih =>
    intro o h
    rw [linkBehindBang_cons_false] at h ⊢
    refine ⟨fun _ => h.1 rfl, ?_⟩
    by_cases hc : c = '\n'
    · rw [if_pos hc] at h ⊢; exact h.2
    · rw [if_neg hc] at h ⊢
      rw [Bool.true_or] at h
      exact ih _ h.2

/-- A text in which `![`, runes of the same line and `](./` or `](../` follow
each other has a link behind a `![`. -/
theorem linkBehindBang_run (pat rest : Str)
    (hpat : pat = "](./".toList ∨ pat = "](../".toList) : ∀ (w : Str), '\n' ∉ w →
    linkBehindBang true (w ++ (pat ++ rest)) = true := by
  intro w
  induction w with
  | nil =>
    intro _
    rcases hpat with rfl | rfl <;> simp [linkBehindBang, hasPrefix, String.toList]
  | cons c w ih =>
    intro h
    simp only [List.mem_cons, not_or] at h
    have hc : ¬ c = '\n' := fun hc => h.1 hc.symm
    rw [List.cons_append]
    apply linkBehindBang_cons_of_tail
    rw [if_neg hc, Bool.true_or]
    exact ih h.2

theorem linkBehindBang_of_match (pat rest alt : Str)
    (hpat : pat = "](./".toList ∨ pat = "](../".toList) (halt : '\n' ∉ alt) :
    ∀ (x : Str) (o : Bool),
      linkBehindBang o (x ++ '!' :: '[' :: (alt ++ (pat ++ rest))) = true := by
  intro x
  induction x with
  | nil =>
    intro o
    have h := linkBehindBang_run pat rest hpat ('[' :: alt)
      (by simp only [List.mem_cons, not_or]; exact ⟨by decide, halt⟩)
    rw [List.cons_append] at h
    rw [List.nil_append]
    apply linkBehindBang_cons_of_tail
    rw [if_neg (by decide)]
    have : hasPrefix ('!' :: '[' :: (alt ++ (pat ++ rest))) "![".toList = true := by
      simp [hasPrefix, String.toList]
    rw [this, Bool.or_true]
    exact h
  | cons c x ih =>
    intro o
    rw [List.cons_append]
    apply linkBehindBang_cons_of_tail
    exact ih _

/-- The scan of a piece of prose goes on into an image reference. -/
theorem linkBehindBang_append_bang (R : Str) (hR : linkBehindBang true ('!' :: R) = false) :
    ∀ (S : Str) (o : Bool), linkBehindBang o S = false →
      linkBehindBang o (S ++ '!' :: R) = false := by
  intro S
  induction S with
  | nil => intro o _; exact linkBehindBang_mono _ o hR
  | cons c S ih =>
    intro o h
    rw [linkBehindBang_cons_false] at h
    have e1 := hasPrefix_append_of_not_mem '!' R "](./".toList (by decide) c S
    have e2 := hasPrefix_append_of_not_mem '!' R "](../".toList (by decide) c S
    have e3 : hasPrefix ((c :: S) ++ '!' :: R) "![".toList = hasPrefix (c :: S) "![".toList := by
      cases S with
      | nil => simp [hasPrefix, String.toList]
      | cons d S => simp [hasPrefix, String.toList]
    rw [List.cons_append] at e1 e2 e3 ⊢
    rw [linkBehindBang_cons_false, e1, e2, e3]
    exact ⟨h.1, ih _ h.2⟩

/-- The scan passes a text without `](./` and `](../` that ends with a rune
other than those of the two patterns. -/
theorem linkBehindBang_append_noLink (c : Char) (R : Str) (hc1 : c ∉ "](./".toList)
    (hc2 : c ∉ "](../".toList) (hR : linkBehindBang true R = false) :
    ∀ (A : Str) (o : Bool), NoLink (A ++ [c]) → linkBehindBang o ((A ++ [c]) ++ R) = false := by
  intro A
  induction A with
  | nil =>
    intro o _
    have h1 : hasPrefix (c :: R) "](./".toList = false := by
      apply hasPrefix_head_ne
      intro h; exact hc1 (by simp [h, String.toList])
    have h2 : hasPrefix (c :: R) "](../".toList = false := by
      apply hasPrefix_head_ne
      intro h; exact hc2 (by simp [h, String.toList])
    rw [List.nil_append, List.singleton_append, linkBehindBang_cons_false]
    exact ⟨fun _ => ⟨h1, h2⟩, linkBehindBang_mono _ _ hR⟩
  | cons d A ih =>
    intro o h
    have h' : NoLink (A ++ [c]) := ⟨not_infix_tail _ _ _ h.1, not_infix_tail _ _ _ h.2⟩
    have e1 : hasPrefix (d :: (A ++ [c] ++ R)) "](./".toList = false := by
      cases hp : hasPrefix (d :: (A ++ [c] ++ R)) "](./".toList with
      | false => rfl
      | true =>
        exfalso
        rw [hasPrefix_iff] at hp
        have hp' : "](./".toList <+: (d :: A) ++ c :: R := by simpa using hp
        have := pfx_append_of_not_mem c R _ (d :: A) hc1 hp'
        exact h.1 ((this.trans (List.prefix_append _ [c])).isInfix)
    have e2 : hasPrefix (d :: (A ++ [c] ++ R)) "](../".toList = false := by
      cases hp : hasPrefix (d :: (A ++ [c] ++ R)) "](../".toList with
      | false => rfl
      | true =>
        exfalso
        rw [hasPrefix_iff] at hp
        have hp' : "](../".toList <+: (d :: A) ++ c :: R := by simpa using hp
        have := pfx_append_of_not_mem c R _ (d :: A) hc2 hp'
        exact h.2 ((this.trans (List.prefix_append _ [c])).isInfix)
    rw [List.cons_append, List.cons_append, linkBehindBang_cons_false]
    exact ⟨fun _ => ⟨e1, e2⟩, ih _ h'⟩

/-! ## Image references with any alt text -/

theorem assetRegexp_eq :
    assetRegexp = .seq (.lit '!') (.seq (.lit '[') (.seq (.star false .dot) assetTail)) := rfl

/-- The part of the pattern behind the alt text matches only at `](./` or
`](../`. -/
theorem assetTail_sound (st x : MState) (h : rmatch assetTail st some = some x) :
    "](./".toList <+: st.rest ∨ "](../".toList <+: st.rest := by
  unfold assetTail at h
  rw [rmatch] at h
  obtain ⟨t3, hs3, h⟩ := rmatch_lit_some _ _ _ _ h
  rw [rmatch] at h
  obtain ⟨t4, hs4, h⟩ := rmatch_lit_some _ _ _ _ h
  rw [rmatch, rmatch, rmatch] at h
  obtain ⟨t5, hs5, h⟩ := rmatch_lit_some _ _ _ _ h
  rw [rmatch, Regex.opt, rmatch] at h
  simp only at hs3 hs4 hs5
  subst hs4
  subst hs5
  rcases orTry_eq_some _ _ _ h with h1 | h1
  · obtain ⟨t6, hs6, h1⟩ := rmatch_lit_some _ _ _ _ h1
    rw [rmatch] at h1
    obtain ⟨t7, hs7, _⟩ := rmatch_lit_some _ _ _ _ h1
    simp only at hs6 hs7
    subst hs6
    subst hs7
    right
    exact ⟨t7, by rw [hs3]; rfl⟩
  · rw [rmatch, rmatch] at h1
    obtain ⟨t6, hs6, _⟩ := rmatch_lit_some _ _ _ _ h1
    simp only at hs6
    subst hs6
    left
    exact ⟨t6, by rw [hs3]; rfl⟩

/-- Inside an alt text without `./` the part of the pattern behind the alt
text does not match. -/
theorem assetTail_fail (a' X : Str) (ha : a' ≠ []) (hinf : ¬ "./".toList <:+: a')
    (prev : Option Char) (cap : Option Str) :
    rmatch assetTail ⟨prev, a' ++ ']' :: X, cap⟩ some = none := by
  cases h : rmatch assetTail ⟨prev, a' ++ ']' :: X, cap⟩ some with
  | none => rfl
  | some x =>
    exfalso
    cases a' with
    | nil => exact ha rfl
    | cons j J =>
      rcases assetTail_sound _ x h with h1 | h1
      · have := pfx_append_of_not_mem_tail ']' X "](./".toList (by decide) j J h1
        obtain ⟨r, hr⟩ := this
        exact hinf ⟨"](".toList, r, by rw [← hr]; rfl⟩
      · have := pfx_append_of_not_mem_tail ']' X "](../".toList (by decide) j J h1
        obtain ⟨r, hr⟩ := this
        exact hinf ⟨"](.".toList, r, by rw [← hr]; rfl⟩

/-- A lazy repetition passes the runes at which its continuation fails. -/
theorem starLoop_lazy_skip_pos (p : Char → Bool) (k : MState → Option MState) (rest : Str)
    (cap : Option Str) : ∀ (a : Str) (n : Nat) (prev : Option Char),
    (∀ c ∈ a, p c = true) →
    (∀ a', a' <:+ a → a' ≠ [] → ∀ prev', k ⟨prev', a' ++ rest, cap⟩ = none) →
    (a ++ rest).length ≤ n →
    starLoop (rmatch (.cls p)) false n ⟨prev, a ++ rest, cap⟩ k
      = starLoop (rmatch (.cls p)) false (n - a.length) ⟨advance prev a, rest, cap⟩ k := by
  intro a
  induction a with
  | nil => intro n prev _ _ _; simp [advance]
  | cons c a ih =>
    intro n prev hp hk hn
    obtain ⟨m, rfl⟩ : ∃ m, n = m + 1 := ⟨n - 1, by simp at hn; omega⟩
    have hlen : (a ++ rest).length ≤ m := by simp at hn ⊢; omega
    have hk0 := hk (c :: a) (List.suffix_refl _) (by simp) prev
    rw [List.cons_append] at hk0
    simp only [List.cons_append, starLoop, hk0, orTry_none, rmatch_cls_cons,
      hp c (by simp), if_true, List.length_cons, Nat.lt_succ_self, Bool.false_eq_true, if_false]
    rw [ih m (some c) (fun x hx => hp x (List.mem_cons_of_mem _ hx))
      (fun a' ha' hne prev' => hk a' (ha'.trans (List.suffix_cons c a)) hne prev') hlen]
    simp [advance]

theorem not_infix_of_suffix (w a' a : Str) (h : a' <:+ a) (hinf : ¬ w <:+: a) : ¬ w <:+: a' :=
  fun h' => hinf (h'.trans h.isInfix)

theorem rmatch_imageRef_gen (a u r t : Str) (ha : '\n' ∉ a) (hinf : ¬ "./".toList <:+: a)
    (hr : r ≠ []) (hp : ')' ∉ r) (hn : '\n' ∉ r)
    (hu : u = "./".toList ++ r ∨ u = "../".toList ++ r) (before : Option Char) :
    rmatch assetRegexp ⟨before, imageRef a u ++ t, none⟩ some = some ⟨some ')', t, some u⟩ := by
  rw [imageRef_append, assetRegexp_eq]
  rw [rmatch, rmatch_lit_cons, if_pos rfl, rmatch, rmatch_lit_cons, if_pos rfl, rmatch, rmatch]
  simp only [Regex.dot]
  rw [starLoop_lazy_skip_pos _ _ _ _ a _ (some '[')
    (fun x hx => by
      simp only [bne_iff_ne, ne_eq]
      exact fun h => ha (h ▸ hx))
    (fun a' ha' hne prev' =>
      assetTail_fail a' _ hne (not_infix_of_suffix _ a' a ha' hinf) prev' none)
    (le_refl _)]
  apply starLoop_lazy_stop
  unfold assetTail
  rw [rmatch, rmatch_lit_cons, if_pos rfl, rmatch, rmatch_lit_cons, if_pos rfl, rmatch]
  exact rmatch_url_group u r t hr hp hn hu _ _

theorem matchAt_ref_gen (a u t : Str) (ha : '\n' ∉ a) (hinf : ¬ "./".toList <:+: a)
    (hu : RelativeURL u) (before : Option Char) :
    matchAt assetRegexp before (imageRef a u ++ t)
      = some { text := imageRef a u, group1 := u } := by
  obtain ⟨r, hr, hp, hn, hu'⟩ := relativeURL_split u hu
  unfold matchAt
  rw [rmatch_imageRef_gen a u r t ha hinf hr hp hn hu' before]
  simp

theorem extractAssetsRepl_ref_gen (imagePrefixPath a u : Str) (ha : '\n' ∉ a)
    (hinf : ¬ "./".toList <:+: a) (hu : RelativeURL u) :
    extractAssetsRepl imagePrefixPath (imageRef a u)
      = some (imageRef a (pathJoin [imagePrefixPath, afterLastSlash u])) := by
  have h1 := pieces_found assetRegexp none false (imageRef a u) [] u
    (imageRef_ne_nil _ _) (matchAt_ref_gen a u [] ha hinf hu none)
  rw [List.append_nil] at h1
  obtain ⟨r, _, _, _, hu'⟩ := relativeURL_split u hu
  simp only [extractAssetsRepl, findStringSubmatch, h1, List.findSome?_cons, pathSplit_snd]
  exact congrArg some (stringsReplace_imageRef a u r _ hinf hu')

/-! ## Image references in running text -/

/-- A match of `assetRegexp` begins with `![`, runs on within the line, and
goes on with `](./` or `](../`. -/
theorem matchAt_asset_shape (before : Option Char) (s : Str) (m : Match)
    (h : matchAt assetRegexp before s = some m) :
    ∃ alt pat rest, '\n' ∉ alt ∧ (pat = "](./".toList ∨ pat = "](../".toList) ∧
      s = '!' :: '[' :: (alt ++ (pat ++ rest)) := by
  unfold matchAt at h
  cases hr : rmatch assetRegexp ⟨before, s, none⟩ some with
  | none => rw [hr] at h; exact absurd h (by simp)
  | some x =>
    clear h
    rw [assetRegexp_eq, rmatch] at hr
    obtain ⟨t1, hs1, hr⟩ := rmatch_lit_some _ _ _ _ hr
    rw [rmatch] at hr
    obtain ⟨t2, hs2, hr⟩ := rmatch_lit_some _ _ _ _ hr
    rw [rmatch, rmatch] at hr
    obtain ⟨alt, st, hsplit, halt, _, hr⟩ := starLoop_cls_split _ _ _ _ _ _ hr
    simp only at hs1 hs2 hsplit
    have hn : '\n' ∉ alt := by
      intro hmem
      have := halt _ hmem
      simp [Regex.dot] at this
    rcases assetTail_sound st x hr with ⟨rest, h1⟩ | ⟨rest, h1⟩
    · exact ⟨alt, _, rest, hn, Or.inl rfl, by rw [hs1, hs2, hsplit, ← h1]⟩
    · exact ⟨alt, _, rest, hn, Or.inr rfl, by rw [hs1, hs2, hsplit, ← h1]⟩

theorem suffix_lastLine (x y : Str) (hy : '\n' ∉ y) : y <:+ lastLine (x ++ y) := by
  unfold lastLine
  rw [List.reverse_append, List.takeWhile_append_of_pos]
  · rw [List.reverse_append, List.reverse_reverse]
    exact List.suffix_append _ _
  · intro c hc
    have : c ≠ '\n' := fun h => hy (h ▸ List.mem_reverse.1 hc)
    simpa using this

/-- No match of `assetRegexp` starts inside a piece of prose in which no link
stands behind a `![` and whose last line has no `![`, when an image reference
follows. -/
theorem matchAt_prose_none (S R s' : Str) (b : Option Char) (o : Bool)
    (hS : linkBehindBang o S = false)
    (hbang : ¬ "![".toList <:+: lastLine S) (hs' : s' <:+ S) (hne : s' ≠ []) :
    matchAt assetRegexp b (s' ++ '!' :: R) = none := by
  cases hm : matchAt assetRegexp b (s' ++ '!' :: R) with
  | none => rfl
  | some m =>
    exfalso
    obtain ⟨alt, pat, rest, halt, hpat, heq⟩ := matchAt_asset_shape b _ m hm
    have hp1 : '\n' ∉ pat := by rcases hpat with rfl | rfl <;> decide
    have heq' : s' ++ '!' :: R = ('!' :: '[' :: (alt ++ pat)) ++ rest := by
      rw [heq]; simp
    obtain ⟨pre, hpre⟩ := hs'
    rcases List.append_eq_append_iff.1 heq' with ⟨a', h1, h2⟩ | ⟨c', h1, h2⟩
    · cases a' with
      | nil =>
        rw [List.append_nil] at h1
        have := linkBehindBang_of_match pat [] alt hpat halt pre o
        rw [List.append_nil, h1, hpre, hS] at this
        exact absurd this (by simp)
      | cons d a' =>
        simp only [List.cons_append, List.cons.injEq] at h2
        obtain ⟨rfl, _⟩ := h2
        -- the prose ends inside the match
        have hnl : '\n' ∉ s' := by
          intro hmem
          have : '\n' ∈ '!' :: '[' :: (alt ++ pat) := by
            rw [h1]; simp [hmem]
          simp only [List.mem_cons, List.mem_append] at this
          rcases this with h | h | h | h
          · exact absurd h (by decide)
          · exact absurd h (by decide)
          · exact halt h
          · exact hp1 h
        have hsuf := suffix_lastLine pre s' hnl
        rw [hpre] at hsuf
        match s', hne, h1, hsuf with
        | [c], _, h1, _ =>
          simp only [List.cons_append, List.nil_append, List.cons.injEq] at h1
          exact absurd h1.2.1 (by decide)
        | c :: e :: s'', _, h1, hsuf =>
          simp only [List.cons_append, List.cons.injEq] at h1
          obtain ⟨rfl, rfl, _⟩ := h1
          exact hbang ((List.IsPrefix.isInfix ⟨s'', rfl⟩).trans hsuf.isInfix)
    · -- the whole of the pattern lies in the prose
      have := linkBehindBang_of_match pat c' alt hpat halt pre o
      have e : pre ++ '!' :: '[' :: (alt ++ (pat ++ c')) = S := by
        rw [← hpre, h1]; simp
      rw [e, hS] at this
      exact absurd this (by simp)

/-- No match of `assetRegexp` starts in a text in which no link stands behind
a `![`. -/
theorem matchAt_safe_none (T s' : Str) (b : Option Char) (o : Bool)
    (hT : linkBehindBang o T = false) (hs' : s' <:+ T) : matchAt assetRegexp b s' = none := by
  cases hm : matchAt assetRegexp b s' with
  | none => rfl
  | some m =>
    exfalso
    obtain ⟨alt, pat, rest, halt, hpat, heq⟩ := matchAt_asset_shape b _ m hm
    obtain ⟨pre, hpre⟩ := hs'
    have := linkBehindBang_of_match pat rest alt hpat halt pre o
    rw [← heq, hpre, hT] at this
    exact absurd this (by simp)

theorem pieces_safe (T : Str) (o : Bool) (hT : linkBehindBang o T = false)
    (b : Option Char) (ab : Bool) : pieces assetRegexp b 0 ab T = T.map .rune :=
  pieces_no_match assetRegexp T b ab (fun s' b' hs' => matchAt_safe_none T s' b' o hT hs')

/-- Runes at which no match starts are copied by the scan. -/
theorem pieces_runes_front (re : Regex) (R : Str) : ∀ (S : Str) (b : Option Char) (ab : Bool),
    (∀ s', s' <:+ S → s' ≠ [] → ∀ b', matchAt re b' (s' ++ R) = none) →
    ∃ ab', pieces re b 0 ab (S ++ R) = S.map .rune ++ pieces re (advance b S) 0 ab' R := by
  intro S
  induction S with
  | nil => intro b ab _; exact ⟨ab, rfl⟩
  | cons c S ih =>
    intro b ab h
    obtain ⟨ab', hab'⟩ := ih (some c) false
      (fun s' hs' hne b' => h s' (hs'.trans (List.suffix_cons c S)) hne b')
    refine ⟨ab', ?_⟩
    have hm : matchAt re b (c :: (S ++ R)) = none :=
      h (c :: S) (List.suffix_refl _) (by simp) b
    rw [List.cons_append, pieces_rune re b ab c (S ++ R) hm, hab']
    rfl

theorem pieces_proseRefs (tail : Str) : ∀ (items : List (Str × Str × Str)) (o : Bool),
    ProseRefsOK o items tail → ∀ (b : Option Char) (ab : Bool),
      pieces assetRegexp b 0 ab (proseRefs items tail) = prosePieces items tail := by
  intro items
  induction items with
  | nil =>
    intro o h b ab
    exact pieces_safe tail o h b ab
  | cons x items ih =>
    intro o h b ab
    obtain ⟨h1, h2, h3, h4, h5, h6⟩ := h
    obtain ⟨ab', hab'⟩ := pieces_runes_front assetRegexp
      (imageRef x.2.1 x.2.2 ++ proseRefs items tail) x.1 b ab
      (fun s' hs' hne b' => by
        rw [imageRef_append]
        exact matchAt_prose_none x.1 _ s' b' o h1 h2 hs' hne)
    simp only [proseRefs, prosePieces]
    rw [hab', pieces_found assetRegexp _ ab' (imageRef x.2.1 x.2.2) _ x.2.2
      (imageRef_ne_nil _ _) (matchAt_ref_gen x.2.1 x.2.2 _ h3 h4 h5 _), ih true h6]

theorem render_proseRefs (imagePrefixPath tail : Str) :
    ∀ (items : List (Str × Str × Str)) (o : Bool), ProseRefsOK o items tail →
    renderFunc (extractAssetsRepl imagePrefixPath) (prosePieces items tail)
      = some (proseRefs (items.map (fun x =>
          (x.1, x.2.1, pathJoin [imagePrefixPath, afterLastSlash x.2.2]))) tail) := by
  intro items
  induction items with
  | nil => intro _ _; exact renderFunc_runes _ tail
  | cons x items ih =>
    intro o h
    obtain ⟨_, _, h3, h4, h5, h6⟩ := h
    simp only [prosePieces, List.map_cons, proseRefs]
    rw [renderFunc_runes_append, renderFunc,
      extractAssetsRepl_ref_gen imagePrefixPath x.2.1 x.2.2 h3 h4 h5, ih true h6]
    rfl

theorem filterMap_runes (f : Piece → Option Match) (hf : ∀ c, f (.rune c) = none) :
    ∀ A : Str, (A.map Piece.rune).filterMap f = [] := by
  intro A
  induction A with
  | nil => rfl
  | cons c A ih => rw [List.map_cons, List.filterMap_cons, hf c]; exact ih

theorem filterMap_prosePieces (f : Piece → Option Match) (hf : ∀ c, f (.rune c) = none)
    (hg : ∀ m, f (.found m) = some m) (tail : Str) : ∀ items : List (Str × Str × Str),
    ((prosePieces items tail).filterMap f).map (fun l => l.group1)
      = items.map (fun x => x.2.2) := by
  intro items
  induction items with
  | nil =>
    simp only [prosePieces, List.map_nil]
    rw [filterMap_runes f hf]
    rfl
  | cons x items ih =>
    simp only [prosePieces, List.map_cons, List.filterMap_append, List.map_append,
      List.filterMap_cons, hg, filterMap_runes f hf, List.map_nil, List.nil_append, ih]

/-- The first pass of `extractAssets` on prose with image references. -/
theorem extractAssets_proseRefs (imagePrefixPath tail : Str) (items : List (Str × Str × Str))
    (p : page) (h : ProseRefsOK false items tail) (htext : p.text = proseRefs items tail) :
    extractAssets imagePrefixPath p
      = some { p with
          assets := items.map (fun x => x.2.2),
          text := proseRefs (items.map (fun x =>
            (x.1, x.2.1, pathJoin [imagePrefixPath, afterLastSlash x.2.2]))) tail } := by
  have hp := pieces_proseRefs tail items false h none false
  have hr := render_proseRefs imagePrefixPath tail items false h
  have hf : (findAllStringSubmatch assetRegexp (proseRefs items tail)).map (fun l => l.group1)
      = items.map (fun x => x.2.2) := by
    unfold findAllStringSubmatch
    rw [hp]
    exact filterMap_prosePieces _ (fun _ => rfl) (fun _ => rfl) tail items
  unfold extractAssets
  simp only [htext, replaceAllStringFunc_eq, hp, hr, hf]

/-- A text in which no link stands behind a `![` is left as it is, with an
empty assets list. -/
theorem extractAssets_safe (imagePrefixPath : Str) (p : page)
    (h : linkBehindBang false p.text = false) :
    extractAssets imagePrefixPath p = some { p with assets := [] } := by
  have hp := pieces_safe p.text false h none false
  have hfind : findAllStringSubmatch assetRegexp p.text = [] := by
    unfold findAllStringSubmatch
    rw [hp]
    exact filterMap_runes _ (fun _ => rfl) p.text
  unfold extractAssets
  simp only [replaceAllStringFunc_eq, hp, renderFunc_runes, hfind, List.map_nil]

/-! ## The text of the first pass has no link behind a `![` -/

theorem noLink_of_no_dotslash (a : Str) (h : ¬ "./".toList <:+: a) : NoLink a := by
  constructor
  · rintro ⟨x, y, rfl⟩
    exact h ⟨x ++ "](".toList, y, by simp [String.toList]⟩
  · rintro ⟨x, y, rfl⟩
    exact h ⟨x ++ "](.".toList, y, by simp [String.toList]⟩

/-- An alt text without `./` in front of `]` brings no relative link. -/
theorem noLink_append_bracket (R : Str) (hR : NoLink (']' :: R)) : ∀ a : Str,
    ¬ "./".toList <:+: a → NoLink (a ++ ']' :: R) := by
  intro a
  induction a with
  | nil => intro _; exact hR
  | cons c a ih =>
    intro h
    have h' : ¬ "./".toList <:+: a := not_infix_tail _ _ _ h
    have hn := noLink_of_no_dotslash (c :: a) h
    rw [List.cons_append]
    apply noLink_cons c _ (ih h')
    · intro hp
      exact hn.1 (pfx_append_of_not_mem_tail ']' R _ (by decide) c a hp).isInfix
    · intro hp
      exact hn.2 (pfx_append_of_not_mem_tail ']' R _ (by decide) c a hp).isInfix

/-- An image reference whose alt text has no `./` and whose URL begins neither
with `./` nor with `../` and has no slash behind a `]` holds no relative
link. -/
theorem noLink_ref_gen (a J : Str) (ha : ¬ "./".toList <:+: a)
    (hJ : ∃ X B, J = X ++ B ∧ ']' ∉ X ∧ '/' ∉ B)
    (h1 : ¬ "./".toList <+: J) (h2 : ¬ "../".toList <+: J) :
    NoLink (imageRef a J) := by
  obtain ⟨X, B, rfl, hX, hB⟩ := hJ
  have e := imageRef_append a (X ++ B) []
  rw [List.append_nil] at e
  rw [e]
  apply noLink_cons_ne _ _ (by decide)
  apply noLink_cons_ne _ _ (by decide)
  apply noLink_append_bracket _ _ a ha
  apply noLink_cons
  · apply noLink_cons_ne _ _ (by decide)
    rw [List.append_assoc]
    apply noLink_append _ _ X hX
    exact noLink_base [] (noLink_cons_ne _ _ (by decide) noLink_nil) B hB
  · intro h
    have h' : "./".toList <+: (X ++ B) ++ ')' :: [] := by
      simpa [String.toList] using h
    exact h1 (pfx_append_of_not_mem ')' [] _ _ (by decide) h')
  · intro h
    have h' : "../".toList <+: (X ++ B) ++ ')' :: [] := by
      simpa [String.toList] using h
    exact h2 (pfx_append_of_not_mem ')' [] _ _ (by decide) h')

theorem linkBehindBang_proseRefs (tail : Str) (f : Str → Str)
    (hf : ∀ u, (∃ X B, f u = X ++ B ∧ ']' ∉ X ∧ '/' ∉ B) ∧
      ¬ "./".toList <+: f u ∧ ¬ "../".toList <+: f u) :
    ∀ (items : List (Str × Str × Str)) (o : Bool), ProseRefsOK o items tail →
    linkBehindBang o (proseRefs (items.map (fun x => (x.1, x.2.1, f x.2.2))) tail) = false := by
  intro items
  induction items with
  | nil => intro o h; exact h
  | cons x items ih =>
    intro o h
    obtain ⟨h1, _, _, h4, _, h6⟩ := h
    obtain ⟨hJ, hJ1, hJ2⟩ := hf x.2.2
    have hrest := ih true h6
    have hno := noLink_ref_gen x.2.1 (f x.2.2) h4 hJ hJ1 hJ2
    have href : linkBehindBang true (imageRef x.2.1 (f x.2.2) ++
        proseRefs (items.map (fun x => (x.1, x.2.1, f x.2.2))) tail) = false :=
      linkBehindBang_append_noLink ')' _ (by decide) (by decide) hrest
        ("![".toList ++ x.2.1 ++ "](".toList ++ f x.2.2) true hno
    simp only [List.map_cons, proseRefs]
    rw [imageRef_append] at href ⊢
    exact linkBehindBang_append_bang _ href x.1 o h1

theorem proseRefs_eq (tail : Str) : ∀ (items : List (Str × Str × Str)),
    (items.map (fun x =>
        x.1 ++ "![".toList ++ x.2.1 ++ "](".toList ++ x.2.2 ++ ")".toList)).flatten ++ tail
      = proseRefs items tail := by
  intro items
  induction items with
  | nil => rfl
  | cons x items ih =>
    rw [List.map_cons, List.flatten_cons, List.append_assoc, ih]
    simp [proseRefs, imageRef]

/-- C5, amended: for every prefix without `]` that begins with a slash or has
no path element `..`, and every text made of image references `![a_i](u_i)`
with any prose in front of, between and behind them, such that every `a_i` is
without newline and without `./`, every `u_i` is a relative URL, no piece of
prose that a reference follows has a `![` behind its last newline (the match
begins at the first `![` of the line part, and `a_i` is all that stands between
it and `](`), and no `](./` or `](../` of the prose stands behind a `![` or
behind a reference of its line: the first pass of `extractAssets` returns a
page whose assets are the `u_i`, and running `extractAssets` on that page
changes nothing further: the second pass returns the text of the first pass and
an empty assets list. -/
theorem extractAssets_twice (imagePrefixPath : Str) (items : List (Str × Str × Str))
    (tail : Str) (p : page)
    (hpre1 : imagePrefixPath.head? = some '/' ∨ "..".toList ∉ splitOnChar '/' imagePrefixPath)
    (hpre2 : ']' ∉ imagePrefixPath)
    (hitems : ProseRefsOK false items tail)
    (htext : p.text
      = (items.map (fun x =>
          x.1 ++ "![".toList ++ x.2.1 ++ "](".toList ++ x.2.2 ++ ")".toList)).flatten ++ tail) :
    ∃ q : page, extractAssets imagePrefixPath p = some q ∧
      q.assets = items.map (fun x => x.2.2) ∧
      extractAssets imagePrefixPath q = some { q with assets := [], text := q.text } := by
  rw [proseRefs_eq] at htext
  refine ⟨_, extractAssets_proseRefs imagePrefixPath tail items p hitems htext, rfl, ?_⟩
  apply extractAssets_safe
  exact linkBehindBang_proseRefs tail
    (fun u => pathJoin [imagePrefixPath, afterLastSlash u])
    (fun u => pathJoin_plain_dir imagePrefixPath (afterLastSlash u) hpre1 hpre2
      (afterLastSlash_no_slash u))
    items false hitems

theorem extractAssets_twice_witness :
    ∃ q : page,
      extractAssets "img".toList
          { filename := [], attributes := [],
            text := ("[Home](./index.md)\nSee ![one](./x.png) and ![two](../assets/y.png)!\n" ++
              "![abs](https://example.com/a.png)\nmore ![three](./z.png) end").toList,
            assets := [] } = some q ∧
      q.assets = ["./x.png".toList, "../assets/y.png".toList, "./z.png".toList] ∧
      extractAssets "img".toList q = some { q with assets := [], text := q.text } :=
  extractAssets_twice "img".toList
    [("[Home](./index.md)\nSee ".toList, "one".toList, "./x.png".toList),
     (" and ".toList, "two".toList, "../assets/y.png".toList),
     ("!\n![abs](https://example.com/a.png)\nmore ".toList, "three".toList, "./z.png".toList)]
    " end".toList
    { filename := [], attributes := [],
      text := ("[Home](./index.md)\nSee ![one](./x.png) and ![two](../assets/y.png)!\n" ++
        "![abs](https://example.com/a.png)\nmore ![three](./z.png) end").toList,
      assets := [] }
    (by decide) (by decide) (by decide) (by decide)

/-- The conditions of the amended claim are needed.  The prefix `..` has a
leading `..` and gives the URL `../y`, which the second pass takes for a
relative link; the prefix `x](./y` brings a `](./` into the URL; and a
relative link behind an image of its line, as in `![a](./x) [l](./p.md)`, is
read by the second pass as the URL of the image. -/
theorem extractAssets_twice_limits :
    ((extractAssets "..".toList
        { filename := [], attributes := [], text := "![a](./y)".toList, assets := [] }).bind
      (extractAssets "..".toList)
      = some { filename := [], attributes := [], text := "![a](../y)".toList,
               assets := ["../y".toList] }) ∧
    ((extractAssets "x](./y".toList
        { filename := [], attributes := [], text := "![a](./z)".toList, assets := [] }).bind
      (extractAssets "x](./y".toList)
      = some { filename := [], attributes := [], text := "![a](x](x](./y/z)".toList,
               assets := ["./y/z".toList] }) ∧
    ((extractAssets "img".toList
        { filename := [], attributes := [], text := "![a](./x) [l](./p.md)".toList,
          assets := [] }).bind
      (extractAssets "img".toList)
      = some { filename := [], attributes := [], text := "![a](img/x) [l](img/p.md)".toList,
               assets := ["./p.md".toList] }) := by
  decide

end LogseqExport
